import Mathlib

/-!
# count_unique_ips: the presence bitmap and the ingestion loop

A shallow embedding of `main.go`.

* Bytes (`byte`, `uint8`) are natural numbers below `256`; a `[]byte` is a `List Nat`.
* `uint32` values are natural numbers below `2 ^ 32`.
* The counters `lineCount`, `errorCount` and `uniqueCount` are Go `int`s, 64 bits wide on
  64-bit platforms; `lineCount` and `errorCount` grow by one per line and `uniqueCount` by at
  most eight per byte of the buffer, far from `2 ^ 63`, so they are kept as natural numbers.
* An input line is a Go string, a sequence of bytes; it is modelled as a `String`, so the
  lines that are not valid UTF-8 are outside the model.
* An index expression `bitSet[index]` panics when `index` is out of range: operations that
  index the buffer return `Option`, with `none` for the panic.
* The standard-library functions called by `ipToUint32` (`strings.TrimSpace`, `net.ParseIP`,
  `IP.To4`, `binary.BigEndian.Uint32`) are embedded from the Go standard library.
* The archive is an input of `main`: the error of opening it, and for each file the
  uncompressed size of its header, the error of opening it, the bytes its reader delivers,
  the error that ends them and whether the end comes with the last bytes.  The reader of
  `archive/zip` ends without an error only after exactly the bytes the header declares; a
  file carries that fact as a field.  The `bufio.Scanner` that splits the bytes into lines is
  embedded from the Go standard library by its outcome: the tokens it delivers and its final
  error.
* An IPv6 literal is specified on its text, after RFC 4291, section 2.2 (`ipv6Bytes`); the
  parser of `net.ParseIP` is embedded from the library and proved sound and complete for that
  text form (`parseIPv6_sound`, `parseIPv6_complete`).
-/

namespace CountUniqueIPs

/-! ## The bit-count table (`init`, `bitsInByte`) -/

/-- The inner loop of `init`: `for b != 0 { count++; b &= b - 1 }`.  The first argument bounds
the number of iterations; the result is the pair of `b` and `count` when the loop stops, so
that `b = 0` in the result says the loop left through its condition.  `b - 1` is evaluated
only for `b != 0`. -/
def countLoop : Nat → Nat → Nat → Nat × Nat
  | 0, b, count => (b, count)
  | fuel + 1, b, count =>
    if b ≠ 0 then countLoop fuel (b &&& (b - 1)) (count + 1) else (b, count)

/-- The body of the outer loop of `init` for one `i`: `b := byte(i)`, run the inner loop (a
byte has eight bits, and each iteration clears one) and store the count at
`bitCountTable[i]`. -/
def initStep (table : List Nat) (i : Nat) : List Nat :=
  table.set i (countLoop 8 (i % 256) 0).2

/-- The table `bitCountTable` after `init`: the loop `for i := 0; i < 256; i++` run on the
zero-valued array `[256]int`. -/
def bitCountTable : List Nat :=
  (List.range 256).foldl initStep (List.replicate 256 0)

/-- The function `bitsInByte`: `bitCountTable[b]` for a byte `b`. -/
def bitsInByte (b : Nat) : Nat :=
  bitCountTable.getD b 0

/-! ## Standard library: `strings.TrimSpace` -/

/-- The predicate `unicode.IsSpace`: the Latin-1 spaces `\t \n \v \f \r`, space, U+0085, U+00A0
and the code points with the White_Space property above Latin-1. -/
def isSpace (c : Char) : Bool :=
  let r := c.toNat
  r == 0x09 || r == 0x0A || r == 0x0B || r == 0x0C || r == 0x0D || r == 0x20 ||
  r == 0x85 || r == 0xA0 || r == 0x1680 || (0x2000 ≤ r && r ≤ 0x200A) ||
  r == 0x2028 || r == 0x2029 || r == 0x202F || r == 0x205F || r == 0x3000

/-- The function `strings.TrimSpace`: the string without its leading and trailing white space. -/
def TrimSpace (s : List Char) : List Char :=
  ((s.dropWhile isSpace).reverse.dropWhile isSpace).reverse

/-! ## Standard library: `netip.ParseAddr`, `net.ParseIP`, `IP.To4` -/

/-- The loop of `netip.parseIPv4Fields` on the rest of the string.  `prev` is the character
before the current one (`none` at index 0), `val`, `pos`, `digLen` and `fields` are the
variables of the loop; the result is `fields` after the final store, `none` for an error. -/
def parseIPv4Loop : List Char → Option Char → Nat → Nat → Nat → List Nat → Option (List Nat)
  | [], _, val, pos, _, fields =>
    if pos < 3 then none else some (fields.set 3 (val % 256))
  | c :: rest, prev, val, pos, digLen, fields =>
    if '0' ≤ c ∧ c ≤ '9' then
      if digLen = 1 ∧ val = 0 then none
      else
        let val1 := val * 10 + (c.toNat - '0'.toNat)
        if val1 > 255 then none
        else parseIPv4Loop rest (some c) val1 pos (digLen + 1) fields
    else if c = '.' then
      if prev = none ∨ rest = [] ∨ prev = some '.' then none
      else if pos = 3 then none
      else parseIPv4Loop rest (some c) 0 (pos + 1) 0 (fields.set pos (val % 256))
    else none

/-- The function `netip.parseIPv4Fields` on the substring `s`, writing into `fields`. -/
def parseIPv4Fields (s : List Char) (fields : List Nat) : Option (List Nat) :=
  parseIPv4Loop s none 0 0 0 fields

/-- The function `netip.parseIPv4`: the four octets of `s`. -/
def parseIPv4 (s : List Char) : Option (List Nat) :=
  parseIPv4Fields s [0, 0, 0, 0]

/-- The value of a hexadecimal digit, `none` for any other character. -/
def hexVal (c : Char) : Option Nat :=
  if '0' ≤ c ∧ c ≤ '9' then some (c.toNat - '0'.toNat)
  else if 'a' ≤ c ∧ c ≤ 'f' then some (c.toNat - 'a'.toNat + 10)
  else if 'A' ≤ c ∧ c ≤ 'F' then some (c.toNat - 'A'.toNat + 10)
  else none

/-- The inner loop of `netip.parseIPv6` reading one hexadecimal group: from offset `off` with
accumulator `acc` it returns the final `off`, `acc` and the unread rest, `none` for an error. -/
def parseHexLoop : List Char → Nat → Nat → Option (Nat × Nat × List Char)
  | [], off, acc => some (off, acc, [])
  | c :: rest, off, acc =>
    match hexVal c with
    | none => some (off, acc, c :: rest)
    | some d =>
      let acc1 := ((acc <<< 4) % 2 ^ 32 + d) % 2 ^ 32
      if off > 3 then none
      else if acc1 > 0xFFFF then none
      else parseHexLoop rest (off + 1) acc1

/-- The main loop `for i < 16` of `netip.parseIPv6`.  The first argument is the number of
16-bit groups still free, so that `i = 16 - 2 * groups`; the result is the state
`(s, i, ellipsis, ip)` at the exit from the loop, `none` for an error.  An embedded IPv4
address is parsed from the rest of the string into the four zero bytes `ip[i:i+4]`. -/
def parseIPv6Loop : Nat → List Char → Int → List Nat → Option (List Char × Nat × Int × List Nat)
  | 0, s, ellipsis, ip => some (s, 16, ellipsis, ip)
  | groups + 1, s, ellipsis, ip =>
    let i := 16 - 2 * (groups + 1)
    match parseHexLoop s 0 0 with
    | none => none
    | some (off, acc, rest) =>
      if off = 0 then none
      else if rest.head? = some '.' then
        if ellipsis < 0 ∧ i ≠ 12 then none
        else if i + 4 > 16 then none
        else
          match parseIPv4Fields s [0, 0, 0, 0] with
          | none => none
          | some f =>
            some ([], i + 4, ellipsis,
              (((ip.set i (f.getD 0 0)).set (i + 1) (f.getD 1 0)).set (i + 2) (f.getD 2 0)).set
                (i + 3) (f.getD 3 0))
      else
        let ip1 := (ip.set i ((acc >>> 8) % 256)).set (i + 1) (acc % 256)
        let i1 := i + 2
        match rest with
        | [] => some ([], i1, ellipsis, ip1)
        | c :: s1 =>
          if c ≠ ':' then none
          else
            match s1 with
            | [] => none
            | c1 :: s2 =>
              if c1 = ':' then
                if ellipsis ≥ 0 then none
                else
                  match s2 with
                  | [] => some ([], i1, (i1 : Int), ip1)
                  | _ :: _ => parseIPv6Loop groups s2 (i1 : Int) ip1
              else parseIPv6Loop groups s1 ellipsis ip1

/-- The expansion of the ellipsis in `netip.parseIPv6`:
`for j := i - 1; j >= ellipsis; j-- { ip[j+n] = ip[j] }; clear(ip[ellipsis : ellipsis+n])`. -/
def expandEllipsis (ip : List Nat) (i ellipsis : Nat) : List Nat :=
  let n := 16 - i
  let moved := ((List.range (i - ellipsis)).map (fun t => i - 1 - t)).foldl
    (fun ip j => ip.set (j + n) (ip.getD j 0)) ip
  (List.range n).foldl (fun ip t => ip.set (ellipsis + t) 0) moved

/-- The function `netip.parseIPv6`: the sixteen bytes and the zone of `input`. -/
def parseIPv6 (input : List Char) : Option (List Nat × List Char) :=
  let s0 := input.takeWhile (fun c => c ≠ '%')
  let hasZone := input.contains '%'
  let zone := (input.dropWhile (fun c => c ≠ '%')).drop 1
  if hasZone ∧ zone = [] then none
  else
    let ip0 := List.replicate 16 0
    let lead := s0.take 2 = [':', ':']
    let ellipsis0 : Int := if lead then 0 else -1
    let s := if lead then s0.drop 2 else s0
    if lead ∧ s = [] then some (ip0, zone)
    else
      match parseIPv6Loop 8 s ellipsis0 ip0 with
      | none => none
      | some (s1, i, ellipsis, ip) =>
        if s1 ≠ [] then none
        else if i < 16 then
          if ellipsis < 0 then none
          else some (expandEllipsis ip i ellipsis.toNat, zone)
        else if ellipsis ≥ 0 then none
        else some (ip, zone)

/-- A value of `netip.Addr`: an IPv4 address of four bytes, or an IPv6 address of sixteen
bytes with its zone. -/
inductive Addr where
  | v4 (fields : List Nat)
  | v6 (ip : List Nat) (zone : List Char)
deriving DecidableEq, Repr

/-- The loop of `netip.ParseAddr`: the first of the bytes `.`, `:` and `%` in `s` selects
the parser; the second argument is the part of `s` still to be searched. -/
def parseAddrScan (s : List Char) : List Char → Option Addr
  | [] => none
  | c :: rest =>
    if c = '.' then (parseIPv4 s).map Addr.v4
    else if c = ':' then (parseIPv6 s).map (fun r => Addr.v6 r.1 r.2)
    else if c = '%' then none
    else parseAddrScan s rest

/-- The function `netip.ParseAddr`. -/
def ParseAddr (s : List Char) : Option Addr :=
  parseAddrScan s s

/-- The method `Addr.Zone`. -/
def Addr.Zone : Addr → List Char
  | Addr.v4 _ => []
  | Addr.v6 _ zone => zone

/-- The method `Addr.As16`: an IPv4 address is returned in its IPv4-mapped IPv6 form. -/
def Addr.As16 : Addr → List Nat
  | Addr.v4 fields => [0, 0, 0, 0, 0, 0, 0, 0, 0, 0, 0xff, 0xff] ++ fields
  | Addr.v6 ip _ => ip

/-- The function `net.ParseIP`: the 16-byte form of the address, the nil slice `[]` when `s`
is not an address or carries a zone. -/
def ParseIP (s : List Char) : List Nat :=
  match ParseAddr s with
  | none => []
  | some addr => if addr.Zone ≠ [] then [] else addr.As16

/-- The method `IP.To4`: the four bytes of an IPv4 or IPv4-mapped address, else nil. -/
def To4 (ip : List Nat) : List Nat :=
  if ip.length = 4 then ip
  else if ip.length = 16 ∧ (ip.take 10).all (fun b => b == 0) ∧ ip.getD 10 0 = 0xff ∧
      ip.getD 11 0 = 0xff then ip.drop 12
  else []

/-- The function `binary.BigEndian.Uint32`:
`uint32(b[3]) | uint32(b[2])<<8 | uint32(b[1])<<16 | uint32(b[0])<<24`. -/
def bigEndianUint32 (b : List Nat) : Nat :=
  (b.getD 3 0) % 2 ^ 32 ||| ((b.getD 2 0) <<< 8) % 2 ^ 32 ||| ((b.getD 1 0) <<< 16) % 2 ^ 32 |||
    ((b.getD 0 0) <<< 24) % 2 ^ 32

/-! ## `ipToUint32` and the ingestion loop of `main` -/

/-- The function `ipToUint32`: the key of the address on the line, or an error. -/
def ipToUint32 (ipStr : String) : Except String Nat :=
  let ip := To4 (ParseIP (TrimSpace ipStr.data))
  if ip = [] then
    Except.error ("недопустимый IP адрес: " ++ ipStr)
  else
    Except.ok (bigEndianUint32 ip)

/-! ## The buffer and the insert step -/

/-- The constant `bitSetSize := uint64(1) << 32`. -/
def bitSetSize : Nat := (1 <<< 32) % 2 ^ 64

/-- The buffer `make([]byte, bitSetSize/8)`: all bytes zero. -/
def makeBitSet : List Nat := List.replicate (bitSetSize / 8) 0

/-- The insert step of the loop body, lines 110-112:
`index := ipInt / 8; offset := ipInt % 8; bitSet[index] |= 1 << offset`.
The shift is a byte shift; an index out of range is a panic (`none`). -/
def setBit (bitSet : List Nat) (ipInt : Nat) : Option (List Nat) :=
  let index := ipInt / 8
  let offset := ipInt % 8
  if h : index < bitSet.length then
    some (bitSet.set index (bitSet[index] ||| ((1 <<< offset) % 256)))
  else
    none

/-- The popcount loop, lines 122-125:
`uniqueCount := 0; for _, b := range bitSet { uniqueCount += bitsInByte(b) }`. -/
def uniqueCount (bitSet : List Nat) : Nat :=
  bitSet.foldl (fun acc b => acc + bitsInByte b) 0

/-- The variables of `main` that the ingestion loop changes. -/
structure LoopState where
  bitSet : List Nat
  lineCount : Nat
  errorCount : Nat
deriving DecidableEq, Repr

/-- The state before the loop: the zero buffer, `lineCount := 0`, `errorCount := 0`. -/
def initState : LoopState := ⟨makeBitSet, 0, 0⟩

/-- One iteration of `for scanner.Scan()` on the line `ipStr`, lines 104-113. -/
def loopBody (st : LoopState) (ipStr : String) : Option LoopState :=
  match ipToUint32 ipStr with
  | Except.error _ => some { st with errorCount := st.errorCount + 1 }
  | Except.ok ipInt =>
    match setBit st.bitSet ipInt with
    | none => none
    | some bitSet1 => some { st with bitSet := bitSet1, lineCount := st.lineCount + 1 }

/-- The loop `for scanner.Scan()` over the lines the scanner yields, lines 103-114. -/
def scanLoop (st : LoopState) : List String → Option LoopState
  | [] => some st
  | ipStr :: rest =>
    match loopBody st ipStr with
    | none => none
    | some st1 => scanLoop st1 rest

/-- The distinct count of a run of `main` on the given lines: the ingestion loop from
`initState`, then the popcount loop. -/
def distinctCount (lines : List String) : Option Nat :=
  (scanLoop initState lines).map (fun st => uniqueCount st.bitSet)

/-! ## Specification vocabulary -/

/-- A list of naturals is a `[]byte`: every element is below `256`. -/
def ValidBytes (bitSet : List Nat) : Prop := ∀ b ∈ bitSet, b < 256

/-- The presence bit of key `k`: the bit at byte `k / 8`, offset `k % 8`. -/
def bitAt (bitSet : List Nat) (k : Nat) : Bool :=
  (bitSet.getD (k / 8) 0).testBit (k % 8)

/-- The total number of set bits in the buffer: the number of positions `k` below
`8 * len(bitSet)` whose bit is set. -/
def setBitCount (bitSet : List Nat) : Nat :=
  ((List.range (8 * bitSet.length)).filter (bitAt bitSet)).length

/-- The insert step performed for each key of a list in turn. -/
def insertAll (bitSet : List Nat) : List Nat → Option (List Nat)
  | [] => some bitSet
  | k :: ks =>
    match setBit bitSet k with
    | none => none
    | some bitSet1 => insertAll bitSet1 ks

/-- The insert step for one key performed `n` times in a row. -/
def insertTimes (bitSet : List Nat) (k : Nat) : Nat → Option (List Nat)
  | 0 => some bitSet
  | n + 1 =>
    match setBit bitSet k with
    | none => none
    | some bitSet1 => insertTimes bitSet1 k n

/-- The key of a line: the value of `ipToUint32` when it succeeds. -/
def lineKey (ipStr : String) : Option Nat :=
  match ipToUint32 ipStr with
  | Except.error _ => none
  | Except.ok ipInt => some ipInt

/-- The value of a string of decimal digits. -/
def octetValue (t : List Char) : Nat :=
  t.foldl (fun v c => 10 * v + (c.toNat - 48)) 0

/-- A decimal octet: a nonempty string of decimal digits whose value is in `0..255`. -/
def isOctet (t : List Char) : Bool :=
  !t.isEmpty && t.all Char.isDigit && decide (octetValue t ≤ 255)

/-- The segments of a string between its dots. -/
def splitDots : List Char → List (List Char)
  | [] => [[]]
  | c :: cs =>
    if c = '.' then [] :: splitDots cs
    else
      match splitDots cs with
      | [] => [[c]]
      | seg :: segs => (c :: seg) :: segs

/-- A dotted-decimal IPv4 address: exactly four decimal octets, each in `0..255`, separated by
dots, and nothing else. -/
def isDottedDecimal (s : List Char) : Bool :=
  match splitDots s with
  | [a, b, c, d] => isOctet a && isOctet b && isOctet c && isOctet d
  | _ => false

/-- A hexadecimal digit. -/
def isHexDigit (c : Char) : Bool :=
  c.isDigit || ('a' ≤ c && c ≤ 'f') || ('A' ≤ c && c ≤ 'F')

/-- The value of a hexadecimal digit. -/
def hexDigitValue (c : Char) : Nat :=
  if c.isDigit then c.toNat - 48
  else if 'a' ≤ c ∧ c ≤ 'f' then c.toNat - 87
  else c.toNat - 55

/-- The value of a group of an IPv6 literal: one to four hexadecimal digits. -/
def hexGroupValue (t : List Char) : Option Nat :=
  if 1 ≤ t.length ∧ t.length ≤ 4 ∧ t.all isHexDigit = true then
    some (t.foldl (fun v c => 16 * v + hexDigitValue c) 0)
  else none

/-- The two bytes of a 16-bit group, the most significant first. -/
def groupBytes (v : Nat) : List Nat := [v / 256, v % 256]

/-- The segments of a string between its colons. -/
def splitColons : List Char → List (List Char)
  | [] => [[]]
  | c :: cs =>
    if c = ':' then [] :: splitColons cs
    else
      match splitColons cs with
      | [] => [[c]]
      | seg :: segs => (c :: seg) :: segs

/-- The fields of a part of an IPv6 literal: the segments between its colons; the empty part
has no field. -/
def colonFields (s : List Char) : List (List Char) :=
  if s = [] then [] else splitColons s

/-- The parts of a string before and after its first `::`, `none` when it has none. -/
def splitDoubleColon : List Char → Option (List Char × List Char)
  | [] => none
  | c :: rest =>
    if c = ':' ∧ rest.head? = some ':' then some ([], rest.tail)
    else
      match splitDoubleColon rest with
      | none => none
      | some (l, r) => some (c :: l, r)

/-- A decimal octet in canonical form: a decimal octet without a leading zero, unless it is
the single digit `0`. -/
def isCanonicalOctet (t : List Char) : Bool :=
  isOctet t && (t.length == 1 || t.head? != some '0')

/-- A dotted-decimal IPv4 address in canonical form: four canonical decimal octets separated
by dots. -/
def isCanonicalDotted (s : List Char) : Bool :=
  isDottedDecimal s && (splitDots s).all isCanonicalOctet

/-- The bytes of the fields of a part of an IPv6 literal: every field is a group of one to
four hexadecimal digits, giving two bytes; where `allowTail` holds the last field may instead
be a canonical dotted-decimal IPv4 address, giving its four octets. -/
def fieldBytes (allowTail : Bool) : List (List Char) → Option (List Nat)
  | [] => some []
  | t :: ts =>
    if ts = [] ∧ allowTail = true ∧ isCanonicalDotted t = true then
      some ((splitDots t).map octetValue)
    else
      match hexGroupValue t, fieldBytes allowTail ts with
      | some v, some bs => some (groupBytes v ++ bs)
      | _, _ => none

/-- The sixteen bytes of an IPv6 literal in the text form of RFC 4291, section 2.2: groups of
hexadecimal digits separated by colons, the last 32 bits optionally written as a canonical
dotted-decimal IPv4 address, and at most one `::`, standing for one or more groups of
zeros. -/
def ipv6Bytes (s : List Char) : Option (List Nat) :=
  match splitDoubleColon s with
  | none =>
    match fieldBytes true (colonFields s) with
    | none => none
    | some bs => if bs.length = 16 then some bs else none
  | some (l, r) =>
    match fieldBytes false (colonFields l), fieldBytes true (colonFields r) with
    | some bl, some br =>
      if bl.length + br.length < 16 then
        some (bl ++ List.replicate (16 - (bl.length + br.length)) 0 ++ br)
      else none
    | _, _ => none

/-- An IPv4-mapped IPv6 literal: an IPv6 literal whose first 80 bits are zero and whose next
16 bits are one, such as `::ffff:1.2.3.4`. -/
def isMappedIPv6 (s : List Char) : Bool :=
  match ipv6Bytes s with
  | none => false
  | some bs => bs.take 12 == [0, 0, 0, 0, 0, 0, 0, 0, 0, 0, 255, 255]

/-- Storing a list of values at consecutive indices of a list, from `pos` on. -/
def writeFrom (fields : List Nat) : Nat → List Nat → List Nat
  | _, [] => fields
  | pos, v :: vs => writeFrom (fields.set pos v) (pos + 1) vs

/-- The loop of `parseIPv4Fields` restricted to a run of digits: the final `val`, `digLen` and
last character, `none` when the loop fails inside the run. -/
def scanDigits : List Char → Option Char → Nat → Nat → Option (Option Char × Nat × Nat)
  | [], prev, val, digLen => some (prev, val, digLen)
  | c :: rest, _, val, digLen =>
    if '0' ≤ c ∧ c ≤ '9' then
      if digLen = 1 ∧ val = 0 then none
      else if val * 10 + (c.toNat - '0'.toNat) > 255 then none
      else scanDigits rest (some c) (val * 10 + (c.toNat - '0'.toNat)) (digLen + 1)
    else none

/-- The characters of the dotted-decimal rendering of four octets. -/
def dottedChars (a b c d : Nat) : List Char :=
  (Nat.repr a).data ++ '.' :: ((Nat.repr b).data ++ '.' :: ((Nat.repr c).data ++
    '.' :: (Nat.repr d).data))

/-- The byte index and bit offset as the specification words them: `key >> 3` and `key & 7`,
with the same insert step. -/
def setBitSpec (bitSet : List Nat) (key : Nat) : Option (List Nat) :=
  let index := key >>> 3
  let offset := key &&& 7
  if h : index < bitSet.length then
    some (bitSet.set index (bitSet[index] ||| ((1 <<< offset) % 256)))
  else
    none

/-- The number of one bits in the 8-bit binary representation of a byte. -/
def popCount8 (b : Nat) : Nat :=
  ((List.range 8).filter (fun j => b.testBit j)).length

/-! ## Standard library: `bufio.Scanner` with `bufio.ScanLines` -/

/-- The number of bytes of a text in a Go string (its UTF-8 encoding). -/
def byteLen (s : List Char) : Nat :=
  (s.map Char.utf8Size).sum

/-- The function `dropCR` of `bufio`: the token without one trailing `\r`. -/
def dropCR (s : List Char) : List Char :=
  if s.getLast? = some '\r' then s.dropLast else s

/-- The message of `bufio.ErrTooLong`. -/
def ErrTooLong : String := "bufio.Scanner: token too long"

/-- What a scanner delivers: the tokens for which `Scan` returned true, in order, and the
value of `Err` after `Scan` returned false (`none` for nil). -/
structure ScanResult where
  lines : List String
  err : Option String
deriving DecidableEq, Repr

/-- The calls of `Scan` on a `bufio.Scanner` with the split function `bufio.ScanLines` and
the token ceiling `maxTokenSize`, over a reader that delivers the given bytes and then
`readErr` (`none` for `io.EOF`); `endWithData` says that the reader returns its last bytes
and the end of the stream from one call of `Read`, as an inflating reader does, rather than
from two.  The second list is the pending data of the current line.  A line is delivered
when its newline is met before the buffer of `maxTokenSize` bytes is full; a buffer full
without a newline sets `ErrTooLong` and ends the scan, unless the end of the stream came with
the bytes that filled it; pending data at the end of the stream is delivered as a last
token. -/
def scanFrom (maxTokenSize : Nat) (readErr : Option String) (endWithData : Bool) :
    List Char → List Char → ScanResult
  | [], pending =>
    if pending = [] then ⟨[], readErr⟩
    else if maxTokenSize < byteLen pending then ⟨[], some ErrTooLong⟩
    else if maxTokenSize = byteLen pending ∧ endWithData = false then ⟨[], some ErrTooLong⟩
    else ⟨[String.mk (dropCR pending)], readErr⟩
  | c :: rest, pending =>
    if c = '\n' then
      if maxTokenSize ≤ byteLen pending then ⟨[], some ErrTooLong⟩
      else
        let r := scanFrom maxTokenSize readErr endWithData rest []
        ⟨String.mk (dropCR pending) :: r.lines, r.err⟩
    else scanFrom maxTokenSize readErr endWithData rest (pending ++ [c])

/-- The scanner of `main`, lines 97-99: `bufio.NewScanner(reader)` with
`scanner.Buffer(make([]byte, 1024*1024), 10*1024*1024)`. -/
def scanAll (data : List Char) (readErr : Option String) (endWithData : Bool) : ScanResult :=
  scanFrom (10 * 1024 * 1024) readErr endWithData data []

/-! ## The run of `main` -/

/-- A file of the archive as `main` sees it: the uncompressed size in its header, the error
of `zipFile.Open()` if any, the bytes the reader delivers, the error that ends them (`none`
for `io.EOF`) and whether the end comes with the last bytes.  The reader of `archive/zip`
ends with `io.EOF` only after exactly the bytes the header declares (else it ends with
`io.ErrUnexpectedEOF` or `zip.ErrFormat`): that is the field `sizeOk`. -/
structure ZipFile where
  uncompressedSize : Nat
  openErr : Option String
  data : List Char
  readErr : Option String
  endWithData : Bool
  sizeOk : openErr = none → readErr = none → uncompressedSize = byteLen data

/-- The archive `ip_addresses.zip` as `main` sees it: the error of `zip.OpenReader` if any,
and the files of the archive. -/
structure Archive where
  openErr : Option String
  files : List ZipFile

/-- The end of a run of `main`: a diagnostic on the error stream followed by `os.Exit(1)`, or
the distinct count printed on the output stream, with the number of skipped lines printed on
the error stream when `errorCount > 0`, and a return from `main` (exit status 0). -/
inductive Outcome where
  | fatal (stderr : String)
  | report (uniqueCount : Nat) (skipped : Option Nat)
deriving DecidableEq, Repr

/-- The function `main`; `none` is a panic.  The progress bar only mirrors the bytes read. -/
def main (archive : Archive) : Option Outcome :=
  match archive.openErr with
  | some err => some (Outcome.fatal ("Ошибка при открытии ZIP-файла: " ++ err ++ "\n"))
  | none =>
    match archive.files with
    | [] => some (Outcome.fatal "ZIP-архив пустой\n")
    | zipFile :: _ =>
      if zipFile.uncompressedSize = 0 then
        some (Outcome.fatal "Не удалось определить размер не сжатого файла\n")
      else
        match zipFile.openErr with
        | some err => some (Outcome.fatal ("Ошибка при открытии файла в ZIP: " ++ err ++ "\n"))
        | none =>
          let scanner := scanAll zipFile.data zipFile.readErr zipFile.endWithData
          match scanLoop initState scanner.lines with
          | none => none
          | some st =>
            match scanner.err with
            | some err => some (Outcome.fatal ("Ошибка при чтении файла: " ++ err ++ "\n"))
            | none =>
              some (Outcome.report (uniqueCount st.bitSet)
                (if st.errorCount > 0 then some st.errorCount else none))

/-! ## The insert step -/

theorem mask_eq (k : Nat) : (1 <<< (k % 8)) % 256 = 2 ^ (k % 8) := by
  have h : k % 8 < 8 := Nat.mod_lt _ (by decide)
  rw [Nat.one_shiftLeft]
  apply Nat.mod_eq_of_lt
  calc 2 ^ (k % 8) < 2 ^ 8 := Nat.pow_lt_pow_right (by decide) h
    _ = 256 := by norm_num

theorem setBit_eq_some {bitSet : List Nat} {k : Nat} (h : k / 8 < bitSet.length) :
    setBit bitSet k = some (bitSet.set (k / 8) (bitSet.getD (k / 8) 0 ||| 2 ^ (k % 8))) := by
  unfold setBit
  simp only [h, dite_true, mask_eq]
  rw [List.getD_eq_getElem _ _ h]

theorem setBit_eq_none {bitSet : List Nat} {k : Nat} (h : ¬ k / 8 < bitSet.length) :
    setBit bitSet k = none := by
  unfold setBit
  simp only [h, dite_false]

theorem setBit_some_iff {bitSet bitSet1 : List Nat} {k : Nat} :
    setBit bitSet k = some bitSet1 ↔
      k / 8 < bitSet.length ∧
        bitSet1 = bitSet.set (k / 8) (bitSet.getD (k / 8) 0 ||| 2 ^ (k % 8)) := by
  by_cases h : k / 8 < bitSet.length
  · rw [setBit_eq_some h]
    constructor
    · intro e
      exact ⟨h, (Option.some.inj e).symm⟩
    · rintro ⟨_, e⟩
      rw [e]
  · rw [setBit_eq_none h]
    constructor
    · intro e
      cases e
    · rintro ⟨h1, _⟩
      exact absurd h1 h

theorem setBit_length {bitSet bitSet1 : List Nat} {k : Nat} (h : setBit bitSet k = some bitSet1) :
    bitSet1.length = bitSet.length := by
  obtain ⟨_, e⟩ := setBit_some_iff.mp h
  rw [e, List.length_set]

theorem setBit_getD {bitSet bitSet1 : List Nat} {k : Nat} (h : setBit bitSet k = some bitSet1)
    (i : Nat) :
    bitSet1.getD i 0 =
      if i = k / 8 then bitSet.getD i 0 ||| 2 ^ (k % 8) else bitSet.getD i 0 := by
  obtain ⟨hk, e⟩ := setBit_some_iff.mp h
  subst e
  by_cases hi : i = k / 8
  · subst hi
    simp [List.getD_eq_getElem?_getD, List.getElem?_set, hk]
  · have hi2 : k / 8 ≠ i := fun e => hi e.symm
    simp [List.getD_eq_getElem?_getD, List.getElem?_set, hi, hi2]

theorem key_eq_iff (a b : Nat) : a = b ↔ a / 8 = b / 8 ∧ a % 8 = b % 8 := by
  constructor
  · rintro rfl
    exact ⟨rfl, rfl⟩
  · rintro ⟨h1, h2⟩
    omega

theorem setBit_testBit {bitSet bitSet1 : List Nat} {k : Nat} (h : setBit bitSet k = some bitSet1)
    (i j : Nat) :
    (bitSet1.getD i 0).testBit j =
      ((bitSet.getD i 0).testBit j || (decide (i = k / 8) && decide (j = k % 8))) := by
  rw [setBit_getD h i]
  by_cases hi : i = k / 8
  · simp only [hi, if_true, Nat.testBit_or, Nat.testBit_two_pow, decide_True, Bool.true_and]
    by_cases hj : j = k % 8
    · simp [hj]
    · have hj2 : ¬ k % 8 = j := fun e => hj e.symm
      simp [hj, hj2]
  · simp [hi]

theorem setBit_bitAt {bitSet bitSet1 : List Nat} {k : Nat} (h : setBit bitSet k = some bitSet1)
    (k1 : Nat) : bitAt bitSet1 k1 = (bitAt bitSet k1 || decide (k1 = k)) := by
  unfold bitAt
  rw [setBit_testBit h]
  congr 1
  by_cases e : k1 = k
  · simp [e]
  · have := (key_eq_iff k1 k).not.mp e
    simp only [e, decide_False]
    by_cases h1 : k1 / 8 = k / 8
    · have h2 : ¬ k1 % 8 = k % 8 := fun h2 => this ⟨h1, h2⟩
      simp [h2]
    · simp [h1]

theorem setBit_validBytes {bitSet bitSet1 : List Nat} {k : Nat}
    (h : setBit bitSet k = some bitSet1) (hv : ValidBytes bitSet) : ValidBytes bitSet1 := by
  obtain ⟨hk, e⟩ := setBit_some_iff.mp h
  subst e
  intro b hb
  rcases List.mem_or_eq_of_mem_set hb with hb1 | hb1
  · exact hv b hb1
  · subst hb1
    have h1 : bitSet.getD (k / 8) 0 < 2 ^ 8 := by
      rw [List.getD_eq_getElem _ _ hk]
      exact hv _ (List.getElem_mem _)
    have h2 : 2 ^ (k % 8) < 2 ^ 8 :=
      Nat.pow_lt_pow_right (by decide) (Nat.mod_lt _ (by decide))
    exact Nat.or_lt_two_pow h1 h2

/-- Two byte lists of the same length with the same bytes at every index are equal. -/
theorem bytes_ext {l1 l2 : List Nat} (hl : l1.length = l2.length)
    (h : ∀ i, l1.getD i 0 = l2.getD i 0) : l1 = l2 := by
  apply List.ext_getElem hl
  intro i h1 h2
  have := h i
  rwa [List.getD_eq_getElem _ _ h1, List.getD_eq_getElem _ _ h2] at this


theorem setBit_isSome_iff {bitSet : List Nat} {k : Nat} :
    (setBit bitSet k).isSome ↔ k / 8 < bitSet.length := by
  by_cases h : k / 8 < bitSet.length
  · simp [setBit_eq_some h, h]
  · simp [setBit_eq_none h, h]

/-- Setting a bit twice gives the buffer after setting it once. -/
theorem setBit_setBit_self {bitSet bitSet1 : List Nat} {k : Nat}
    (h : setBit bitSet k = some bitSet1) : setBit bitSet1 k = some bitSet1 := by
  have hk : k / 8 < bitSet.length := (setBit_some_iff.mp h).1
  have hl := setBit_length h
  have hk1 : k / 8 < bitSet1.length := by rw [hl]; exact hk
  rw [setBit_eq_some hk1]
  congr 1
  apply bytes_ext
  · rw [List.length_set]
  · intro i
    have e := setBit_getD (setBit_eq_some hk1) i
    rw [e]
    by_cases hi : i = k / 8
    · rw [if_pos hi, setBit_getD h i, if_pos hi, Nat.lor_assoc, Nat.or_self]
    · rw [if_neg hi]

/-- The insert steps for two keys commute. -/
theorem setBit_comm (bitSet : List Nat) (a b : Nat) :
    (setBit bitSet a).bind (fun s => setBit s b) =
      (setBit bitSet b).bind (fun s => setBit s a) := by
  by_cases ha : a / 8 < bitSet.length
  · by_cases hb : b / 8 < bitSet.length
    · have ea := @setBit_eq_some bitSet a ha
      have eb := @setBit_eq_some bitSet b hb
      have hb1 : b / 8 < (bitSet.set (a / 8) (bitSet.getD (a / 8) 0 ||| 2 ^ (a % 8))).length := by
        rw [List.length_set]; exact hb
      have ha1 : a / 8 < (bitSet.set (b / 8) (bitSet.getD (b / 8) 0 ||| 2 ^ (b % 8))).length := by
        rw [List.length_set]; exact ha
      have eab := setBit_eq_some hb1
      have eba := setBit_eq_some ha1
      rw [ea, eb, Option.some_bind, Option.some_bind, eab, eba]
      congr 1
      apply bytes_ext
      · simp only [List.length_set]
      · intro i
        rw [setBit_getD eab i, setBit_getD eba i, setBit_getD ea i, setBit_getD eb i]
        split_ifs
        · rw [Nat.lor_assoc, Nat.lor_assoc, Nat.lor_comm (2 ^ (a % 8))]
        · rfl
        · rfl
        · rfl
    · rw [setBit_eq_none hb, setBit_eq_some ha, Option.some_bind, Option.none_bind]
      apply setBit_eq_none
      rw [List.length_set]
      exact hb
  · rw [setBit_eq_none ha, Option.none_bind]
    by_cases hb : b / 8 < bitSet.length
    · rw [setBit_eq_some hb, Option.some_bind]
      symm
      apply setBit_eq_none
      rw [List.length_set]
      exact ha
    · rw [setBit_eq_none hb, Option.none_bind]

/-! ## Sequences of inserts -/

theorem insertAll_isSome {bitSet : List Nat} {ks : List Nat}
    (h : ∀ k ∈ ks, k / 8 < bitSet.length) : ∃ bitSet1, insertAll bitSet ks = some bitSet1 := by
  induction ks generalizing bitSet with
  | nil => exact ⟨bitSet, rfl⟩
  | cons k ks ih =>
    have hk : k / 8 < bitSet.length := h k (List.mem_cons_self _ _)
    have e := setBit_eq_some hk
    have hl := setBit_length e
    have h2 : ∀ x ∈ ks,
        x / 8 < (bitSet.set (k / 8) (bitSet.getD (k / 8) 0 ||| 2 ^ (k % 8))).length :=
      fun x hx => by rw [hl]; exact h x (List.mem_cons_of_mem _ hx)
    obtain ⟨r, hr⟩ := ih h2
    exact ⟨r, by simp only [insertAll, e, hr]⟩

theorem insertAll_cons_some {bitSet bitSet2 : List Nat} {k : Nat} {ks : List Nat}
    (h : insertAll bitSet (k :: ks) = some bitSet2) :
    ∃ bitSet1, setBit bitSet k = some bitSet1 ∧ insertAll bitSet1 ks = some bitSet2 := by
  unfold insertAll at h
  cases e : setBit bitSet k with
  | none => rw [e] at h; cases h
  | some b1 => rw [e] at h; exact ⟨b1, rfl, h⟩

theorem insertAll_length {bitSet bitSet1 : List Nat} {ks : List Nat}
    (h : insertAll bitSet ks = some bitSet1) : bitSet1.length = bitSet.length := by
  induction ks generalizing bitSet with
  | nil => cases h; rfl
  | cons k ks ih =>
    obtain ⟨b1, h1, h2⟩ := insertAll_cons_some h
    rw [ih h2, setBit_length h1]

theorem insertAll_validBytes {bitSet bitSet1 : List Nat} {ks : List Nat}
    (h : insertAll bitSet ks = some bitSet1) (hv : ValidBytes bitSet) : ValidBytes bitSet1 := by
  induction ks generalizing bitSet with
  | nil => cases h; exact hv
  | cons k ks ih =>
    obtain ⟨b1, h1, h2⟩ := insertAll_cons_some h
    exact ih h2 (setBit_validBytes h1 hv)

theorem insertAll_bitAt {bitSet bitSet1 : List Nat} {ks : List Nat}
    (h : insertAll bitSet ks = some bitSet1) (k1 : Nat) :
    bitAt bitSet1 k1 = (bitAt bitSet k1 || decide (k1 ∈ ks)) := by
  induction ks generalizing bitSet with
  | nil => cases h; simp
  | cons k ks ih =>
    obtain ⟨b1, h1, h2⟩ := insertAll_cons_some h
    rw [ih h2, setBit_bitAt h1]
    by_cases e1 : k1 = k <;> by_cases e2 : k1 ∈ ks <;> simp [e1, e2]

theorem insertAll_mem_lt {bitSet bitSet1 : List Nat} {ks : List Nat}
    (h : insertAll bitSet ks = some bitSet1) : ∀ k ∈ ks, k / 8 < bitSet.length := by
  induction ks generalizing bitSet with
  | nil => intro k hk; cases hk
  | cons k ks ih =>
    obtain ⟨b1, h1, h2⟩ := insertAll_cons_some h
    intro x hx
    rcases List.mem_cons.mp hx with rfl | hx
    · exact (setBit_some_iff.mp h1).1
    · rw [← setBit_length h1]; exact ih h2 x hx

theorem insertTimes_succ (bitSet : List Nat) (k n : Nat) :
    insertTimes bitSet k (n + 1) = setBit bitSet k := by
  induction n generalizing bitSet with
  | zero =>
    unfold insertTimes
    cases e : setBit bitSet k with
    | none => rfl
    | some b1 => simp [insertTimes]
  | succ n ih =>
    unfold insertTimes
    cases e : setBit bitSet k with
    | none => rfl
    | some b1 =>
      simp only
      rw [ih b1]
      exact setBit_setBit_self e


/-! ## The popcount loop -/

/-- Every entry of the table is the number of one bits of its index. -/
theorem bitsInByte_eq_filter :
    ∀ b < 256, bitsInByte b = ((List.range 8).filter (fun j => b.testBit j)).length := by
  decide!

theorem uniqueCount_foldl (bitSet : List Nat) (acc : Nat) :
    bitSet.foldl (fun acc b => acc + bitsInByte b) acc = acc + uniqueCount bitSet := by
  unfold uniqueCount
  induction bitSet generalizing acc with
  | nil => simp
  | cons b bs ih =>
    simp only [List.foldl_cons]
    rw [ih (acc + bitsInByte b), ih (0 + bitsInByte b)]
    omega

theorem uniqueCount_append (bitSet : List Nat) (b : Nat) :
    uniqueCount (bitSet ++ [b]) = uniqueCount bitSet + bitsInByte b := by
  unfold uniqueCount
  rw [List.foldl_append]
  rfl

theorem bitAt_append_left (bitSet : List Nat) (b k : Nat) (h : k < 8 * bitSet.length) :
    bitAt (bitSet ++ [b]) k = bitAt bitSet k := by
  unfold bitAt
  have hk : k / 8 < bitSet.length := by omega
  rw [List.getD_append _ _ _ _ hk]

theorem bitAt_append_right (bitSet : List Nat) (b j : Nat) (h : j < 8) :
    bitAt (bitSet ++ [b]) (8 * bitSet.length + j) = b.testBit j := by
  unfold bitAt
  have h1 : (8 * bitSet.length + j) / 8 = bitSet.length := by omega
  have h2 : (8 * bitSet.length + j) % 8 = j := by omega
  rw [h1, h2, List.getD_append_right _ _ _ _ (le_refl _)]
  simp

theorem setBitCount_append (bitSet : List Nat) (b : Nat) :
    setBitCount (bitSet ++ [b]) =
      setBitCount bitSet + ((List.range 8).filter (fun j => b.testBit j)).length := by
  unfold setBitCount
  have e : 8 * (bitSet ++ [b]).length = 8 * bitSet.length + 8 := by
    rw [List.length_append]; simp; omega
  rw [e, List.range_add, List.filter_append, List.length_append, List.filter_map,
    List.length_map]
  congr 2
  · apply List.filter_congr
    intro k hk
    exact bitAt_append_left bitSet b k (List.mem_range.mp hk)
  · apply List.filter_congr
    intro j hj
    exact bitAt_append_right bitSet b j (List.mem_range.mp hj)

/-- The popcount loop counts the set bits of a byte buffer. -/
theorem uniqueCount_eq_setBitCount (bitSet : List Nat) (hv : ValidBytes bitSet) :
    uniqueCount bitSet = setBitCount bitSet := by
  induction bitSet using List.reverseRecOn with
  | nil => rfl
  | append_singleton bs b ih =>
    have hb : b < 256 := hv b (by simp)
    have hbs : ValidBytes bs := fun x hx => hv x (by simp [hx])
    rw [uniqueCount_append, setBitCount_append, ih hbs, bitsInByte_eq_filter b hb]

theorem validBytes_replicate (n : Nat) : ValidBytes (List.replicate n 0) := by
  intro b hb
  rw [(List.mem_replicate.mp hb).2]
  decide

theorem bitAt_replicate (n k : Nat) : bitAt (List.replicate n 0) k = false := by
  unfold bitAt
  have : (List.replicate n 0).getD (k / 8) 0 = 0 := by
    rw [List.getD_eq_getElem?_getD]
    by_cases h : k / 8 < n
    · simp [List.getElem?_replicate, h]
    · simp [List.getElem?_replicate, h]
  rw [this]
  simp

/-- After inserting the keys `ks` into a zero buffer the popcount loop returns the number of
distinct keys. -/
theorem uniqueCount_insertAll_replicate {n : Nat} {ks bitSet1 : List Nat}
    (h : insertAll (List.replicate n 0) ks = some bitSet1) :
    uniqueCount bitSet1 = ks.dedup.length := by
  have hv := insertAll_validBytes h (validBytes_replicate n)
  have hl : bitSet1.length = n := by rw [insertAll_length h, List.length_replicate]
  have hlt := insertAll_mem_lt h
  rw [uniqueCount_eq_setBitCount _ hv]
  unfold setBitCount
  rw [hl, ← List.card_toFinset, ← List.toFinset_card_of_nodup
    (List.Nodup.filter _ (List.nodup_range _))]
  congr 1
  ext k
  simp only [List.mem_toFinset, List.mem_filter, List.mem_range]
  rw [insertAll_bitAt h, bitAt_replicate]
  simp only [Bool.false_or, decide_eq_true_eq]
  constructor
  · exact fun hk => hk.2
  · intro hk
    have := hlt k hk
    rw [List.length_replicate] at this
    exact ⟨by omega, hk⟩


/-! ## The buffer of `main` and the keys of `ipToUint32` -/

theorem bitSetSize_eq : bitSetSize = 2 ^ 32 := by
  unfold bitSetSize
  rw [Nat.one_shiftLeft]
  norm_num

theorem makeBitSet_length : makeBitSet.length = 2 ^ 29 := by
  unfold makeBitSet
  rw [List.length_replicate, bitSetSize_eq]
  norm_num

theorem key_index_lt {k : Nat} (hk : k < 2 ^ 32) : k / 8 < 2 ^ 29 := by
  have : (2 : Nat) ^ 32 = 8 * 2 ^ 29 := by norm_num
  omega

theorem bigEndianUint32_lt (b : List Nat) : bigEndianUint32 b < 2 ^ 32 := by
  unfold bigEndianUint32
  have h : ∀ x : Nat, x % 2 ^ 32 < 2 ^ 32 := fun x => Nat.mod_lt _ (by norm_num)
  exact Nat.or_lt_two_pow (Nat.or_lt_two_pow (Nat.or_lt_two_pow (h _) (h _)) (h _)) (h _)

theorem ipToUint32_lt {ipStr : String} {k : Nat} (h : ipToUint32 ipStr = Except.ok k) :
    k < 2 ^ 32 := by
  unfold ipToUint32 at h
  simp only at h
  split_ifs at h
  cases h
  exact bigEndianUint32_lt _

theorem lineKey_lt {ipStr : String} {k : Nat} (h : lineKey ipStr = some k) : k < 2 ^ 32 := by
  unfold lineKey at h
  cases e : ipToUint32 ipStr with
  | error m => rw [e] at h; cases h
  | ok v =>
    rw [e] at h
    cases h
    exact ipToUint32_lt e

theorem lineKey_eq_none {ipStr msg : String} (h : ipToUint32 ipStr = Except.error msg) :
    lineKey ipStr = none := by
  unfold lineKey
  rw [h]

theorem lineKey_eq_some {ipStr : String} {k : Nat} (h : ipToUint32 ipStr = Except.ok k) :
    lineKey ipStr = some k := by
  unfold lineKey
  rw [h]

/-! ## The ingestion loop -/

theorem loopBody_of_none {st : LoopState} {ipStr : String} (h : lineKey ipStr = none) :
    loopBody st ipStr = some { st with errorCount := st.errorCount + 1 } := by
  unfold lineKey at h
  unfold loopBody
  cases e : ipToUint32 ipStr with
  | error m => rfl
  | ok v => rw [e] at h; cases h

theorem loopBody_of_some {st : LoopState} {ipStr : String} {k : Nat}
    (h : lineKey ipStr = some k) :
    loopBody st ipStr =
      (setBit st.bitSet k).map
        (fun bitSet1 => { st with bitSet := bitSet1, lineCount := st.lineCount + 1 }) := by
  unfold lineKey at h
  unfold loopBody
  cases e : ipToUint32 ipStr with
  | error m => rw [e] at h; cases h
  | ok v =>
    rw [e] at h
    cases h
    simp only
    cases setBit st.bitSet k with
    | none => rfl
    | some b1 => rfl

/-- The number of lines on which `ipToUint32` succeeds. -/
theorem filterMap_length_add (lines : List String) :
    (lines.filterMap lineKey).length + (lines.filter (fun l => (lineKey l).isNone)).length =
      lines.length := by
  induction lines with
  | nil => rfl
  | cons l ls ih =>
    cases e : lineKey l with
    | none =>
      simp only [List.filterMap_cons, e, List.filter_cons, Option.isNone_none, if_true,
        List.length_cons]
      omega
    | some k =>
      simp only [List.filterMap_cons, e, List.filter_cons, Option.isNone_some, List.length_cons]
      simp only [Bool.false_eq_true, if_false]
      omega

/-- The ingestion loop is the sequence of inserts of the keys of the accepted lines, with
`lineCount` advanced by the accepted lines and `errorCount` by the rejected ones. -/
theorem scanLoop_eq (st : LoopState) (lines : List String) :
    scanLoop st lines =
      (insertAll st.bitSet (lines.filterMap lineKey)).map (fun bitSet1 =>
        { bitSet := bitSet1,
          lineCount := st.lineCount + (lines.filterMap lineKey).length,
          errorCount := st.errorCount + (lines.filter (fun l => (lineKey l).isNone)).length }) := by
  induction lines generalizing st with
  | nil => simp [scanLoop, insertAll]
  | cons l ls ih =>
    unfold scanLoop
    cases e : lineKey l with
    | none =>
      rw [loopBody_of_none e]
      simp only [List.filterMap_cons, e, List.filter_cons, Option.isNone_none, if_true,
        List.length_cons]
      rw [ih]
      simp only [Nat.add_assoc, Nat.add_comm 1]
    | some k =>
      rw [loopBody_of_some e]
      simp only [List.filterMap_cons, e, List.filter_cons, Option.isNone_some, List.length_cons,
        Bool.false_eq_true, if_false]
      unfold insertAll
      cases e2 : setBit st.bitSet k with
      | none => rfl
      | some b1 =>
        simp only [Option.map_some']
        rw [ih]
        simp only [Nat.add_assoc, Nat.add_comm 1]

theorem insertAll_makeBitSet_isSome {ks : List Nat} (h : ∀ k ∈ ks, k < 2 ^ 32) :
    ∃ bitSet1, insertAll makeBitSet ks = some bitSet1 := by
  apply insertAll_isSome
  intro k hk
  rw [makeBitSet_length]
  exact key_index_lt (h k hk)

theorem filterMap_lineKey_lt (lines : List String) : ∀ k ∈ lines.filterMap lineKey, k < 2 ^ 32 := by
  intro k hk
  obtain ⟨l, _, hl⟩ := List.mem_filterMap.mp hk
  exact lineKey_lt hl

/-- The ingestion loop from the initial state never panics. -/
theorem scanLoop_initState (lines : List String) :
    ∃ bitSet1, insertAll makeBitSet (lines.filterMap lineKey) = some bitSet1 ∧
      scanLoop initState lines = some
        { bitSet := bitSet1,
          lineCount := (lines.filterMap lineKey).length,
          errorCount := (lines.filter (fun l => (lineKey l).isNone)).length } := by
  obtain ⟨b1, hb⟩ := insertAll_makeBitSet_isSome (filterMap_lineKey_lt lines)
  refine ⟨b1, hb, ?_⟩
  rw [scanLoop_eq]
  simp only [initState, hb, Option.map_some', Nat.zero_add]

theorem distinctCount_eq (lines : List String) :
    distinctCount lines = some (lines.filterMap lineKey).dedup.length := by
  obtain ⟨b1, hb, hs⟩ := scanLoop_initState lines
  unfold distinctCount
  rw [hs]
  simp only [Option.map_some']
  congr 1
  exact uniqueCount_insertAll_replicate hb

theorem insertAll_perm {l1 l2 : List Nat} (h : l1.Perm l2) (bitSet : List Nat) :
    insertAll bitSet l1 = insertAll bitSet l2 := by
  induction h generalizing bitSet with
  | nil => rfl
  | cons x _ ih =>
    unfold insertAll
    cases setBit bitSet x with
    | none => rfl
    | some b1 => exact ih b1
  | swap x y l =>
    have hc := setBit_comm bitSet y x
    have e : ∀ (a b : Nat), insertAll bitSet (a :: b :: l) =
        ((setBit bitSet a).bind (fun s => setBit s b)).bind (fun s => insertAll s l) := by
      intro a b
      simp only [insertAll]
      cases setBit bitSet a with
      | none => rfl
      | some b1 =>
        simp only [Option.some_bind]
        cases setBit b1 b with
        | none => rfl
        | some b2 => rfl
    rw [e, e, hc]
  | trans _ _ ih1 ih2 => exact (ih1 bitSet).trans (ih2 bitSet)

theorem scanLoop_perm {l1 l2 : List String} (h : l1.Perm l2) (st : LoopState) :
    scanLoop st l1 = scanLoop st l2 := by
  rw [scanLoop_eq, scanLoop_eq, insertAll_perm (h.filterMap lineKey) st.bitSet,
    (h.filterMap lineKey).length_eq, (h.filter _).length_eq]

/-! ## Parsing a dotted-decimal address -/

theorem parseIPv4Loop_scanDigits {ds : List Char} {prev p : Option Char} {val digLen v n : Nat}
    (h : scanDigits ds prev val digLen = some (p, v, n)) (rest : List Char) (pos : Nat)
    (fields : List Nat) :
    parseIPv4Loop (ds ++ rest) prev val pos digLen fields = parseIPv4Loop rest p v pos n fields := by
  induction ds generalizing prev val digLen with
  | nil =>
    simp only [scanDigits, Option.some.injEq, Prod.mk.injEq] at h
    obtain ⟨h1, h2, h3⟩ := h
    subst h1 h2 h3
    rfl
  | cons c cs ih =>
    unfold scanDigits at h
    simp only [List.cons_append]
    conv_lhs => rw [parseIPv4Loop]
    split_ifs at h with h1 h2 h3
    rw [if_pos h1, if_neg h2]
    simp only
    rw [if_neg h3]
    exact ih h

/-- The decimal rendering of an octet is read back by the digit loop. -/
theorem scanDigits_repr :
    ∀ a < 256, scanDigits (Nat.repr a).data none 0 0 =
        some ((Nat.repr a).data.getLast?, a, (Nat.repr a).length) ∧
      (Nat.repr a).data.getLast? ≠ none ∧ (Nat.repr a).data.getLast? ≠ some '.' := by
  decide!

theorem repr_not_sep :
    ∀ a < 256, ∀ c ∈ (Nat.repr a).data, c ≠ '.' ∧ c ≠ ':' ∧ c ≠ '%' := by
  decide!

theorem repr_not_space :
    ∀ a < 256, (Nat.repr a).data ≠ [] ∧
      (Nat.repr a).data.dropWhile isSpace = (Nat.repr a).data ∧
      (Nat.repr a).data.reverse.dropWhile isSpace = (Nat.repr a).data.reverse := by
  decide!

theorem dropWhile_append_of_fixed {p : Char → Bool} {l : List Char} (hne : l ≠ [])
    (h : l.dropWhile p = l) (rest : List Char) : (l ++ rest).dropWhile p = l ++ rest := by
  cases l with
  | nil => exact absurd rfl hne
  | cons c cs =>
    simp only [List.cons_append]
    by_cases hc : p c = true
    · exfalso
      rw [List.dropWhile_cons_of_pos hc] at h
      have h1 := (@List.dropWhile_suffix _ cs p).length_le
      rw [h] at h1
      simp at h1
    · rw [List.dropWhile_cons_of_neg hc]

/-- Surrounding text that starts and ends with a character that is not white space is left
alone by `TrimSpace`. -/
theorem TrimSpace_of_fixed {l r : List Char} (hl : l ≠ []) (hr : r ≠ [])
    (h1 : l.dropWhile isSpace = l) (h2 : r.reverse.dropWhile isSpace = r.reverse)
    (mid : List Char) : TrimSpace (l ++ (mid ++ r)) = l ++ (mid ++ r) := by
  unfold TrimSpace
  rw [dropWhile_append_of_fixed hl h1]
  have e : (l ++ (mid ++ r)).reverse = r.reverse ++ (mid.reverse ++ l.reverse) := by
    simp only [List.reverse_append, List.append_assoc]
  rw [e, dropWhile_append_of_fixed (by simpa using hr) h2, ← e, List.reverse_reverse]

theorem parseAddrScan_dot {ds : List Char} (h : ∀ c ∈ ds, c ≠ '.' ∧ c ≠ ':' ∧ c ≠ '%')
    (s rest : List Char) :
    parseAddrScan s (ds ++ '.' :: rest) = (parseIPv4 s).map Addr.v4 := by
  induction ds with
  | nil => simp [parseAddrScan]
  | cons c cs ih =>
    have hc := h c (List.mem_cons_self _ _)
    simp only [List.cons_append]
    unfold parseAddrScan
    rw [if_neg hc.1, if_neg hc.2.1, if_neg hc.2.2]
    exact ih (fun x hx => h x (List.mem_cons_of_mem _ hx))

theorem parseIPv4Loop_octet_dot {a : Nat} (ha : a < 256) (rest : List Char) (hrest : rest ≠ [])
    (prev : Option Char) (pos : Nat) (hpos : pos ≠ 3) (fields : List Nat) :
    parseIPv4Loop ((Nat.repr a).data ++ '.' :: rest) prev 0 pos 0 fields =
      parseIPv4Loop rest (some '.') 0 (pos + 1) 0 (fields.set pos a) := by
  obtain ⟨h1, h2, h3⟩ := scanDigits_repr a ha
  have h1' : scanDigits (Nat.repr a).data prev 0 0 =
      some ((Nat.repr a).data.getLast?, a, (Nat.repr a).length) := by
    have hne := (repr_not_space a ha).1
    cases hd : (Nat.repr a).data with
    | nil => exact absurd hd hne
    | cons c cs =>
      rw [hd] at h1
      unfold scanDigits at h1 ⊢
      exact h1
  rw [parseIPv4Loop_scanDigits h1']
  conv_lhs => rw [parseIPv4Loop]
  have hnd : ¬ ('0' ≤ '.' ∧ '.' ≤ '9') := by decide
  rw [if_neg hnd, if_pos rfl, if_neg (by simp [h2, h3, hrest]), if_neg hpos,
    Nat.mod_eq_of_lt ha]

theorem parseIPv4Loop_octet_end {a : Nat} (ha : a < 256) (prev : Option Char)
    (fields : List Nat) :
    parseIPv4Loop (Nat.repr a).data prev 0 3 0 fields = some (fields.set 3 a) := by
  obtain ⟨h1, h2, h3⟩ := scanDigits_repr a ha
  have h1' : scanDigits (Nat.repr a).data prev 0 0 =
      some ((Nat.repr a).data.getLast?, a, (Nat.repr a).length) := by
    have hne := (repr_not_space a ha).1
    cases hd : (Nat.repr a).data with
    | nil => exact absurd hd hne
    | cons c cs =>
      rw [hd] at h1
      unfold scanDigits at h1 ⊢
      exact h1
  have := parseIPv4Loop_scanDigits h1' [] 3 fields
  rw [List.append_nil] at this
  rw [this]
  unfold parseIPv4Loop
  rw [if_neg (by decide), Nat.mod_eq_of_lt ha]

theorem parseIPv4_dottedChars {a b c d : Nat} (ha : a < 256) (hb : b < 256) (hc : c < 256)
    (hd : d < 256) : parseIPv4 (dottedChars a b c d) = some [a, b, c, d] := by
  have nb := (repr_not_space b hb).1
  have nc := (repr_not_space c hc).1
  have nd := (repr_not_space d hd).1
  unfold parseIPv4 parseIPv4Fields dottedChars
  rw [parseIPv4Loop_octet_dot ha _ (by simp [nb]) none 0 (by decide),
    parseIPv4Loop_octet_dot hb _ (by simp [nc]) _ 1 (by decide),
    parseIPv4Loop_octet_dot hc _ nd _ 2 (by decide),
    parseIPv4Loop_octet_end hd]
  rfl

theorem bigEndianUint32_bytes {a b c d : Nat} (ha : a < 256) (hb : b < 256) (hc : c < 256)
    (hd : d < 256) : bigEndianUint32 [a, b, c, d] = a * 2 ^ 24 + b * 2 ^ 16 + c * 2 ^ 8 + d := by
  unfold bigEndianUint32
  simp only [List.getD_cons_zero, List.getD_cons_succ, Nat.shiftLeft_eq]
  rw [Nat.mod_eq_of_lt (by omega : d < 2 ^ 32), Nat.mod_eq_of_lt (by omega : c * 2 ^ 8 < 2 ^ 32),
    Nat.mod_eq_of_lt (by omega : b * 2 ^ 16 < 2 ^ 32),
    Nat.mod_eq_of_lt (by omega : a * 2 ^ 24 < 2 ^ 32)]
  rw [Nat.lor_comm d, Nat.mul_comm c, ← Nat.mul_add_lt_is_or (by omega : d < 2 ^ 8),
    Nat.lor_comm _ (b * 2 ^ 16), Nat.mul_comm b,
    ← Nat.mul_add_lt_is_or (by omega : 2 ^ 8 * c + d < 2 ^ 16),
    Nat.lor_comm _ (a * 2 ^ 24), Nat.mul_comm a,
    ← Nat.mul_add_lt_is_or (by omega : 2 ^ 16 * b + (2 ^ 8 * c + d) < 2 ^ 24)]
  omega

/-- The key of a dotted-decimal rendering of four octets. -/
theorem ipToUint32_dottedChars {a b c d : Nat} (ha : a < 256) (hb : b < 256) (hc : c < 256)
    (hd : d < 256) :
    ipToUint32 (String.mk (dottedChars a b c d)) =
      Except.ok (a * 2 ^ 24 + b * 2 ^ 16 + c * 2 ^ 8 + d) := by
  have htrim : TrimSpace (dottedChars a b c d) = dottedChars a b c d := by
    have sa := repr_not_space a ha
    have sd := repr_not_space d hd
    have := TrimSpace_of_fixed sa.1 sd.1 sa.2.1 sd.2.2
      ('.' :: ((Nat.repr b).data ++ '.' :: ((Nat.repr c).data ++ ['.'])))
    simpa [dottedChars] using this
  have hparse : ParseIP (dottedChars a b c d) =
      [0, 0, 0, 0, 0, 0, 0, 0, 0, 0, 0xff, 0xff, a, b, c, d] := by
    unfold ParseIP ParseAddr
    have : parseAddrScan (dottedChars a b c d) (dottedChars a b c d) =
        (parseIPv4 (dottedChars a b c d)).map Addr.v4 := by
      conv_lhs => arg 2; unfold dottedChars
      exact parseAddrScan_dot (repr_not_sep a ha) _ _
    rw [this, parseIPv4_dottedChars ha hb hc hd]
    rfl
  unfold ipToUint32
  simp only [htrim, hparse]
  have h4 : To4 [0, 0, 0, 0, 0, 0, 0, 0, 0, 0, 0xff, 0xff, a, b, c, d] = [a, b, c, d] := by
    simp [To4]
  rw [h4, if_neg (by simp), bigEndianUint32_bytes ha hb hc hd]

/-! ## What `ipToUint32` accepts -/

theorem digit_iff (c : Char) : ('0' ≤ c ∧ c ≤ '9') ↔ c.isDigit = true := by
  simp only [Char.le_def, Char.isDigit, Bool.and_eq_true, decide_eq_true_eq, ge_iff_le]
  rfl

theorem parseIPv4Loop_sound (rest : List Char) :
    ∀ (prev : Option Char) (val pos digLen : Nat) (fields f : List Nat),
      parseIPv4Loop rest prev val pos digLen fields = some f →
      pos ≤ 3 → val ≤ 255 →
      (digLen = 0 → prev = none ∨ prev = some '.') →
      (prev = some '.' → rest ≠ []) → (prev = none → pos = 0) →
      ∃ seg segs, splitDots rest = seg :: segs ∧ segs.length = 3 - pos ∧
        (∀ t ∈ segs, isOctet t = true) ∧ seg.all Char.isDigit = true ∧
        seg.foldl (fun v c => 10 * v + (c.toNat - 48)) val ≤ 255 ∧ (seg = [] → digLen ≠ 0) := by
  induction rest with
  | nil =>
    intro prev val pos digLen fields f h hpos hval hdig hdot hnone
    unfold parseIPv4Loop at h
    split_ifs at h with h1
    refine ⟨[], [], rfl, by simp; omega, by simp, rfl, hval, ?_⟩
    intro _ h0
    rcases hdig h0 with e | e
    · have := hnone e
      omega
    · exact hdot e rfl
  | cons c rest ih =>
    intro prev val pos digLen fields f h hpos hval hdig hdot hnone
    unfold parseIPv4Loop at h
    by_cases h1 : '0' ≤ c ∧ c ≤ '9'
    · -- a digit
      rw [if_pos h1] at h
      by_cases h2 : digLen = 1 ∧ val = 0
      · rw [if_pos h2] at h
        cases h
      rw [if_neg h2] at h
      simp only at h
      by_cases h3 : val * 10 + (c.toNat - '0'.toNat) > 255
      · rw [if_pos h3] at h
        cases h
      rw [if_neg h3] at h
      have hc : c ≠ '.' := by
        rintro rfl
        exact absurd h1 (by decide)
      obtain ⟨seg, segs, e1, e2, e3, e4, e5, _⟩ :=
        ih (some c) _ pos (digLen + 1) fields f h hpos (by omega) (by omega)
          (fun e => absurd (Option.some.inj e) hc) (fun e => by cases e)
      refine ⟨c :: seg, segs, ?_, e2, e3, ?_, ?_, by simp⟩
      · unfold splitDots
        rw [if_neg hc, e1]
      · simp only [List.all_cons, Bool.and_eq_true]
        exact ⟨(digit_iff c).mp h1, e4⟩
      · simp only [List.foldl_cons]
        have e0 : '0'.toNat = 48 := rfl
        rw [e0, Nat.mul_comm] at e5
        exact e5
    · rw [if_neg h1] at h
      by_cases h4 : c = '.'
      · -- a dot
        rw [if_pos h4] at h
        by_cases h5 : prev = none ∨ rest = [] ∨ prev = some '.'
        · rw [if_pos h5] at h
          cases h
        rw [if_neg h5] at h
        by_cases h6 : pos = 3
        · rw [if_pos h6] at h
          cases h
        rw [if_neg h6] at h
        have hprev : prev ≠ none ∧ rest ≠ [] ∧ prev ≠ some '.' := by
          refine ⟨fun e => h5 (Or.inl e), fun e => h5 (Or.inr (Or.inl e)),
            fun e => h5 (Or.inr (Or.inr e))⟩
        obtain ⟨seg, segs, e1, e2, e3, e4, e5, e6⟩ :=
          ih (some c) 0 (pos + 1) 0 _ f h (by omega) (by omega) (fun _ => Or.inr (by rw [h4]))
            (fun _ => hprev.2.1) (fun e => by cases e)
        have hseg : isOctet seg = true := by
          have hne : seg ≠ [] := fun e => e6 e rfl
          unfold isOctet octetValue
          simp only [Bool.and_eq_true, Bool.not_eq_true', decide_eq_true_eq]
          refine ⟨⟨?_, e4⟩, e5⟩
          cases seg with
          | nil => exact absurd rfl hne
          | cons _ _ => rfl
        refine ⟨[], seg :: segs, ?_, ?_, ?_, rfl, hval, ?_⟩
        · unfold splitDots
          rw [if_pos h4, e1]
        · simp only [List.length_cons, e2]
          omega
        · intro t ht
          rcases List.mem_cons.mp ht with rfl | ht
          · exact hseg
          · exact e3 t ht
        · intro _ h0
          rcases hdig h0 with e | e
          · exact hprev.1 e
          · exact hprev.2.2 e
      · rw [if_neg h4] at h
        cases h

/-- What `parseIPv4` accepts is a dotted-decimal address. -/
theorem parseIPv4_sound {s : List Char} {f : List Nat} (h : parseIPv4 s = some f) :
    isDottedDecimal s = true := by
  unfold parseIPv4 parseIPv4Fields at h
  obtain ⟨seg, segs, e1, e2, e3, e4, e5, e6⟩ :=
    parseIPv4Loop_sound s none 0 0 0 _ f h (by omega) (by omega) (fun _ => Or.inl rfl)
      (fun e => by cases e) (fun _ => rfl)
  have hseg : isOctet seg = true := by
    have hne : seg ≠ [] := fun e => e6 e rfl
    unfold isOctet octetValue
    simp only [Bool.and_eq_true, Bool.not_eq_true', decide_eq_true_eq]
    refine ⟨⟨?_, e4⟩, e5⟩
    cases seg with
    | nil => exact absurd rfl hne
    | cons _ _ => rfl
  unfold isDottedDecimal
  rw [e1]
  match segs, e2, e3 with
  | [b, c, d], _, e3 =>
    simp only [Bool.and_eq_true]
    exact ⟨⟨⟨hseg, e3 b (by simp)⟩, e3 c (by simp)⟩, e3 d (by simp)⟩

theorem parseAddrScan_no_colon {s rest : List Char} {addr : Addr}
    (hc : rest.contains ':' = false) (h : parseAddrScan s rest = some addr) :
    ∃ f, parseIPv4 s = some f := by
  induction rest with
  | nil => cases h
  | cons c cs ih =>
    unfold parseAddrScan at h
    have hc1 : c ≠ ':' ∧ cs.contains ':' = false := by
      simp only [List.contains_cons, Bool.or_eq_false_iff, beq_eq_false_iff_ne, ne_eq] at hc
      exact ⟨fun e => hc.1 e.symm, hc.2⟩
    split_ifs at h with h1 h2 h3
    · cases e : parseIPv4 s with
      | none => rw [e] at h; cases h
      | some f => exact ⟨f, rfl⟩
    · exact absurd h2 hc1.1
    · exact ih hc1.2 h

/-! ## IPv6 literals: the parser against the text form -/

theorem splitDots_chars (s : List Char) :
    (∀ seg ∈ splitDots s, seg.all Char.isDigit = true) →
      ∀ c ∈ s, c.isDigit = true ∨ c = '.' := by
  induction s with
  | nil => intro _ c hc; cases hc
  | cons a cs ih =>
    intro h c hc
    unfold splitDots at h
    by_cases ha : a = '.'
    · rw [if_pos ha] at h
      rcases List.mem_cons.mp hc with rfl | hc
      · exact Or.inr ha
      · exact ih (fun seg hseg => h seg (List.mem_cons_of_mem _ hseg)) c hc
    · rw [if_neg ha] at h
      cases e : splitDots cs with
      | nil =>
        rw [e] at h
        have h0 := h [a] (List.mem_cons_self _ _)
        simp only [List.all_cons, List.all_nil, Bool.and_true] at h0
        rcases List.mem_cons.mp hc with rfl | hc
        · exact Or.inl h0
        · exact ih (by rw [e]; intro seg hseg; cases hseg) c hc
      | cons seg segs =>
        rw [e] at h
        have h0 := h (a :: seg) (List.mem_cons_self _ _)
        simp only [List.all_cons, Bool.and_eq_true] at h0
        rcases List.mem_cons.mp hc with rfl | hc
        · exact Or.inl h0.1
        · refine ih ?_ c hc
          rw [e]
          intro t ht
          rcases List.mem_cons.mp ht with rfl | ht
          · exact h0.2
          · exact h t (List.mem_cons_of_mem _ ht)

theorem isOctet_all {t : List Char} (h : isOctet t = true) : t.all Char.isDigit = true := by
  unfold isOctet at h
  simp only [Bool.and_eq_true] at h
  exact h.1.2

/-- A dotted-decimal address consists of decimal digits and dots. -/
theorem isDottedDecimal_chars {s : List Char} (h : isDottedDecimal s = true) :
    ∀ c ∈ s, c.isDigit = true ∨ c = '.' := by
  apply splitDots_chars
  unfold isDottedDecimal at h
  split at h
  · rename_i a b c d e
    rw [e]
    simp only [Bool.and_eq_true] at h
    intro seg hseg
    simp only [List.mem_cons, List.mem_singleton, List.not_mem_nil, or_false] at hseg
    rcases hseg with rfl | rfl | rfl | rfl
    · exact isOctet_all h.1.1.1
    · exact isOctet_all h.1.1.2
    · exact isOctet_all h.1.2
    · exact isOctet_all h.2
  · cases h

theorem hexVal_some {c : Char} {d : Nat} (h : hexVal c = some d) :
    isHexDigit c = true ∧ d = hexDigitValue c ∧ d ≤ 15 := by
  unfold hexVal at h
  unfold isHexDigit hexDigitValue
  by_cases h1 : '0' ≤ c ∧ c ≤ '9'
  · rw [if_pos h1] at h
    have hd := (digit_iff c).mp h1
    cases h
    have h2 := h1
    rw [Char.le_def, Char.le_def] at h2
    have h3 : c.toNat ≤ 57 := h2.2
    refine ⟨by simp [hd], by rw [if_pos hd]; rfl, ?_⟩
    show c.toNat - 48 ≤ 15
    omega
  · rw [if_neg h1] at h
    have hd : c.isDigit = false := by
      cases e : c.isDigit with
      | false => rfl
      | true => exact absurd ((digit_iff c).mpr e) h1
    by_cases h2 : 'a' ≤ c ∧ c ≤ 'f'
    · rw [if_pos h2] at h
      cases h
      have h3 := h2
      rw [Char.le_def, Char.le_def] at h3
      have h4 : 97 ≤ c.toNat := h3.1
      have h5 : c.toNat ≤ 102 := h3.2
      refine ⟨by simp [h2.1, h2.2], ?_, ?_⟩
      · rw [hd]
        simp only [Bool.false_eq_true, if_false, if_pos h2]
        show c.toNat - 97 + 10 = c.toNat - 87
        omega
      · show c.toNat - 97 + 10 ≤ 15
        omega
    · rw [if_neg h2] at h
      by_cases h6 : 'A' ≤ c ∧ c ≤ 'F'
      · rw [if_pos h6] at h
        cases h
        have h3 := h6
        rw [Char.le_def, Char.le_def] at h3
        have h4 : 65 ≤ c.toNat := h3.1
        have h5 : c.toNat ≤ 70 := h3.2
        refine ⟨by simp [h6.1, h6.2], ?_, ?_⟩
        · rw [hd]
          simp only [Bool.false_eq_true, if_false, if_neg h2]
          show c.toNat - 65 + 10 = c.toNat - 55
          omega
        · show c.toNat - 65 + 10 ≤ 15
          omega
      · rw [if_neg h6] at h
        cases h

theorem hexVal_none {c : Char} (h : hexVal c = none) : isHexDigit c = false := by
  unfold hexVal at h
  unfold isHexDigit
  by_cases h1 : '0' ≤ c ∧ c ≤ '9'
  · rw [if_pos h1] at h
    cases h
  · rw [if_neg h1] at h
    have hd : c.isDigit = false := by
      cases e : c.isDigit with
      | false => rfl
      | true => exact absurd ((digit_iff c).mpr e) h1
    by_cases h2 : 'a' ≤ c ∧ c ≤ 'f'
    · rw [if_pos h2] at h
      cases h
    · rw [if_neg h2] at h
      by_cases h6 : 'A' ≤ c ∧ c ≤ 'F'
      · rw [if_pos h6] at h
        cases h
      · rw [hd]
        simp only [Bool.false_or, Bool.or_eq_false_iff, Bool.and_eq_false_iff,
          decide_eq_false_iff_not]
        constructor
        · by_cases h7 : 'a' ≤ c
          · exact Or.inr (fun h8 => h2 ⟨h7, h8⟩)
          · exact Or.inl h7
        · by_cases h7 : 'A' ≤ c
          · exact Or.inr (fun h8 => h6 ⟨h7, h8⟩)
          · exact Or.inl h7

/-- What the inner loop of `parseIPv6` reads is a run of hexadecimal digits, with its value. -/
theorem parseHexLoop_spec (s : List Char) :
    ∀ (off acc off1 acc1 : Nat) (rest : List Char), acc ≤ 0xFFFF →
      parseHexLoop s off acc = some (off1, acc1, rest) →
      ∃ g, s = g ++ rest ∧ off1 = off + g.length ∧ (g ≠ [] → off1 ≤ 4) ∧
        g.all isHexDigit = true ∧
        acc1 = g.foldl (fun v c => 16 * v + hexDigitValue c) acc ∧ acc1 ≤ 0xFFFF ∧
        (∀ c r, rest = c :: r → isHexDigit c = false) := by
  induction s with
  | nil =>
    intro off acc off1 acc1 rest hacc h
    unfold parseHexLoop at h
    simp only [Option.some.injEq, Prod.mk.injEq] at h
    obtain ⟨h1, h2, h3⟩ := h
    subst h1 h2 h3
    exact ⟨[], rfl, rfl, fun h => absurd rfl h, rfl, rfl, hacc, fun c r h => by cases h⟩
  | cons a t ih =>
    intro off acc off1 acc1 rest hacc h
    unfold parseHexLoop at h
    cases e : hexVal a with
    | none =>
      rw [e] at h
      simp only [Option.some.injEq, Prod.mk.injEq] at h
      obtain ⟨h1, h2, h3⟩ := h
      subst h1 h2 h3
      refine ⟨[], rfl, rfl, fun h => absurd rfl h, rfl, rfl, hacc, ?_⟩
      intro c r hr
      cases hr
      exact hexVal_none e
    | some d =>
      rw [e] at h
      obtain ⟨hx, hd, hd15⟩ := hexVal_some e
      simp only at h
      have hacc1 : ((acc <<< 4) % 2 ^ 32 + d) % 2 ^ 32 = 16 * acc + d := by
        rw [Nat.shiftLeft_eq]
        have : acc * 2 ^ 4 < 2 ^ 32 := by omega
        rw [Nat.mod_eq_of_lt this, Nat.mod_eq_of_lt (by omega)]
        omega
      rw [hacc1] at h
      by_cases h1 : off > 3
      · rw [if_pos h1] at h
        cases h
      · rw [if_neg h1] at h
        by_cases h2 : 16 * acc + d > 0xFFFF
        · rw [if_pos h2] at h
          cases h
        · rw [if_neg h2] at h
          obtain ⟨g, hg1, hg2, hg3, hg4, hg5, hg7, hg6⟩ :=
            ih (off + 1) (16 * acc + d) off1 acc1 rest (by omega) h
          refine ⟨a :: g, by rw [hg1]; rfl, by rw [hg2, List.length_cons]; omega, ?_, ?_, ?_,
            hg7, hg6⟩
          · intro _
            by_cases hgn : g = []
            · rw [hg2, hgn]
              simp only [List.length_nil]
              omega
            · exact hg3 hgn
          · simp only [List.all_cons, Bool.and_eq_true]
            exact ⟨hx, hg4⟩
          · rw [hg5, List.foldl_cons, hd]

theorem char_eq_zero_of_toNat {c : Char} (h : c.toNat = 48) : c = '0' := by
  have h1 := Char.ofNat_toNat c
  rw [h] at h1
  exact h1.symm

/-- What `parseIPv4Fields` accepts has canonical octets, and the fields it stores are their
values. -/
theorem parseIPv4Loop_strict (rest : List Char) :
    ∀ (prev : Option Char) (val pos digLen : Nat) (fields f : List Nat),
      parseIPv4Loop rest prev val pos digLen fields = some f →
      pos ≤ 3 → val ≤ 255 → (digLen = 0 → val = 0) →
      ∃ seg segs, splitDots rest = seg :: segs ∧
        (digLen = 0 → (seg.length == 1 || seg.head? != some '0') = true) ∧
        (digLen = 1 ∧ val = 0 → seg = []) ∧
        (∀ t ∈ segs, (t.length == 1 || t.head? != some '0') = true) ∧
        f = writeFrom fields pos
          (seg.foldl (fun v c => 10 * v + (c.toNat - 48)) val :: segs.map octetValue) := by
  induction rest with
  | nil =>
    intro prev val pos digLen fields f h hpos hval hz
    unfold parseIPv4Loop at h
    by_cases h1 : pos < 3
    · rw [if_pos h1] at h
      cases h
    · rw [if_neg h1] at h
      have hp : pos = 3 := by omega
      subst hp
      refine ⟨[], [], rfl, fun _ => rfl, fun _ => rfl, (fun t ht => by cases ht), ?_⟩
      rw [Nat.mod_eq_of_lt (by omega)] at h
      cases h
      rfl
  | cons c rest ih =>
    intro prev val pos digLen fields f h hpos hval hz
    unfold parseIPv4Loop at h
    by_cases h1 : '0' ≤ c ∧ c ≤ '9'
    · rw [if_pos h1] at h
      by_cases h2 : digLen = 1 ∧ val = 0
      · rw [if_pos h2] at h
        cases h
      rw [if_neg h2] at h
      simp only at h
      by_cases h3 : val * 10 + (c.toNat - '0'.toNat) > 255
      · rw [if_pos h3] at h
        cases h
      rw [if_neg h3] at h
      have hc : c ≠ '.' := by
        rintro rfl
        exact absurd h1 (by decide)
      have e0 : '0'.toNat = 48 := rfl
      rw [e0] at h h3
      obtain ⟨seg, segs, e1, _, e3, e4, e5⟩ :=
        ih (some c) _ pos (digLen + 1) fields f h hpos (by omega) (fun e => by omega)
      refine ⟨c :: seg, segs, ?_, ?_, ?_, e4, ?_⟩
      · unfold splitDots
        rw [if_neg hc, e1]
      · intro hd0
        have hv0 := hz hd0
        by_cases hc0 : c = '0'
        · have hs : seg = [] := by
            apply e3
            refine ⟨by omega, ?_⟩
            rw [hv0, hc0]
            rfl
          rw [hs]
          rfl
        · have : (c :: seg).head? ≠ some '0' := by
            simp only [List.head?_cons, ne_eq, Option.some.injEq]
            exact hc0
          simp [hc0]
      · intro hd
        exact absurd hd h2
      · rw [e5, List.foldl_cons, Nat.mul_comm]
    · rw [if_neg h1] at h
      by_cases h4 : c = '.'
      · rw [if_pos h4] at h
        by_cases h5 : prev = none ∨ rest = [] ∨ prev = some '.'
        · rw [if_pos h5] at h
          cases h
        rw [if_neg h5] at h
        by_cases h6 : pos = 3
        · rw [if_pos h6] at h
          cases h
        rw [if_neg h6] at h
        rw [Nat.mod_eq_of_lt (by omega)] at h
        obtain ⟨seg, segs, e1, e2, _, e4, e5⟩ :=
          ih (some c) 0 (pos + 1) 0 _ f h (by omega) (by omega) (fun _ => rfl)
        refine ⟨[], seg :: segs, ?_, fun _ => rfl, fun _ => rfl, ?_, ?_⟩
        · unfold splitDots
          rw [if_pos h4, e1]
        · intro t ht
          rcases List.mem_cons.mp ht with rfl | ht
          · exact e2 rfl
          · exact e4 t ht
        · rw [e5]
          rfl
      · rw [if_neg h4] at h
        cases h

/-- What `parseIPv4` accepts is a canonical dotted-decimal address, and the result is the
list of the values of its octets. -/
theorem parseIPv4Fields_canonical {s : List Char} {f : List Nat}
    (h : parseIPv4Fields s [0, 0, 0, 0] = some f) :
    isCanonicalDotted s = true ∧ f = (splitDots s).map octetValue := by
  have hd : isDottedDecimal s = true := parseIPv4_sound h
  unfold parseIPv4Fields at h
  obtain ⟨seg, segs, e1, e2, _, e4, e5⟩ :=
    parseIPv4Loop_strict s none 0 0 0 _ f h (by omega) (by omega) (fun _ => rfl)
  have hd2 := hd
  unfold isDottedDecimal at hd2
  rw [e1] at hd2
  match segs, e4, e5, hd2 with
  | [b, c, d], e4, e5, hd2 =>
    simp only [Bool.and_eq_true] at hd2
    constructor
    · unfold isCanonicalDotted
      rw [hd, e1]
      simp only [Bool.true_and, List.all_cons, List.all_nil, Bool.and_true, Bool.and_eq_true]
      unfold isCanonicalOctet
      simp only [Bool.and_eq_true]
      exact ⟨⟨hd2.1.1.1, e2 rfl⟩, ⟨hd2.1.1.2, e4 b (by simp)⟩, ⟨hd2.1.2, e4 c (by simp)⟩,
        ⟨hd2.2, e4 d (by simp)⟩⟩
    · rw [e5, e1]
      rfl

/-- The group that the inner loop of `parseIPv6` reads from the start of a string. -/
theorem parseHexLoop_group {s rest : List Char} {off acc : Nat}
    (h : parseHexLoop s 0 0 = some (off, acc, rest)) (hoff : off ≠ 0) :
    ∃ g, s = g ++ rest ∧ g ≠ [] ∧ g.all isHexDigit = true ∧ hexGroupValue g = some acc ∧
      acc ≤ 0xFFFF ∧ (∀ c r, rest = c :: r → isHexDigit c = false) := by
  obtain ⟨g, h1, h2, h3, h4, h5, h6, h7⟩ := parseHexLoop_spec s 0 0 off acc rest (by omega) h
  have hg : g ≠ [] := by
    rintro rfl
    exact hoff (by simpa using h2)
  have hlen : 1 ≤ g.length ∧ g.length ≤ 4 := by
    have := h3 hg
    have hl : g.length ≠ 0 := fun e => hg (List.length_eq_zero.mp e)
    omega
  refine ⟨g, h1, hg, h4, ?_, h6, h7⟩
  unfold hexGroupValue
  rw [if_pos ⟨hlen.1, hlen.2, h4⟩, h5]

theorem hex_ne_colon {g : List Char} (hg : g.all isHexDigit = true) :
    ∀ c ∈ g, c ≠ ':' ∧ c ≠ '.' := by
  intro c hc
  have h := List.all_eq_true.mp hg c hc
  constructor
  · rintro rfl
    exact absurd h (by decide)
  · rintro rfl
    exact absurd h (by decide)

theorem splitColons_ne_nil (s : List Char) : splitColons s ≠ [] := by
  cases s with
  | nil => simp [splitColons]
  | cons c cs =>
    unfold splitColons
    by_cases h : c = ':'
    · rw [if_pos h]
      simp
    · rw [if_neg h]
      cases splitColons cs <;> simp

theorem splitColons_append {g : List Char} (hg : ∀ c ∈ g, c ≠ ':') (x : List Char) :
    ∃ seg segs, splitColons x = seg :: segs ∧ splitColons (g ++ x) = (g ++ seg) :: segs := by
  induction g with
  | nil =>
    cases e : splitColons x with
    | nil => exact absurd e (splitColons_ne_nil x)
    | cons seg segs => exact ⟨seg, segs, rfl, e⟩
  | cons c cs ih =>
    obtain ⟨seg, segs, e1, e2⟩ := ih (fun a ha => hg a (List.mem_cons_of_mem _ ha))
    refine ⟨seg, segs, e1, ?_⟩
    rw [List.cons_append]
    unfold splitColons
    rw [if_neg (hg c (List.mem_cons_self _ _)), e2]
    rfl

theorem splitColons_group_colon {g : List Char} (hg : ∀ c ∈ g, c ≠ ':') (r : List Char) :
    splitColons (g ++ ':' :: r) = g :: splitColons r := by
  obtain ⟨seg, segs, e1, e2⟩ := splitColons_append hg (':' :: r)
  unfold splitColons at e1
  rw [if_pos rfl] at e1
  cases e1
  rw [e2, List.append_nil]

theorem splitColons_single {g : List Char} (hg : ∀ c ∈ g, c ≠ ':') : splitColons g = [g] := by
  obtain ⟨seg, segs, e1, e2⟩ := splitColons_append hg []
  unfold splitColons at e1
  cases e1
  rw [List.append_nil] at e2
  exact e2

theorem splitDoubleColon_append {g : List Char} (hg : ∀ c ∈ g, c ≠ ':') (x : List Char) :
    splitDoubleColon (g ++ x) =
      match splitDoubleColon x with
      | none => none
      | some (l, r) => some (g ++ l, r) := by
  induction g with
  | nil =>
    rw [List.nil_append]
    cases splitDoubleColon x with
    | none => rfl
    | some p =>
      cases p
      rfl
  | cons c cs ih =>
    rw [List.cons_append]
    conv_lhs => unfold splitDoubleColon
    have hc : ¬ (c = ':' ∧ (cs ++ x).head? = some ':') :=
      fun h => hg c (List.mem_cons_self _ _) h.1
    rw [if_neg hc, ih (fun a ha => hg a (List.mem_cons_of_mem _ ha))]
    cases splitDoubleColon x with
    | none => rfl
    | some p =>
      cases p
      rfl

theorem splitDoubleColon_none {g : List Char} (hg : ∀ c ∈ g, c ≠ ':') :
    splitDoubleColon g = none := by
  have h := splitDoubleColon_append hg []
  rw [List.append_nil] at h
  rw [h]
  rfl

theorem splitDoubleColon_gap {g : List Char} (hg : ∀ c ∈ g, c ≠ ':') (r : List Char) :
    splitDoubleColon (g ++ ':' :: ':' :: r) = some (g, r) := by
  rw [splitDoubleColon_append hg]
  have : splitDoubleColon (':' :: ':' :: r) = some ([], r) := by
    unfold splitDoubleColon
    rw [if_pos ⟨rfl, rfl⟩]
    rfl
  rw [this]
  show some (g ++ [], r) = some (g, r)
  rw [List.append_nil]

theorem splitDoubleColon_colon {g : List Char} (hg : ∀ c ∈ g, c ≠ ':') {c : Char}
    (hc : c ≠ ':') (r : List Char) :
    splitDoubleColon (g ++ ':' :: c :: r) =
      match splitDoubleColon (c :: r) with
      | none => none
      | some (l, r1) => some (g ++ ':' :: l, r1) := by
  rw [splitDoubleColon_append hg]
  have : splitDoubleColon (':' :: c :: r) =
      match splitDoubleColon (c :: r) with
      | none => none
      | some (l, r1) => some (':' :: l, r1) := by
    conv_lhs => unfold splitDoubleColon
    have hn : ¬ (':' = ':' ∧ (c :: r).head? = some ':') := by
      simp only [List.head?_cons, Option.some.injEq, true_and]
      exact hc
    rw [if_neg hn]
  rw [this]
  cases splitDoubleColon (c :: r) with
  | none => rfl
  | some p =>
    cases p
    rfl

theorem splitDots_single {g : List Char} (hg : ∀ c ∈ g, c ≠ '.') : splitDots g = [g] := by
  induction g with
  | nil => rfl
  | cons c cs ih =>
    unfold splitDots
    rw [if_neg (hg c (List.mem_cons_self _ _)),
      ih (fun a ha => hg a (List.mem_cons_of_mem _ ha))]

theorem not_canonical_of_hex {g : List Char} (hg : g.all isHexDigit = true) :
    isCanonicalDotted g = false := by
  unfold isCanonicalDotted isDottedDecimal
  rw [splitDots_single (fun c hc => (hex_ne_colon hg c hc).2)]
  rfl

theorem canonical_ne_colon {t : List Char} (h : isCanonicalDotted t = true) :
    ∀ c ∈ t, c ≠ ':' := by
  unfold isCanonicalDotted at h
  simp only [Bool.and_eq_true] at h
  intro c hc
  rcases isDottedDecimal_chars h.1 c hc with h1 | h1
  · rintro rfl
    exact absurd h1 (by decide)
  · rw [h1]
    decide

theorem canonical_ne_nil {t : List Char} (h : isCanonicalDotted t = true) : t ≠ [] := by
  rintro rfl
  exact absurd h (by decide)

/-- The bytes of a hexadecimal group followed by further fields. -/
theorem fieldBytes_group_cons (allowTail : Bool) {g : List Char} {v : Nat}
    (hv : hexGroupValue g = some v) {f : List Char} {fs : List (List Char)} {bs : List Nat}
    (hb : fieldBytes allowTail (f :: fs) = some bs) :
    fieldBytes allowTail (g :: f :: fs) = some (groupBytes v ++ bs) := by
  conv_lhs => unfold fieldBytes
  have hn : ¬ (f :: fs = [] ∧ allowTail = true ∧ isCanonicalDotted g = true) :=
    fun h => by cases h.1
  rw [if_neg hn, hv, hb]

/-- The bytes of a single hexadecimal group. -/
theorem fieldBytes_group (allowTail : Bool) {g : List Char} {v : Nat}
    (hg : g.all isHexDigit = true) (hv : hexGroupValue g = some v) :
    fieldBytes allowTail [g] = some (groupBytes v) := by
  unfold fieldBytes
  have hn : ¬ (([] : List (List Char)) = [] ∧ allowTail = true ∧ isCanonicalDotted g = true) := by
    rw [not_canonical_of_hex hg]
    simp
  rw [if_neg hn, hv]
  unfold fieldBytes
  simp

/-- The bytes of a dotted-decimal tail. -/
theorem fieldBytes_tail {t : List Char} (h : isCanonicalDotted t = true) :
    fieldBytes true [t] = some ((splitDots t).map octetValue) := by
  unfold fieldBytes
  rw [if_pos ⟨rfl, rfl, h⟩]

theorem colonFields_of_ne_nil {s : List Char} (h : s ≠ []) : colonFields s = splitColons s := by
  unfold colonFields
  rw [if_neg h]

theorem splitDoubleColon_left_ne_nil {c : Char} {s l r : List Char} (hc : c ≠ ':')
    (h : splitDoubleColon (c :: s) = some (l, r)) : l ≠ [] := by
  unfold splitDoubleColon at h
  have hn : ¬ (c = ':' ∧ s.head? = some ':') := fun h => hc h.1
  rw [if_neg hn] at h
  cases hs : splitDoubleColon s with
  | none =>
    rw [hs] at h
    cases h
  | some p =>
    obtain ⟨l1, r1⟩ := p
    rw [hs] at h
    simp only [Option.some.injEq, Prod.mk.injEq] at h
    rw [← h.1]
    exact List.cons_ne_nil _ _

theorem set_two (P R : List Nat) (a0 a1 x y : Nat) :
    ((P ++ a0 :: a1 :: R).set P.length x).set (P.length + 1) y = P ++ x :: y :: R := by
  induction P with
  | nil => rfl
  | cons p ps ih => simp only [List.cons_append, List.length_cons, List.set_cons_succ, ih]

theorem set_four (P R : List Nat) (a0 a1 a2 a3 x0 x1 x2 x3 : Nat) :
    ((((P ++ a0 :: a1 :: a2 :: a3 :: R).set P.length x0).set (P.length + 1) x1).set
      (P.length + 2) x2).set (P.length + 3) x3 = P ++ x0 :: x1 :: x2 :: x3 :: R := by
  induction P with
  | nil => rfl
  | cons p ps ih => simp only [List.cons_append, List.length_cons, List.set_cons_succ, ih]

theorem isDottedDecimal_length {s : List Char} (h : isDottedDecimal s = true) :
    (splitDots s).length = 4 := by
  unfold isDottedDecimal at h
  split at h
  · rename_i a b c d e
    rw [e]
    rfl
  · cases h

theorem shiftByte_eq {acc : Nat} (h : acc ≤ 0xFFFF) : (acc >>> 8) % 256 = acc / 256 := by
  rw [Nat.shiftRight_eq_div_pow]
  have e : (2 : Nat) ^ 8 = 256 := by norm_num
  rw [e]
  have : acc / 256 < 256 := by omega
  exact Nat.mod_eq_of_lt this

theorem list_length_succ {l : List Nat} {n : Nat} (h : l.length = n + 1) :
    ∃ x t, l = x :: t ∧ t.length = n := by
  cases l with
  | nil => cases h
  | cons x t => exact ⟨x, t, rfl, Nat.succ.inj h⟩

theorem list_sixteen {ip : List Nat} (h : ip.length = 16) :
    ∃ x0 x1 x2 x3 x4 x5 x6 x7 x8 x9 x10 x11 x12 x13 x14 x15, ip = [x0, x1, x2, x3, x4, x5, x6, x7, x8, x9, x10, x11, x12, x13, x14, x15] := by
  obtain ⟨x0, t0, rfl, h0⟩ := list_length_succ h
  obtain ⟨x1, t1, rfl, h1⟩ := list_length_succ h0
  obtain ⟨x2, t2, rfl, h2⟩ := list_length_succ h1
  obtain ⟨x3, t3, rfl, h3⟩ := list_length_succ h2
  obtain ⟨x4, t4, rfl, h4⟩ := list_length_succ h3
  obtain ⟨x5, t5, rfl, h5⟩ := list_length_succ h4
  obtain ⟨x6, t6, rfl, h6⟩ := list_length_succ h5
  obtain ⟨x7, t7, rfl, h7⟩ := list_length_succ h6
  obtain ⟨x8, t8, rfl, h8⟩ := list_length_succ h7
  obtain ⟨x9, t9, rfl, h9⟩ := list_length_succ h8
  obtain ⟨x10, t10, rfl, h10⟩ := list_length_succ h9
  obtain ⟨x11, t11, rfl, h11⟩ := list_length_succ h10
  obtain ⟨x12, t12, rfl, h12⟩ := list_length_succ h11
  obtain ⟨x13, t13, rfl, h13⟩ := list_length_succ h12
  obtain ⟨x14, t14, rfl, h14⟩ := list_length_succ h13
  obtain ⟨x15, t15, rfl, h15⟩ := list_length_succ h14
  cases t15 with
  | nil => exact ⟨x0, x1, x2, x3, x4, x5, x6, x7, x8, x9, x10, x11, x12, x13, x14, x15, rfl⟩
  | cons a b => cases h15

theorem getD_at (X Y : List Nat) (b : Nat) : (X ++ b :: Y).getD X.length 0 = b := by
  induction X with
  | nil => rfl
  | cons x xs ih => simpa using ih

theorem set_at (X Y : List Nat) (b v : Nat) : (X ++ b :: Y).set X.length v = X ++ v :: Y := by
  induction X with
  | nil => rfl
  | cons x xs ih => simp only [List.cons_append, List.length_cons, List.set_cons_succ, ih]

/-- The copy loop of the ellipsis expansion: the bytes written after `::` end up at the end of
the address, and a gap of the length of the unwritten part is left before them. -/
theorem moveLoop_eq (n i : Nat) (A : List Nat) (hn : 0 < n) :
    ∀ (k : Nat) (F K Z : List Nat), K.length = k → Z.length = n →
      i = A.length + F.length + K.length →
      ∃ G, G.length = n ∧
        ((List.range k).map (fun t => i - 1 - t)).foldl
          (fun ip j => ip.set (j + n) (ip.getD j 0)) (A ++ F ++ K ++ Z) = A ++ F ++ G ++ K := by
  intro k
  induction k with
  | zero =>
    intro F K Z hK hZ _
    have : K = [] := List.eq_nil_of_length_eq_zero hK
    subst this
    exact ⟨Z, hZ, by simp⟩
  | succ k ih =>
    intro F K Z hK hZ hi
    obtain ⟨b, K1, rfl⟩ : ∃ b K1, K = b :: K1 := by
      cases K with
      | nil => cases hK
      | cons b K1 => exact ⟨b, K1, rfl⟩
    have hK1 : K1.length = k := Nat.succ.inj hK
    obtain ⟨G, hG, hm⟩ := ih (F ++ [b]) K1 Z hK1 hZ (by
      rw [hi]
      simp only [List.length_append, List.length_cons, List.length_nil]
      omega)
    have h0 : A ++ F ++ b :: K1 ++ Z = A ++ (F ++ [b]) ++ K1 ++ Z := by simp
    rw [List.range_succ, List.map_append, List.foldl_append, h0, hm]
    simp only [List.map_cons, List.map_nil, List.foldl_cons, List.foldl_nil]
    have hj : i - 1 - k = (A ++ F).length := by
      rw [hi, List.length_append]
      simp only [List.length_cons]
      omega
    rcases List.eq_nil_or_concat G with hnil | ⟨G1, c, hG1⟩
    · rw [hnil] at hG
      simp only [List.length_nil] at hG
      omega
    rw [List.concat_eq_append] at hG1
    subst hG1
    have hG1l : G1.length + 1 = n := by
      rw [← hG]
      simp
    have e1 : A ++ (F ++ [b]) ++ (G1 ++ [c]) ++ K1 = (A ++ F) ++ b :: (G1 ++ c :: K1) := by simp
    have e2 : A ++ (F ++ [b]) ++ (G1 ++ [c]) ++ K1 = (A ++ F ++ b :: G1) ++ c :: K1 := by simp
    have hd : (A ++ F).length + n = (A ++ F ++ b :: G1).length := by
      simp only [List.length_append, List.length_cons]
      omega
    refine ⟨b :: G1, by simpa using hG1l, ?_⟩
    rw [hj]
    nth_rewrite 2 [e1]
    rw [getD_at, e2, hd, set_at]

/-- The clearing loop of the ellipsis expansion. -/
theorem clearLoop_eq (X : List Nat) :
    ∀ (k : Nat) (G1 G2 : List Nat), G1.length = k →
      (List.range k).foldl (fun ip t => ip.set (X.length + t) 0) (X ++ G1 ++ G2) =
        X ++ List.replicate k 0 ++ G2 := by
  intro k
  induction k with
  | zero =>
    intro G1 G2 h
    have : G1 = [] := List.eq_nil_of_length_eq_zero h
    subst this
    rfl
  | succ k ih =>
    intro G1 G2 h
    rcases List.eq_nil_or_concat G1 with hnil | ⟨G, c, hG⟩
    · rw [hnil] at h
      cases h
    rw [List.concat_eq_append] at hG
    subst hG
    have hGl : G.length = k := by
      simp only [List.length_append, List.length_cons, List.length_nil] at h
      omega
    have e0 : X ++ (G ++ [c]) ++ G2 = X ++ G ++ (c :: G2) := by simp
    rw [List.range_succ, List.foldl_append, e0, ih G (c :: G2) hGl]
    simp only [List.foldl_cons, List.foldl_nil]
    have hl : X.length + k = (X ++ List.replicate k 0).length := by
      simp
    rw [hl, set_at, List.replicate_succ']
    simp

/-- The expansion of the ellipsis moves the bytes written after `::` to the end and leaves
zero bytes in the gap. -/
theorem expandEllipsis_eq (A B : List Nat) (h : A.length + B.length < 16) :
    expandEllipsis (A ++ B ++ List.replicate (16 - (A.length + B.length)) 0)
      (A.length + B.length) A.length =
      A ++ List.replicate (16 - (A.length + B.length)) 0 ++ B := by
  unfold expandEllipsis
  simp only
  have hk : A.length + B.length - A.length = B.length := by omega
  rw [hk]
  obtain ⟨G, hG, hm⟩ := moveLoop_eq (16 - (A.length + B.length)) (A.length + B.length) A
    (by omega) B.length [] B (List.replicate (16 - (A.length + B.length)) 0) rfl
    (List.length_replicate _ _) (by simp)
  rw [List.append_nil] at hm
  rw [hm]
  exact clearLoop_eq A _ G B hG

theorem To4_mapped {ip : List Nat} (hl : ip.length = 16) (h : To4 ip ≠ []) :
    (ip.take 12 == [0, 0, 0, 0, 0, 0, 0, 0, 0, 0, 255, 255]) = true := by
  obtain ⟨x0, x1, x2, x3, x4, x5, x6, x7, x8, x9, x10, x11, x12, x13, x14, x15, rfl⟩ := list_sixteen hl
  unfold To4 at h
  have h4 : ¬ ([x0, x1, x2, x3, x4, x5, x6, x7, x8, x9, x10, x11, x12, x13, x14, x15].length = 4) := by simp
  rw [if_neg h4] at h
  by_cases hc : [x0, x1, x2, x3, x4, x5, x6, x7, x8, x9, x10, x11, x12, x13, x14, x15].length = 16 ∧
      (([x0, x1, x2, x3, x4, x5, x6, x7, x8, x9, x10, x11, x12, x13, x14, x15].take 10).all (fun b => b == 0)) = true ∧
      [x0, x1, x2, x3, x4, x5, x6, x7, x8, x9, x10, x11, x12, x13, x14, x15].getD 10 0 = 0xff ∧ [x0, x1, x2, x3, x4, x5, x6, x7, x8, x9, x10, x11, x12, x13, x14, x15].getD 11 0 = 0xff
  · obtain ⟨_, ha, hb, hc⟩ := hc
    simp only [List.take, List.all_cons, List.all_nil, Bool.and_true, Bool.and_eq_true,
      beq_iff_eq] at ha
    obtain ⟨e0, e1, e2, e3, e4, e5, e6, e7, e8, e9⟩ := ha
    simp only [List.getD_cons_zero, List.getD_cons_succ] at hb hc
    subst e0 e1 e2 e3 e4 e5 e6 e7 e8 e9 hb hc
    rfl
  · rw [if_neg hc] at h
    exact absurd rfl h

theorem ipv6Bytes_length {s : List Char} {bs : List Nat} (h : ipv6Bytes s = some bs) :
    bs.length = 16 := by
  unfold ipv6Bytes at h
  cases hs : splitDoubleColon s with
  | none =>
    rw [hs] at h
    simp only at h
    cases hf : fieldBytes true (colonFields s) with
    | none =>
      rw [hf] at h
      cases h
    | some b =>
      rw [hf] at h
      simp only at h
      by_cases hb : b.length = 16
      · rw [if_pos hb] at h
        cases h
        exact hb
      · rw [if_neg hb] at h
        cases h
  | some p =>
    obtain ⟨l, r⟩ := p
    rw [hs] at h
    simp only at h
    cases hl : fieldBytes false (colonFields l) with
    | none =>
      rw [hl] at h
      cases h
    | some bl =>
      cases hr : fieldBytes true (colonFields r) with
      | none =>
        rw [hl, hr] at h
        cases h
      | some br =>
        rw [hl, hr] at h
        simp only at h
        by_cases hb : bl.length + br.length < 16
        · rw [if_pos hb] at h
          cases h
          simp only [List.length_append, List.length_replicate]
          omega
        · rw [if_neg hb] at h
          cases h

theorem takeWhile_no_percent {s : List Char} (h : s.contains '%' = false) :
    s.takeWhile (fun c => c ≠ '%') = s := by
  induction s with
  | nil => rfl
  | cons c cs ih =>
    simp only [List.contains_cons, Bool.or_eq_false_iff, beq_eq_false_iff_ne, ne_eq] at h
    have hc : decide (c ≠ '%') = true := by
      simp only [ne_eq, decide_eq_true_eq]
      exact fun e => h.1 e.symm
    rw [List.takeWhile_cons, hc, ih h.2, if_pos rfl]

theorem splitDoubleColon_lead (s : List Char) :
    splitDoubleColon (':' :: ':' :: s) = some ([], s) := by
  unfold splitDoubleColon
  rw [if_pos ⟨rfl, rfl⟩]
  rfl

theorem take_two_eq {s : List Char} {a b : Char} (h : s.take 2 = [a, b]) :
    s = a :: b :: s.drop 2 := by
  match s, h with
  | x :: y :: t, h =>
    simp only [List.take, List.cons.injEq, and_true] at h
    rw [h.1, h.2]
    rfl

theorem parseAddrScan_cases {s : List Char} {addr : Addr} :
    ∀ rest, parseAddrScan s rest = some addr →
      (∃ f, parseIPv4 s = some f ∧ addr = Addr.v4 f) ∨
      (∃ ip zone, parseIPv6 s = some (ip, zone) ∧ addr = Addr.v6 ip zone) := by
  intro rest
  induction rest with
  | nil =>
    intro h
    cases h
  | cons c cs ih =>
    intro h
    unfold parseAddrScan at h
    by_cases h1 : c = '.'
    · rw [if_pos h1] at h
      cases hp : parseIPv4 s with
      | none =>
        rw [hp] at h
        cases h
      | some f =>
        rw [hp] at h
        simp only [Option.map_some', Option.some.injEq] at h
        exact Or.inl ⟨f, rfl, h.symm⟩
    rw [if_neg h1] at h
    by_cases h2 : c = ':'
    · rw [if_pos h2] at h
      cases hp : parseIPv6 s with
      | none =>
        rw [hp] at h
        cases h
      | some r =>
        obtain ⟨ip, z⟩ := r
        rw [hp] at h
        simp only [Option.map_some', Option.some.injEq] at h
        exact Or.inr ⟨ip, z, rfl, h.symm⟩
    rw [if_neg h2] at h
    by_cases h3 : c = '%'
    · rw [if_pos h3] at h
      cases h
    rw [if_neg h3] at h
    exact ih h

/-- The main loop of `parseIPv6` against the text form: what it accepts is a sequence of
fields, with or without one `::`, and the bytes it stores are the bytes of the fields. -/
theorem parseIPv6Loop_sound (n : Nat) :
    ∀ (s : List Char) (e : Int) (P : List Nat) (i1 : Nat) (e1 : Int) (ip1 : List Nat),
      s ≠ [] → P.length + 2 * n = 16 →
      parseIPv6Loop n s e (P ++ List.replicate (2 * n) 0) = some ([], i1, e1, ip1) →
      (e1 = e ∧ splitDoubleColon s = none ∧
        ∃ bs, fieldBytes true (colonFields s) = some bs ∧ i1 = P.length + bs.length ∧
          i1 ≤ 16 ∧ ip1 = P ++ bs ++ List.replicate (16 - i1) 0) ∨
      (e < 0 ∧ ∃ l r bl br, splitDoubleColon s = some (l, r) ∧
        fieldBytes false (colonFields l) = some bl ∧
        fieldBytes true (colonFields r) = some br ∧
        e1 = ((P.length + bl.length : Nat) : Int) ∧
        i1 = P.length + bl.length + br.length ∧ i1 ≤ 16 ∧
        ip1 = P ++ bl ++ br ++ List.replicate (16 - i1) 0) := by
  induction n with
  | zero =>
    intro s e P i1 e1 ip1 hs _ h
    unfold parseIPv6Loop at h
    simp only [Option.some.injEq, Prod.mk.injEq] at h
    exact absurd h.1 hs
  | succ n ih =>
    intro s e P i1 e1 ip1 hs hP h
    have hi : 16 - 2 * (n + 1) = P.length := by omega
    have hz : List.replicate (2 * (n + 1)) 0 = 0 :: 0 :: List.replicate (2 * n) 0 := rfl
    unfold parseIPv6Loop at h
    simp only [hi] at h
    cases hh : parseHexLoop s 0 0 with
    | none =>
      rw [hh] at h
      cases h
    | some r =>
      obtain ⟨off, acc, rest⟩ := r
      rw [hh] at h
      simp only at h
      by_cases hoff : off = 0
      · rw [if_pos hoff] at h
        cases h
      rw [if_neg hoff] at h
      obtain ⟨g, hsg, hgne, hghex, hgv, hacc, hrest⟩ := parseHexLoop_group hh hoff
      have hgc : ∀ c ∈ g, c ≠ ':' := fun c hc => (hex_ne_colon hghex c hc).1
      by_cases htail : rest.head? = some '.'
      · -- an embedded IPv4 address
        rw [if_pos htail] at h
        by_cases hplace : e < 0 ∧ P.length ≠ 12
        · rw [if_pos hplace] at h
          cases h
        rw [if_neg hplace] at h
        by_cases hroom : P.length + 4 > 16
        · rw [if_pos hroom] at h
          cases h
        rw [if_neg hroom] at h
        cases hf : parseIPv4Fields s [0, 0, 0, 0] with
        | none =>
          rw [hf] at h
          cases h
        | some f =>
          rw [hf] at h
          obtain ⟨hcan, hfv⟩ := parseIPv4Fields_canonical hf
          have hcd : isDottedDecimal s = true := by
            unfold isCanonicalDotted at hcan
            simp only [Bool.and_eq_true] at hcan
            exact hcan.1
          have hfl : f.length = 4 := by
            rw [hfv, List.length_map, isDottedDecimal_length hcd]
          obtain ⟨m, rfl⟩ : ∃ m, n = m + 1 := ⟨n - 1, by omega⟩
          have hz4 : List.replicate (2 * (m + 1 + 1)) 0 =
              0 :: 0 :: 0 :: 0 :: List.replicate (2 * m) 0 := rfl
          match f, hfl, hf, hfv with
          | [f0, f1, f2, f3], _, hf, hfv =>
            rw [hz4] at h
            simp only [List.getD_cons_zero, List.getD_cons_succ] at h
            rw [set_four] at h
            simp only [Option.some.injEq, Prod.mk.injEq, true_and] at h
            obtain ⟨h1, h2, h3⟩ := h
            left
            have hsc : ∀ c ∈ s, c ≠ ':' := canonical_ne_colon hcan
            refine ⟨h2.symm, splitDoubleColon_none hsc, [f0, f1, f2, f3], ?_, ?_, ?_, ?_⟩
            · rw [colonFields_of_ne_nil hs, splitColons_single hsc, fieldBytes_tail hcan, hfv]
            · rw [← h1]
              rfl
            · rw [← h1]
              omega
            · rw [← h3, ← h1]
              have : 16 - (P.length + 4) = 2 * m := by omega
              rw [this]
              simp
      · -- a hexadecimal group
        rw [if_neg htail] at h
        rw [hz, set_two, shiftByte_eq hacc] at h
        have hP1 : (P ++ groupBytes acc).length + 2 * n = 16 := by
          rw [List.length_append]
          unfold groupBytes
          simp only [List.length_cons, List.length_nil]
          omega
        have hip : P ++ (acc / 256) :: (acc % 256) :: List.replicate (2 * n) 0 =
            (P ++ groupBytes acc) ++ List.replicate (2 * n) 0 := by
          unfold groupBytes
          simp
        have hgl : (groupBytes acc).length = 2 := rfl
        rw [hip] at h
        cases rest with
        | nil =>
          simp only [Option.some.injEq, Prod.mk.injEq, true_and] at h
          obtain ⟨h1, h2, h3⟩ := h
          rw [List.append_nil] at hsg
          left
          refine ⟨h2.symm, ?_, groupBytes acc, ?_, ?_, ?_, ?_⟩
          · rw [hsg]
            exact splitDoubleColon_none hgc
          · rw [colonFields_of_ne_nil hs, hsg, splitColons_single hgc]
            exact fieldBytes_group true hghex hgv
          · rw [← h1, hgl]
          · rw [← h1]
            omega
          · rw [← h3, ← h1]
            have : 16 - (P.length + 2) = 2 * n := by omega
            rw [this]
        | cons c s1 =>
          simp only at h
          by_cases hc : c ≠ ':'
          · rw [if_pos hc] at h
            cases h
          rw [if_neg hc] at h
          have hc' : c = ':' := by
            by_cases e0 : c = ':'
            · exact e0
            · exact absurd e0 hc
          subst hc'
          cases s1 with
          | nil =>
            simp only at h
            cases h
          | cons c1 s2 =>
            simp only at h
            by_cases hc1 : c1 = ':'
            · -- the ellipsis
              rw [if_pos hc1] at h
              subst hc1
              by_cases he : e ≥ 0
              · rw [if_pos he] at h
                cases h
              rw [if_neg he] at h
              have he' : e < 0 := by omega
              right
              refine ⟨he', ?_⟩
              cases s2 with
              | nil =>
                simp only [Option.some.injEq, Prod.mk.injEq, true_and] at h
                obtain ⟨h1, h2, h3⟩ := h
                refine ⟨g, [], groupBytes acc, [], ?_, ?_, rfl, ?_, ?_, ?_, ?_⟩
                · rw [hsg]
                  exact splitDoubleColon_gap hgc []
                · rw [colonFields_of_ne_nil hgne, splitColons_single hgc]
                  exact fieldBytes_group false hghex hgv
                · rw [← h2, hgl]
                · rw [← h1, hgl]
                  simp
                · rw [← h1]
                  omega
                · rw [← h3, ← h1]
                  have : 16 - (P.length + 2) = 2 * n := by omega
                  rw [this]
                  simp
              | cons c2 s3 =>
                simp only at h
                rcases ih (c2 :: s3) _ (P ++ groupBytes acc) i1 e1 ip1 (by simp) hP1 h with
                  ⟨h1, _, bs, h3, h4, h5, h6⟩ | ⟨h1, _⟩
                · refine ⟨g, c2 :: s3, groupBytes acc, bs, ?_, ?_, h3, ?_, ?_, h5, ?_⟩
                  · rw [hsg]
                    exact splitDoubleColon_gap hgc _
                  · rw [colonFields_of_ne_nil hgne, splitColons_single hgc]
                    exact fieldBytes_group false hghex hgv
                  · rw [h1, hgl]
                  · rw [h4, List.length_append, hgl]
                  · rw [h6]
                · exfalso
                  have : (0 : Int) ≤ ((P.length + 2 : Nat) : Int) := Int.ofNat_nonneg _
                  omega
            · -- a single colon
              rw [if_neg hc1] at h
              have hcf : colonFields s = g :: splitColons (c1 :: s2) := by
                rw [colonFields_of_ne_nil hs, hsg]
                exact splitColons_group_colon hgc _
              have hsd := splitDoubleColon_colon hgc hc1 s2
              rw [← hsg] at hsd
              have hne1 : splitColons (c1 :: s2) ≠ [] := splitColons_ne_nil _
              rcases ih (c1 :: s2) e (P ++ groupBytes acc) i1 e1 ip1 (by simp) hP1 h with
                ⟨h1, h2, bs, h3, h4, h5, h6⟩ | ⟨h1, l, r, bl, br, h2, h3, h4, h5, h6, h7, h8⟩
              · left
                rw [h2] at hsd
                refine ⟨h1, hsd, groupBytes acc ++ bs, ?_, ?_, h5, ?_⟩
                · rw [hcf]
                  rw [colonFields_of_ne_nil (by simp)] at h3
                  cases hsp : splitColons (c1 :: s2) with
                  | nil => exact absurd hsp hne1
                  | cons f fs =>
                    rw [hsp] at h3
                    exact fieldBytes_group_cons true hgv h3
                · rw [h4, List.length_append, List.length_append, hgl]
                  omega
                · rw [h6]
                  simp
              · right
                rw [h2] at hsd
                refine ⟨h1, g ++ ':' :: l, r, groupBytes acc ++ bl, br, hsd, ?_, h4, ?_, ?_, h7,
                  ?_⟩
                · have hl : l ≠ [] := splitDoubleColon_left_ne_nil hc1 h2
                  rw [colonFields_of_ne_nil (by simp), splitColons_group_colon hgc]
                  rw [colonFields_of_ne_nil hl] at h3
                  cases hsp : splitColons l with
                  | nil => exact absurd hsp (splitColons_ne_nil _)
                  | cons f fs =>
                    rw [hsp] at h3
                    exact fieldBytes_group_cons false hgv h3
                · rw [h5, List.length_append, List.length_append, hgl]
                  congr 1
                  omega
                · rw [h6, List.length_append, List.length_append, hgl]
                  omega
                · rw [h8]
                  simp

theorem parseIPv6_zone {input : List Char} {ip : List Nat} {z : List Char}
    (h : parseIPv6 input = some (ip, z)) :
    z = List.drop 1 (List.dropWhile (fun c => c ≠ '%') input) := by
  unfold parseIPv6 at h
  simp only at h
  repeat' split at h
  all_goals
    cases h
    try rfl

theorem parseIPv6_no_zone {input : List Char} {ip : List Nat}
    (h : parseIPv6 input = some (ip, [])) : input.contains '%' = false := by
  have hz := parseIPv6_zone h
  unfold parseIPv6 at h
  simp only at h
  by_cases hc : input.contains '%' = true
  · rw [if_pos ⟨hc, hz.symm⟩] at h
    cases h
  · simpa using hc

/-- Soundness of `parseIPv6` for the text form: an address parsed without a zone is the
address that the text form denotes. -/
theorem parseIPv6_sound {input : List Char} {ip : List Nat}
    (h : parseIPv6 input = some (ip, [])) : ipv6Bytes input = some ip := by
  have hnz := parseIPv6_no_zone h
  have htw := takeWhile_no_percent hnz
  unfold parseIPv6 at h
  simp only at h
  rw [htw] at h
  generalize List.drop 1 (List.dropWhile (fun c => decide (c ≠ '%')) input) = z at h
  have hz : ¬ (input.contains '%' = true ∧ z = []) := by
    rw [hnz]
    exact fun e => Bool.noConfusion e.1
  rw [if_neg hz] at h
  have hf0 : fieldBytes false (colonFields []) = some [] := rfl
  by_cases hlead : List.take 2 input = [':', ':']
  · simp only [hlead, if_true, true_and] at h
    have hin := take_two_eq hlead
    by_cases hs : List.drop 2 input = []
    · rw [if_pos hs] at h
      simp only [Option.some.injEq, Prod.mk.injEq] at h
      rw [hin, hs, ← h.1]
      rfl
    rw [if_neg hs] at h
    cases hloop : parseIPv6Loop 8 (List.drop 2 input) 0 (List.replicate 16 0) with
    | none =>
      rw [hloop] at h
      cases h
    | some r =>
      obtain ⟨s1, i1, e1, ip1⟩ := r
      rw [hloop] at h
      simp only at h
      by_cases hs1 : s1 ≠ []
      · rw [if_pos hs1] at h
        cases h
      rw [if_neg hs1] at h
      have hs1' : s1 = [] := by
        by_cases e0 : s1 = []
        · exact e0
        · exact absurd e0 hs1
      subst hs1'
      rcases parseIPv6Loop_sound 8 (List.drop 2 input) 0 [] i1 e1 ip1 hs rfl hloop with
        ⟨h1, _, bs, h3, h4, h5, h6⟩ | ⟨h1, _⟩
      · simp only [List.length_nil, Nat.zero_add, List.nil_append] at h4 h6
        subst h1
        by_cases hi : i1 < 16
        · rw [if_pos hi] at h
          have hn : ¬ ((0 : Int) < 0) := by omega
          rw [if_neg hn] at h
          simp only [Option.some.injEq, Prod.mk.injEq] at h
          have hx := expandEllipsis_eq [] bs (by
            simp only [List.length_nil, Nat.zero_add]
            omega)
          simp only [List.length_nil, Nat.zero_add, List.nil_append] at hx
          rw [← h.1, h6, h4, Int.toNat_zero, hx]
          unfold ipv6Bytes
          rw [hin, splitDoubleColon_lead]
          simp only
          rw [hf0, h3]
          simp only [List.length_nil, Nat.zero_add, List.nil_append]
          rw [if_pos (by omega)]
        · rw [if_neg hi] at h
          have hn : (0 : Int) ≥ 0 := by omega
          rw [if_pos hn] at h
          cases h
      · omega
  · simp only [hlead, if_false, false_and] at h
    by_cases hs : input = []
    · subst hs
      have hl0 : parseIPv6Loop 8 [] (-1) (List.replicate 16 0) = none := rfl
      rw [hl0] at h
      cases h
    cases hloop : parseIPv6Loop 8 input (-1) (List.replicate 16 0) with
    | none =>
      rw [hloop] at h
      cases h
    | some r =>
      obtain ⟨s1, i1, e1, ip1⟩ := r
      rw [hloop] at h
      simp only at h
      by_cases hs1 : s1 ≠ []
      · rw [if_pos hs1] at h
        cases h
      rw [if_neg hs1] at h
      have hs1' : s1 = [] := by
        by_cases e0 : s1 = []
        · exact e0
        · exact absurd e0 hs1
      subst hs1'
      rcases parseIPv6Loop_sound 8 input (-1) [] i1 e1 ip1 hs rfl hloop with
        ⟨h1, h2, bs, h3, h4, h5, h6⟩ | ⟨_, l, r, bl, br, h2, h3, h4, h5, h6, h7, h8⟩
      · simp only [List.length_nil, Nat.zero_add, List.nil_append] at h4 h6
        subst h1
        by_cases hi : i1 < 16
        · rw [if_pos hi] at h
          have hn : (-1 : Int) < 0 := by omega
          rw [if_pos hn] at h
          cases h
        · rw [if_neg hi] at h
          have hn : ¬ ((-1 : Int) ≥ 0) := by omega
          rw [if_neg hn] at h
          simp only [Option.some.injEq, Prod.mk.injEq] at h
          have hi16 : i1 = 16 := by omega
          rw [hi16] at h6 h4
          simp only [Nat.sub_self, List.replicate_zero, List.append_nil] at h6
          unfold ipv6Bytes
          rw [h2]
          simp only
          rw [h3]
          simp only
          rw [if_pos h4.symm, ← h.1, h6]
      · simp only [List.length_nil, Nat.zero_add, List.nil_append] at h5 h6 h8
        by_cases hi : i1 < 16
        · rw [if_pos hi] at h
          have hn : ¬ (e1 < 0) := by
            rw [h5]
            have : (0 : Int) ≤ ((bl.length : Nat) : Int) := Int.ofNat_nonneg _
            omega
          rw [if_neg hn] at h
          simp only [Option.some.injEq, Prod.mk.injEq] at h
          have hx := expandEllipsis_eq bl br (by omega)
          rw [← h.1, h8, h6, h5, Int.toNat_ofNat, hx]
          unfold ipv6Bytes
          rw [h2]
          simp only
          rw [h3, h4]
          simp only
          rw [if_pos (by omega)]
        · rw [if_neg hi] at h
          have hn : e1 ≥ 0 := by
            rw [h5]
            exact Int.ofNat_nonneg _
          rw [if_pos hn] at h
          cases h

/-- A line that `ipToUint32` accepts is, once trimmed, a dotted-decimal address or an IPv6
literal, in the text form of RFC 4291, of IPv4-mapped value. -/
theorem ipToUint32_ok_cases {ipStr : String} {k : Nat} (h : ipToUint32 ipStr = Except.ok k) :
    isDottedDecimal (TrimSpace ipStr.data) = true ∨ isMappedIPv6 (TrimSpace ipStr.data) = true := by
  unfold ipToUint32 at h
  simp only at h
  split_ifs at h with h1
  have hp : ParseIP (TrimSpace ipStr.data) ≠ [] := by
    intro e
    rw [e] at h1
    exact h1 (by decide)
  unfold ParseIP ParseAddr at hp h1
  cases e : parseAddrScan (TrimSpace ipStr.data) (TrimSpace ipStr.data) with
  | none =>
    rw [e] at hp
    exact absurd rfl hp
  | some addr =>
    rw [e] at hp h1
    simp only at hp h1
    rcases parseAddrScan_cases _ e with ⟨f, hf, _⟩ | ⟨ip, zone, hf, ha⟩
    · exact Or.inl (parseIPv4_sound hf)
    · right
      subst ha
      by_cases hz : (Addr.v6 ip zone).Zone ≠ []
      · rw [if_pos hz] at hp
        exact absurd rfl hp
      rw [if_neg hz] at h1
      have hz' : zone = [] := by
        by_cases e0 : zone = []
        · exact e0
        · exact absurd e0 hz
      subst hz'
      have hb := parseIPv6_sound hf
      have hm := To4_mapped (ipv6Bytes_length hb) h1
      unfold isMappedIPv6
      rw [hb]
      exact hm

/-! ## IPv6 literals: the text form against the parser -/

theorem octetFold_ge (t : List Char) :
    ∀ v : Nat, v ≤ t.foldl (fun v c => 10 * v + (c.toNat - 48)) v := by
  induction t with
  | nil => intro v; exact Nat.le_refl _
  | cons c cs ih =>
    intro v
    simp only [List.foldl_cons]
    exact Nat.le_trans (by omega) (ih _)

theorem octetFold_pow (t : List Char) :
    ∀ v : Nat, v * 10 ^ t.length ≤ t.foldl (fun v c => 10 * v + (c.toNat - 48)) v := by
  induction t with
  | nil => intro v; simp
  | cons c cs ih =>
    intro v
    simp only [List.foldl_cons, List.length_cons]
    refine Nat.le_trans ?_ (ih _)
    rw [Nat.pow_succ]
    have : v * (10 ^ cs.length * 10) = (10 * v) * 10 ^ cs.length := by ring
    rw [this]
    exact Nat.mul_le_mul_right _ (by omega)

theorem digit_ne_zero {c : Char} (hd : c.isDigit = true) (h0 : c ≠ '0') : 1 ≤ c.toNat - 48 := by
  have h1 := (digit_iff c).mpr hd
  rw [Char.le_def, Char.le_def] at h1
  have h2 : (48 : Nat) ≤ c.toNat := h1.1
  have h3 : c.toNat ≠ 48 := by
    intro e
    apply h0
    apply Char.ext
    apply UInt32.ext
    exact e
  omega

/-- A canonical decimal octet has at most three digits. -/
theorem canonicalOctet_length {t : List Char} (h : isCanonicalOctet t = true) :
    1 ≤ t.length ∧ t.length ≤ 3 := by
  unfold isCanonicalOctet isOctet at h
  simp only [Bool.and_eq_true, Bool.or_eq_true, beq_iff_eq, decide_eq_true_eq, bne_iff_ne,
    ne_eq, Bool.not_eq_true', List.isEmpty_eq_false] at h
  obtain ⟨⟨⟨hne, hdig⟩, hval⟩, hcan⟩ := h
  cases t with
  | nil => simp at hne
  | cons c cs =>
    refine ⟨by simp, ?_⟩
    rcases hcan with h1 | h1
    · simp only [List.length_cons] at h1 ⊢
      omega
    · have hc : c ≠ '0' := by
        intro e
        apply h1
        rw [e]
        rfl
      have hd : c.isDigit = true := by
        simp only [List.all_cons, Bool.and_eq_true] at hdig
        exact hdig.1
      have h2 := digit_ne_zero hd hc
      unfold octetValue at hval
      simp only [List.foldl_cons] at hval
      have h3 := octetFold_pow cs (10 * 0 + (c.toNat - 48))
      by_contra hlen
      simp only [List.length_cons, not_le] at hlen
      have h4 : 10 ^ 3 ≤ 10 ^ cs.length := Nat.pow_le_pow_right (by omega) (by omega)
      have h5 : 1 * 10 ^ cs.length ≤ (10 * 0 + (c.toNat - 48)) * 10 ^ cs.length :=
        Nat.mul_le_mul_right _ (by omega)
      omega

/-- The digit loop of `parseIPv4Fields` on a run of digits without a leading zero and of value
at most 255. -/
theorem scanDigits_canonical (t : List Char) :
    ∀ (prev : Option Char) (val digLen : Nat), t.all Char.isDigit = true →
      t.foldl (fun v c => 10 * v + (c.toNat - 48)) val ≤ 255 →
      (t = [] ∨ val ≠ 0 ∨ (digLen = 0 ∧ (t.length = 1 ∨ t.head? ≠ some '0'))) →
      scanDigits t prev val digLen =
        some (if t = [] then prev else t.getLast?,
          t.foldl (fun v c => 10 * v + (c.toNat - 48)) val, digLen + t.length) := by
  induction t with
  | nil =>
    intro prev val digLen _ _ _
    rfl
  | cons c cs ih =>
    intro prev val digLen hdig hval hcan
    simp only [List.all_cons, Bool.and_eq_true] at hdig
    have hc := (digit_iff c).mpr hdig.1
    simp only [List.foldl_cons] at hval
    have hv1 : val * 10 + (c.toNat - '0'.toNat) = 10 * val + (c.toNat - 48) := by
      have : '0'.toNat = 48 := rfl
      rw [this]
      omega
    have hle := octetFold_ge cs (10 * val + (c.toNat - 48))
    unfold scanDigits
    rw [if_pos hc]
    have h1 : ¬ (digLen = 1 ∧ val = 0) := by
      rintro ⟨e1, e2⟩
      rcases hcan with h | h | h
      · cases h
      · exact h e2
      · omega
    rw [if_neg h1, hv1]
    have h2 : ¬ (10 * val + (c.toNat - 48) > 255) := by omega
    rw [if_neg h2]
    have hcan1 : cs = [] ∨ 10 * val + (c.toNat - 48) ≠ 0 ∨
        (digLen + 1 = 0 ∧ (cs.length = 1 ∨ cs.head? ≠ some '0')) := by
      by_cases hcs : cs = []
      · exact Or.inl hcs
      right
      left
      rcases hcan with h | h | ⟨_, h | h⟩
      · cases h
      · omega
      · exfalso
        apply hcs
        simp only [List.length_cons] at h
        exact List.length_eq_zero.mp (by omega)
      · have hc0 : c ≠ '0' := by
          intro e
          apply h
          rw [e]
          rfl
        have := digit_ne_zero hdig.1 hc0
        omega
    rw [ih (some c) _ (digLen + 1) hdig.2 hval hcan1]
    cases cs with
    | nil => rfl
    | cons a as =>
      simp [List.getLast?_cons_cons]
      omega

theorem splitDots_inv (s : List Char) :
    ∀ f fs, splitDots s = f :: fs →
      (∀ c ∈ f, c ≠ '.') ∧ ((fs = [] ∧ s = f) ∨ ∃ s1, s = f ++ '.' :: s1 ∧ splitDots s1 = fs) := by
  induction s with
  | nil =>
    intro f fs h
    unfold splitDots at h
    simp only [List.cons.injEq] at h
    obtain ⟨h1, h2⟩ := h
    subst h1 h2
    exact ⟨(fun c hc => by cases hc), Or.inl ⟨rfl, rfl⟩⟩
  | cons a cs ih =>
    intro f fs h
    unfold splitDots at h
    by_cases ha : a = '.'
    · rw [if_pos ha] at h
      simp only [List.cons.injEq] at h
      obtain ⟨h1, h2⟩ := h
      subst h1
      exact ⟨(fun c hc => by cases hc), Or.inr ⟨cs, (by subst ha; rfl), h2⟩⟩
    · rw [if_neg ha] at h
      cases e : splitDots cs with
      | nil =>
        exfalso
        cases cs with
        | nil => simp [splitDots] at e
        | cons b bs =>
          unfold splitDots at e
          split at e
          · cases e
          · split at e <;> cases e
      | cons seg segs =>
        rw [e] at h
        simp only [List.cons.injEq] at h
        obtain ⟨h1, h2⟩ := h
        subst h1 h2
        obtain ⟨i1, i2⟩ := ih seg segs e
        refine ⟨?_, ?_⟩
        · intro c hc
          rcases List.mem_cons.mp hc with rfl | hc
          · exact ha
          · exact i1 c hc
        · rcases i2 with ⟨i3, i4⟩ | ⟨s1, i3, i4⟩
          · left
            exact ⟨i3, (by rw [i4])⟩
          · right
            exact ⟨s1, (by rw [i3]; rfl), i4⟩

theorem getLast_digit {t : List Char} (hne : t ≠ []) (hd : t.all Char.isDigit = true) :
    t.getLast? ≠ none ∧ t.getLast? ≠ some '.' := by
  constructor
  · intro e
    exact hne (List.getLast?_eq_none_iff.mp e)
  · intro e
    have hm : '.' ∈ t := List.mem_of_getLast?_eq_some e
    have := List.all_eq_true.mp hd '.' hm
    exact absurd this (by decide)

/-- The loop of `parseIPv4Fields` on a canonical octet followed by a dot. -/
theorem parseIPv4Loop_canonical_dot {t : List Char} (ht : isCanonicalOctet t = true)
    (rest : List Char) (hrest : rest ≠ []) (prev : Option Char) (pos : Nat) (hpos : pos ≠ 3)
    (fields : List Nat) :
    parseIPv4Loop (t ++ '.' :: rest) prev 0 pos 0 fields =
      parseIPv4Loop rest (some '.') 0 (pos + 1) 0 (fields.set pos (octetValue t)) := by
  have hlen := canonicalOctet_length ht
  have hne : t ≠ [] := by
    rintro rfl
    simp at hlen
  unfold isCanonicalOctet at ht
  simp only [Bool.and_eq_true, Bool.or_eq_true, beq_iff_eq, bne_iff_ne, ne_eq] at ht
  obtain ⟨hoct, hcan⟩ := ht
  have hdig := isOctet_all hoct
  have hval : t.foldl (fun v c => 10 * v + (c.toNat - 48)) 0 ≤ 255 := by
    unfold isOctet octetValue at hoct
    simp only [Bool.and_eq_true, decide_eq_true_eq] at hoct
    exact hoct.2
  have h1 := scanDigits_canonical t prev 0 0 hdig hval (Or.inr (Or.inr ⟨rfl, hcan⟩))
  rw [if_neg hne] at h1
  rw [parseIPv4Loop_scanDigits h1]
  conv_lhs => rw [parseIPv4Loop]
  have hnd : ¬ ('0' ≤ '.' ∧ '.' ≤ '9') := by decide
  obtain ⟨h2, h3⟩ := getLast_digit hne hdig
  rw [if_neg hnd, if_pos rfl, if_neg (by simp [h2, h3, hrest]), if_neg hpos,
    Nat.mod_eq_of_lt (by omega)]
  rfl

/-- The loop of `parseIPv4Fields` on a final canonical octet. -/
theorem parseIPv4Loop_canonical_end {t : List Char} (ht : isCanonicalOctet t = true)
    (prev : Option Char) (fields : List Nat) :
    parseIPv4Loop t prev 0 3 0 fields = some (fields.set 3 (octetValue t)) := by
  have hlen := canonicalOctet_length ht
  have hne : t ≠ [] := by
    rintro rfl
    simp at hlen
  unfold isCanonicalOctet at ht
  simp only [Bool.and_eq_true, Bool.or_eq_true, beq_iff_eq, bne_iff_ne, ne_eq] at ht
  obtain ⟨hoct, hcan⟩ := ht
  have hdig := isOctet_all hoct
  have hval : t.foldl (fun v c => 10 * v + (c.toNat - 48)) 0 ≤ 255 := by
    unfold isOctet octetValue at hoct
    simp only [Bool.and_eq_true, decide_eq_true_eq] at hoct
    exact hoct.2
  have h1 := scanDigits_canonical t prev 0 0 hdig hval (Or.inr (Or.inr ⟨rfl, hcan⟩))
  rw [if_neg hne] at h1
  have := parseIPv4Loop_scanDigits h1 [] 3 fields
  rw [List.append_nil] at this
  rw [this]
  unfold parseIPv4Loop
  rw [if_neg (by decide), Nat.mod_eq_of_lt (by omega)]
  rfl

/-- A canonical dotted-decimal address is its four octets joined by dots. -/
theorem canonicalDotted_inv {s : List Char} (h : isCanonicalDotted s = true) :
    ∃ a b c d, splitDots s = [a, b, c, d] ∧ s = a ++ '.' :: (b ++ '.' :: (c ++ '.' :: d)) ∧
      isCanonicalOctet a = true ∧ isCanonicalOctet b = true ∧ isCanonicalOctet c = true ∧
      isCanonicalOctet d = true := by
  unfold isCanonicalDotted at h
  simp only [Bool.and_eq_true] at h
  obtain ⟨hd, hall⟩ := h
  unfold isDottedDecimal at hd
  split at hd
  · rename_i a b c d e
    rw [e] at hall
    simp only [List.all_cons, List.all_nil, Bool.and_true, Bool.and_eq_true] at hall
    refine ⟨a, b, c, d, e, ?_, hall.1, hall.2.1, hall.2.2.1, hall.2.2.2⟩
    obtain ⟨_, h1⟩ := splitDots_inv s _ _ e
    rcases h1 with ⟨h1, _⟩ | ⟨s1, h1, h2⟩
    · cases h1
    obtain ⟨_, h3⟩ := splitDots_inv s1 _ _ h2
    rcases h3 with ⟨h3, _⟩ | ⟨s2, h3, h4⟩
    · cases h3
    obtain ⟨_, h5⟩ := splitDots_inv s2 _ _ h4
    rcases h5 with ⟨h5, _⟩ | ⟨s3, h5, h6⟩
    · cases h5
    obtain ⟨_, h7⟩ := splitDots_inv s3 _ _ h6
    rcases h7 with ⟨_, h7⟩ | ⟨s4, _, h8⟩
    · rw [h1, h3, h5, h7]
    · exfalso
      cases s4 with
      | nil => simp [splitDots] at h8
      | cons x xs =>
        unfold splitDots at h8
        split at h8
        · cases h8
        · split at h8 <;> cases h8
  · cases hd

/-- Completeness of `parseIPv4Fields` for the canonical dotted-decimal form. -/
theorem parseIPv4Fields_complete {s : List Char} (h : isCanonicalDotted s = true) :
    parseIPv4Fields s [0, 0, 0, 0] = some ((splitDots s).map octetValue) := by
  obtain ⟨a, b, c, d, e, hs, ha, hb, hc, hd⟩ := canonicalDotted_inv h
  have nb : b ≠ [] := by
    rintro rfl
    exact absurd hb (by decide)
  have nc : c ≠ [] := by
    rintro rfl
    exact absurd hc (by decide)
  have nd : d ≠ [] := by
    rintro rfl
    exact absurd hd (by decide)
  rw [e]
  unfold parseIPv4Fields
  rw [hs, parseIPv4Loop_canonical_dot ha _ (by simp [nb]) none 0 (by decide),
    parseIPv4Loop_canonical_dot hb _ (by simp [nc]) _ 1 (by decide),
    parseIPv4Loop_canonical_dot hc _ nd _ 2 (by decide),
    parseIPv4Loop_canonical_end hd]
  rfl

theorem hexVal_of_hex {c : Char} (h : isHexDigit c = true) :
    hexVal c = some (hexDigitValue c) ∧ hexDigitValue c ≤ 15 := by
  cases e : hexVal c with
  | none =>
    rw [hexVal_none e] at h
    cases h
  | some d =>
    obtain ⟨_, h2, h3⟩ := hexVal_some e
    rw [← h2]
    exact ⟨rfl, h3⟩

theorem hexVal_of_not_hex {c : Char} (h : isHexDigit c = false) : hexVal c = none := by
  cases e : hexVal c with
  | none => rfl
  | some d =>
    rw [(hexVal_some e).1] at h
    cases h

/-- The hexadecimal loop of `parseIPv6` on a run of at most four hexadecimal digits. -/
theorem parseHexLoop_complete (g : List Char) :
    ∀ (off acc : Nat) (rest : List Char), g.all isHexDigit = true → off + g.length ≤ 4 →
      acc < 16 ^ off → (∀ c r, rest = c :: r → isHexDigit c = false) →
      parseHexLoop (g ++ rest) off acc =
        some (off + g.length, g.foldl (fun v c => 16 * v + hexDigitValue c) acc, rest) := by
  induction g with
  | nil =>
    intro off acc rest _ _ _ hrest
    rw [List.nil_append]
    cases rest with
    | nil => rfl
    | cons c r =>
      unfold parseHexLoop
      rw [hexVal_of_not_hex (hrest c r rfl)]
      rfl
  | cons c cs ih =>
    intro off acc rest hg hlen hacc hrest
    simp only [List.all_cons, Bool.and_eq_true] at hg
    obtain ⟨hv, hd⟩ := hexVal_of_hex hg.1
    simp only [List.length_cons] at hlen
    have hoff : off ≤ 3 := by omega
    have hp : 16 ^ (off + 1) ≤ 16 ^ 4 := Nat.pow_le_pow_right (by omega) (by omega)
    have hp1 : 16 ^ (off + 1) = 16 * 16 ^ off := by
      rw [Nat.pow_succ, Nat.mul_comm]
    have h164 : 16 ^ 4 = 65536 := by norm_num
    have hsh : acc <<< 4 = 16 * acc := by
      rw [Nat.shiftLeft_eq]
      omega
    have hacc1 : 16 * acc + hexDigitValue c < 16 ^ (off + 1) := by
      rw [hp1]
      generalize 16 ^ off = X at hacc
      omega
    have hm : ((acc <<< 4) % 2 ^ 32 + hexDigitValue c) % 2 ^ 32 = 16 * acc + hexDigitValue c := by
      rw [hsh]
      have : 16 * acc < 2 ^ 32 := by omega
      rw [Nat.mod_eq_of_lt this]
      exact Nat.mod_eq_of_lt (by omega)
    rw [List.cons_append]
    unfold parseHexLoop
    rw [hv]
    simp only [hm]
    rw [if_neg (by omega), if_neg (by omega),
      ih (off + 1) _ rest hg.2 (by omega) hacc1 hrest]
    simp only [List.foldl_cons, List.length_cons]
    congr 2
    omega

theorem hexGroupValue_inv {g : List Char} {v : Nat} (h : hexGroupValue g = some v) :
    1 ≤ g.length ∧ g.length ≤ 4 ∧ g.all isHexDigit = true ∧
      v = g.foldl (fun v c => 16 * v + hexDigitValue c) 0 := by
  unfold hexGroupValue at h
  by_cases hc : 1 ≤ g.length ∧ g.length ≤ 4 ∧ g.all isHexDigit = true
  · rw [if_pos hc] at h
    cases h
    exact ⟨hc.1, hc.2.1, hc.2.2, rfl⟩
  · rw [if_neg hc] at h
    cases h

/-- The hexadecimal loop of `parseIPv6` on a group of the text form. -/
theorem parseHexLoop_of_group {g rest : List Char} {v : Nat} (hv : hexGroupValue g = some v)
    (hrest : ∀ c r, rest = c :: r → isHexDigit c = false) :
    parseHexLoop (g ++ rest) 0 0 = some (g.length, v, rest) ∧ g.length ≠ 0 ∧ v ≤ 0xFFFF := by
  obtain ⟨h1, h2, h3, h4⟩ := hexGroupValue_inv hv
  have h := parseHexLoop_complete g 0 0 rest h3 (by omega) (by norm_num) hrest
  rw [Nat.zero_add, ← h4] at h
  have hne : g.length ≠ 0 := by omega
  obtain ⟨_, _, _, _, _, h5, _⟩ := parseHexLoop_group h hne
  exact ⟨h, hne, h5⟩

/-- A turn of the main loop of `parseIPv6` on a last hexadecimal group. -/
theorem parseIPv6Loop_step_end {n : Nat} {g : List Char} {v : Nat} {P : List Nat} (e : Int)
    (hP : P.length + 2 * (n + 1) = 16) (hv : hexGroupValue g = some v) :
    parseIPv6Loop (n + 1) g e (P ++ List.replicate (2 * (n + 1)) 0) =
      some ([], P.length + 2, e, (P ++ groupBytes v) ++ List.replicate (2 * n) 0) := by
  have hg : g ++ [] = g := List.append_nil g
  have hi : 16 - 2 * (n + 1) = P.length := by omega
  have hz : List.replicate (2 * (n + 1)) 0 = 0 :: 0 :: List.replicate (2 * n) 0 := rfl
  have hip : P ++ (v / 256) :: (v % 256) :: List.replicate (2 * n) 0 =
      (P ++ groupBytes v) ++ List.replicate (2 * n) 0 := by
    unfold groupBytes
    simp
  obtain ⟨hh, hoff, hacc⟩ := @parseHexLoop_of_group g [] v hv (fun c r h => by cases h)
  conv_lhs => unfold parseIPv6Loop
  simp only [hi]
  rw [hg] at hh
  rw [hh]
  simp only
  rw [if_neg hoff, if_neg (by simp), hz, set_two, shiftByte_eq hacc, hip]

/-- A turn of the main loop of `parseIPv6` on a hexadecimal group followed by a colon and a
further field. -/
theorem parseIPv6Loop_step_colon {n : Nat} {g : List Char} {v : Nat} {P : List Nat} (e : Int)
    (hP : P.length + 2 * (n + 1) = 16) (hv : hexGroupValue g = some v) {c1 : Char}
    (hc1 : c1 ≠ ':') (s2 : List Char) :
    parseIPv6Loop (n + 1) (g ++ ':' :: c1 :: s2) e (P ++ List.replicate (2 * (n + 1)) 0) =
      parseIPv6Loop n (c1 :: s2) e ((P ++ groupBytes v) ++ List.replicate (2 * n) 0) := by
  have hr : ∀ c r, ':' :: c1 :: s2 = c :: r → isHexDigit c = false := by
    intro c r h
    cases h
    rfl
  have hi : 16 - 2 * (n + 1) = P.length := by omega
  have hz : List.replicate (2 * (n + 1)) 0 = 0 :: 0 :: List.replicate (2 * n) 0 := rfl
  have hip : P ++ (v / 256) :: (v % 256) :: List.replicate (2 * n) 0 =
      (P ++ groupBytes v) ++ List.replicate (2 * n) 0 := by
    unfold groupBytes
    simp
  obtain ⟨hh, hoff, hacc⟩ := parseHexLoop_of_group hv hr
  conv_lhs => unfold parseIPv6Loop
  simp only [hi]
  rw [hh]
  simp only
  rw [if_neg hoff, if_neg (by simp), hz, set_two, shiftByte_eq hacc, hip]
  simp only [ne_eq, not_true_eq_false, if_false]
  rw [if_neg hc1]

/-- A turn of the main loop of `parseIPv6` on a hexadecimal group followed by `::`. -/
theorem parseIPv6Loop_step_gap {n : Nat} {g : List Char} {v : Nat} {P : List Nat} {e : Int}
    (he : e < 0) (hP : P.length + 2 * (n + 1) = 16) (hv : hexGroupValue g = some v)
    (r : List Char) :
    parseIPv6Loop (n + 1) (g ++ ':' :: ':' :: r) e (P ++ List.replicate (2 * (n + 1)) 0) =
      if r = [] then
        some ([], P.length + 2, ((P.length + 2 : Nat) : Int),
          (P ++ groupBytes v) ++ List.replicate (2 * n) 0)
      else parseIPv6Loop n r ((P.length + 2 : Nat) : Int)
        ((P ++ groupBytes v) ++ List.replicate (2 * n) 0) := by
  have hr : ∀ c r1, ':' :: ':' :: r = c :: r1 → isHexDigit c = false := by
    intro c r1 h
    cases h
    rfl
  have hi : 16 - 2 * (n + 1) = P.length := by omega
  have hz : List.replicate (2 * (n + 1)) 0 = 0 :: 0 :: List.replicate (2 * n) 0 := rfl
  have hip : P ++ (v / 256) :: (v % 256) :: List.replicate (2 * n) 0 =
      (P ++ groupBytes v) ++ List.replicate (2 * n) 0 := by
    unfold groupBytes
    simp
  obtain ⟨hh, hoff, hacc⟩ := parseHexLoop_of_group hv hr
  conv_lhs => unfold parseIPv6Loop
  simp only [hi]
  rw [hh]
  simp only
  rw [if_neg hoff, if_neg (by simp), hz, set_two, shiftByte_eq hacc, hip]
  simp only [ne_eq, not_true_eq_false, if_false, if_true]
  rw [if_neg (by omega)]
  cases r with
  | nil => rfl
  | cons c2 r2 => rfl

/-- The hexadecimal loop of `parseIPv6` stops at the first dot of a canonical dotted-decimal
address. -/
theorem parseHexLoop_canonical {f : List Char} (h : isCanonicalDotted f = true) :
    ∃ off acc rest, parseHexLoop f 0 0 = some (off, acc, rest) ∧ off ≠ 0 ∧
      rest.head? = some '.' := by
  obtain ⟨a, b, c, d, _, hs, ha, _⟩ := canonicalDotted_inv h
  have hlen := canonicalOctet_length ha
  have hdig : a.all Char.isDigit = true := by
    unfold isCanonicalOctet at ha
    simp only [Bool.and_eq_true] at ha
    exact isOctet_all ha.1
  have hhex : a.all isHexDigit = true := by
    rw [List.all_eq_true] at hdig ⊢
    intro x hx
    unfold isHexDigit
    rw [hdig x hx]
    rfl
  have hr : ∀ x r, '.' :: (b ++ '.' :: (c ++ '.' :: d)) = x :: r → isHexDigit x = false := by
    intro x r e
    cases e
    rfl
  have hp := parseHexLoop_complete a 0 0 _ hhex (by omega) (by norm_num) hr
  rw [← hs] at hp
  exact ⟨_, _, _, hp, by omega, rfl⟩

/-- A turn of the main loop of `parseIPv6` on an embedded IPv4 address. -/
theorem parseIPv6Loop_step_tail {n : Nat} {f : List Char} {P : List Nat} {e : Int}
    (hP : P.length + 2 * (n + 2) = 16) (hf : isCanonicalDotted f = true)
    (hplace : e ≥ 0 ∨ P.length = 12) :
    parseIPv6Loop (n + 2) f e (P ++ List.replicate (2 * (n + 2)) 0) =
      some ([], P.length + 4, e,
        (P ++ (splitDots f).map octetValue) ++ List.replicate (2 * n) 0) := by
  have hi : 16 - 2 * (n + 1 + 1) = P.length := by omega
  have hz : List.replicate (2 * (n + 2)) 0 = 0 :: 0 :: 0 :: 0 :: List.replicate (2 * n) 0 := rfl
  obtain ⟨off, acc, rest, hh, hoff, hdot⟩ := parseHexLoop_canonical hf
  obtain ⟨a, b, c, d, hsp, _⟩ := canonicalDotted_inv hf
  conv_lhs => unfold parseIPv6Loop
  simp only [hi]
  rw [hh]
  simp only
  rw [if_neg hoff, if_pos hdot, if_neg (by omega), if_neg (by omega),
    parseIPv4Fields_complete hf, hsp]
  simp only [List.map_cons, List.map_nil, List.getD_cons_zero, List.getD_cons_succ]
  rw [hz, set_four]
  simp

theorem splitColons_inv (s : List Char) :
    ∀ f fs, splitColons s = f :: fs →
      (∀ c ∈ f, c ≠ ':') ∧
        ((fs = [] ∧ s = f) ∨ ∃ s1, s = f ++ ':' :: s1 ∧ splitColons s1 = fs) := by
  induction s with
  | nil =>
    intro f fs h
    unfold splitColons at h
    simp only [List.cons.injEq] at h
    obtain ⟨h1, h2⟩ := h
    subst h1 h2
    exact ⟨(fun c hc => by cases hc), Or.inl ⟨rfl, rfl⟩⟩
  | cons a cs ih =>
    intro f fs h
    unfold splitColons at h
    by_cases ha : a = ':'
    · rw [if_pos ha] at h
      simp only [List.cons.injEq] at h
      obtain ⟨h1, h2⟩ := h
      subst h1
      exact ⟨(fun c hc => by cases hc), Or.inr ⟨cs, (by subst ha; rfl), h2⟩⟩
    · rw [if_neg ha] at h
      cases e : splitColons cs with
      | nil => exact absurd e (splitColons_ne_nil cs)
      | cons seg segs =>
        rw [e] at h
        simp only [List.cons.injEq] at h
        obtain ⟨h1, h2⟩ := h
        subst h1 h2
        obtain ⟨i1, i2⟩ := ih seg segs e
        refine ⟨?_, ?_⟩
        · intro c hc
          rcases List.mem_cons.mp hc with rfl | hc
          · exact ha
          · exact i1 c hc
        · rcases i2 with ⟨i3, i4⟩ | ⟨s1, i3, i4⟩
          · left
            exact ⟨i3, (by rw [i4])⟩
          · right
            exact ⟨s1, (by rw [i3]; rfl), i4⟩

theorem fieldBytes_cons_inv {allowTail : Bool} {f : List Char} {fs : List (List Char)}
    {bs : List Nat} (h : fieldBytes allowTail (f :: fs) = some bs) :
    (fs = [] ∧ allowTail = true ∧ isCanonicalDotted f = true ∧
        bs = (splitDots f).map octetValue) ∨
      ∃ v bs1, hexGroupValue f = some v ∧ fieldBytes allowTail fs = some bs1 ∧
        bs = groupBytes v ++ bs1 := by
  unfold fieldBytes at h
  by_cases hc : fs = [] ∧ allowTail = true ∧ isCanonicalDotted f = true
  · rw [if_pos hc] at h
    cases h
    exact Or.inl ⟨hc.1, hc.2.1, hc.2.2, rfl⟩
  · rw [if_neg hc] at h
    right
    cases hv : hexGroupValue f with
    | none =>
      rw [hv] at h
      cases h
    | some v =>
      cases hb : fieldBytes allowTail fs with
      | none =>
        rw [hv, hb] at h
        cases h
      | some bs1 =>
        rw [hv, hb] at h
        cases h
        exact ⟨v, bs1, rfl, rfl, rfl⟩

theorem fieldBytes_nil_head (allowTail : Bool) (fs : List (List Char)) :
    fieldBytes allowTail ([] :: fs) = none := by
  unfold fieldBytes
  have hc : ¬ (fs = [] ∧ allowTail = true ∧ isCanonicalDotted [] = true) :=
    fun h => absurd h.2.2 (by decide)
  rw [if_neg hc]
  rfl

/-- What follows a colon in a sequence of fields of the text form: a character that is not a
colon. -/
theorem fieldBytes_after_colon {allowTail : Bool} {s1 : List Char} {bs : List Nat}
    (h : fieldBytes allowTail (splitColons s1) = some bs) :
    ∃ c1 s2, s1 = c1 :: s2 ∧ c1 ≠ ':' := by
  cases s1 with
  | nil =>
    unfold splitColons at h
    rw [fieldBytes_nil_head] at h
    cases h
  | cons c1 s2 =>
    refine ⟨c1, s2, rfl, ?_⟩
    rintro rfl
    unfold splitColons at h
    rw [if_pos rfl, fieldBytes_nil_head] at h
    cases h

theorem fieldBytes_length_pos {allowTail : Bool} {f : List Char} {fs : List (List Char)}
    {bs : List Nat} (h : fieldBytes allowTail (f :: fs) = some bs) : 2 ≤ bs.length := by
  rcases fieldBytes_cons_inv h with ⟨_, _, hc, hb⟩ | ⟨v, bs1, _, _, hb⟩
  · rw [hb, List.length_map, isDottedDecimal_length]
    · omega
    · unfold isCanonicalDotted at hc
      simp only [Bool.and_eq_true] at hc
      exact hc.1
  · rw [hb, List.length_append]
    unfold groupBytes
    simp

/-- Completeness of the main loop of `parseIPv6` for a sequence of fields without `::`. -/
theorem parseIPv6Loop_complete (n : Nat) :
    ∀ (s : List Char) (e : Int) (P bs : List Nat), s ≠ [] → P.length + 2 * n = 16 →
      fieldBytes true (splitColons s) = some bs → P.length + bs.length ≤ 16 →
      (e ≥ 0 ∨ P.length + bs.length = 16) →
      parseIPv6Loop n s e (P ++ List.replicate (2 * n) 0) =
        some ([], P.length + bs.length, e,
          P ++ bs ++ List.replicate (16 - (P.length + bs.length)) 0) := by
  induction n with
  | zero =>
    intro s e P bs hs hP hf hle _
    exfalso
    cases hsp : splitColons s with
    | nil => exact splitColons_ne_nil s hsp
    | cons f fs =>
      rw [hsp] at hf
      have := fieldBytes_length_pos hf
      omega
  | succ n ih =>
    intro s e P bs hs hP hf hle hplace
    cases hsp : splitColons s with
    | nil => exact absurd hsp (splitColons_ne_nil s)
    | cons f fs =>
      rw [hsp] at hf
      obtain ⟨_, hinv⟩ := splitColons_inv s f fs hsp
      rcases fieldBytes_cons_inv hf with ⟨hfs, _, hc, hb⟩ | ⟨v, bs1, hv, hb1, hb⟩
      · -- the embedded IPv4 address
        have hs' : s = f := by
          rcases hinv with ⟨_, h2⟩ | ⟨s1, _, h2⟩
          · exact h2
          · rw [hfs] at h2
            exact absurd h2 (splitColons_ne_nil s1)
        have hcd : isDottedDecimal f = true := by
          unfold isCanonicalDotted at hc
          simp only [Bool.and_eq_true] at hc
          exact hc.1
        have hbl : bs.length = 4 := by
          rw [hb, List.length_map, isDottedDecimal_length hcd]
        obtain ⟨m, rfl⟩ : ∃ m, n = m + 1 := ⟨n - 1, by omega⟩
        rw [hs', parseIPv6Loop_step_tail hP hc (by omega), hbl, ← hb]
        have : 16 - (P.length + 4) = 2 * m := by omega
        rw [this]
      · -- a hexadecimal group
        have hgl : (groupBytes v).length = 2 := rfl
        have hbl : bs.length = 2 + bs1.length := by
          rw [hb, List.length_append, hgl]
        have hP1 : (P ++ groupBytes v).length + 2 * n = 16 := by
          rw [List.length_append, hgl]
          omega
        rcases hinv with ⟨hfs, h2⟩ | ⟨s1, h2, h3⟩
        · rw [hfs] at hb1
          have hb0 : bs1 = [] := by
            unfold fieldBytes at hb1
            cases hb1
            rfl
          subst hb0
          rw [h2, parseIPv6Loop_step_end e hP hv, hbl, hb]
          have : 16 - (P.length + (2 + ([] : List Nat).length)) = 2 * n := by
            simp only [List.length_nil]
            omega
          rw [this]
          simp
        · rw [← h3] at hb1
          obtain ⟨c1, s2, hs1, hc1⟩ := fieldBytes_after_colon hb1
          subst hs1
          rw [h2, parseIPv6Loop_step_colon e hP hv hc1,
            ih (c1 :: s2) e (P ++ groupBytes v) bs1 (by simp) hP1 hb1
              (by rw [List.length_append, hgl]; omega)
              (by rw [List.length_append, hgl]; omega)]
          rw [List.length_append, hgl, hbl, hb]
          have e1 : P.length + 2 + bs1.length = P.length + (2 + bs1.length) := by omega
          rw [e1]
          simp

/-- Completeness of the main loop of `parseIPv6` for fields, `::` and further fields. -/
theorem parseIPv6Loop_complete_gap (n : Nat) :
    ∀ (l r : List Char) (e : Int) (P bl br : List Nat), l ≠ [] → e < 0 →
      P.length + 2 * n = 16 → fieldBytes false (splitColons l) = some bl →
      fieldBytes true (colonFields r) = some br → P.length + bl.length + br.length < 16 →
      parseIPv6Loop n (l ++ ':' :: ':' :: r) e (P ++ List.replicate (2 * n) 0) =
        some ([], P.length + bl.length + br.length, ((P.length + bl.length : Nat) : Int),
          P ++ bl ++ br ++ List.replicate (16 - (P.length + bl.length + br.length)) 0) := by
  induction n with
  | zero =>
    intro l r e P bl br _ _ hP _ _ hlt
    omega
  | succ n ih =>
    intro l r e P bl br hl he hP hfl hfr hlt
    cases hsp : splitColons l with
    | nil => exact absurd hsp (splitColons_ne_nil l)
    | cons f fs =>
      rw [hsp] at hfl
      obtain ⟨_, hinv⟩ := splitColons_inv l f fs hsp
      rcases fieldBytes_cons_inv hfl with ⟨_, hf, _, _⟩ | ⟨v, bl1, hv, hb1, hb⟩
      · cases hf
      have hgl : (groupBytes v).length = 2 := rfl
      have hbl : bl.length = 2 + bl1.length := by
        rw [hb, List.length_append, hgl]
      have hP1 : (P ++ groupBytes v).length + 2 * n = 16 := by
        rw [List.length_append, hgl]
        omega
      rcases hinv with ⟨hfs, h2⟩ | ⟨l1, h2, h3⟩
      · rw [hfs] at hb1
        have hb0 : bl1 = [] := by
          unfold fieldBytes at hb1
          cases hb1
          rfl
        subst hb0
        simp only [List.length_nil, Nat.add_zero] at hbl
        rw [h2, parseIPv6Loop_step_gap he hP hv]
        by_cases hr : r = []
        · rw [if_pos hr]
          subst hr
          have hbr : br = [] := by
            have : fieldBytes true (colonFields []) = some [] := rfl
            rw [this] at hfr
            cases hfr
            rfl
          subst hbr
          rw [hbl, hb]
          have : 16 - (P.length + 2 + ([] : List Nat).length) = 2 * n := by
            simp only [List.length_nil]
            omega
          rw [this]
          simp
        · rw [if_neg hr]
          rw [colonFields_of_ne_nil hr] at hfr
          rw [parseIPv6Loop_complete n r _ (P ++ groupBytes v) br hr hP1 hfr
            (by rw [List.length_append, hgl]; omega)
            (Or.inl (Int.ofNat_nonneg _))]
          rw [List.length_append, hgl, hbl, hb]
          simp
      · rw [← h3] at hb1
        obtain ⟨c1, l2, hl1, hc1⟩ := fieldBytes_after_colon hb1
        subst hl1
        have e0 : l ++ ':' :: ':' :: r = f ++ ':' :: c1 :: (l2 ++ ':' :: ':' :: r) := by
          rw [h2]
          simp
        have e1 : c1 :: (l2 ++ ':' :: ':' :: r) = (c1 :: l2) ++ ':' :: ':' :: r := rfl
        rw [e0, parseIPv6Loop_step_colon e hP hv hc1, e1,
          ih (c1 :: l2) r e (P ++ groupBytes v) bl1 br (by simp) he hP1 hb1 hfr
            (by rw [List.length_append, hgl]; omega)]
        rw [List.length_append, hgl, hbl, hb]
        have e2 : P.length + 2 + bl1.length = P.length + (2 + bl1.length) := by omega
        rw [e2]
        simp

theorem splitDoubleColon_inv (s : List Char) :
    ∀ l r, splitDoubleColon s = some (l, r) → s = l ++ ':' :: ':' :: r := by
  induction s with
  | nil =>
    intro l r h
    cases h
  | cons c cs ih =>
    intro l r h
    unfold splitDoubleColon at h
    by_cases hc : c = ':' ∧ cs.head? = some ':'
    · rw [if_pos hc] at h
      simp only [Option.some.injEq, Prod.mk.injEq] at h
      obtain ⟨h1, h2⟩ := h
      subst h1 h2
      obtain ⟨hc1, hc2⟩ := hc
      subst hc1
      cases cs with
      | nil => cases hc2
      | cons d ds =>
        simp only [List.head?_cons, Option.some.injEq] at hc2
        subst hc2
        rfl
    · rw [if_neg hc] at h
      cases hs : splitDoubleColon cs with
      | none =>
        rw [hs] at h
        cases h
      | some p =>
        obtain ⟨l1, r1⟩ := p
        rw [hs] at h
        simp only [Option.some.injEq, Prod.mk.injEq] at h
        obtain ⟨h1, h2⟩ := h
        subst h1 h2
        rw [ih l1 r1 hs]
        rfl

theorem splitDoubleColon_not_lead {s l r : List Char} (h : splitDoubleColon s = some (l, r))
    (hl : l ≠ []) : ¬ (List.take 2 s = [':', ':']) := by
  intro ht
  have hs := take_two_eq ht
  rw [hs, splitDoubleColon_lead] at h
  simp only [Option.some.injEq, Prod.mk.injEq] at h
  exact hl h.1.symm

theorem splitDoubleColon_none_not_lead {s : List Char} (h : splitDoubleColon s = none) :
    ¬ (List.take 2 s = [':', ':']) := by
  intro ht
  have hs := take_two_eq ht
  rw [hs, splitDoubleColon_lead] at h
  cases h

theorem hex_ne_percent {g : List Char} (hg : g.all isHexDigit = true) : ∀ c ∈ g, c ≠ '%' := by
  intro c hc
  have h := List.all_eq_true.mp hg c hc
  rintro rfl
  exact absurd h (by decide)

theorem canonical_ne_percent {t : List Char} (h : isCanonicalDotted t = true) :
    ∀ c ∈ t, c ≠ '%' := by
  unfold isCanonicalDotted at h
  simp only [Bool.and_eq_true] at h
  intro c hc
  rcases isDottedDecimal_chars h.1 c hc with h1 | h1
  · rintro rfl
    exact absurd h1 (by decide)
  · rw [h1]
    decide

/-- The characters of a sequence of fields of the text form: no `%`. -/
theorem fieldBytes_chars (allowTail : Bool) (fs : List (List Char)) :
    ∀ (s : List Char) (bs : List Nat), splitColons s = fs → fieldBytes allowTail fs = some bs →
      ∀ c ∈ s, c ≠ '%' := by
  induction fs with
  | nil =>
    intro s _ hsp
    exact absurd hsp (splitColons_ne_nil s)
  | cons f fs1 ih =>
    intro s bs hsp hf c hc
    obtain ⟨_, hinv⟩ := splitColons_inv s f fs1 hsp
    have hfc : ∀ x ∈ f, x ≠ '%' := by
      rcases fieldBytes_cons_inv hf with ⟨_, _, h3, _⟩ | ⟨v, bs1, hv, _, _⟩
      · exact canonical_ne_percent h3
      · exact hex_ne_percent (hexGroupValue_inv hv).2.2.1
    rcases hinv with ⟨_, h2⟩ | ⟨s1, h2, h3⟩
    · rw [h2] at hc
      exact hfc c hc
    · rw [h2] at hc
      rcases List.mem_append.mp hc with h4 | h4
      · exact hfc c h4
      · rcases List.mem_cons.mp h4 with h5 | h5
        · rw [h5]
          decide
        · rcases fieldBytes_cons_inv hf with ⟨h6, _, _, _⟩ | ⟨v, bs1, _, hb1, _⟩
          · rw [h6] at h3
            exact absurd h3 (splitColons_ne_nil s1)
          · exact ih s1 bs1 h3 hb1 c h5

theorem colonFields_chars {allowTail : Bool} {s : List Char} {bs : List Nat}
    (h : fieldBytes allowTail (colonFields s) = some bs) : ∀ c ∈ s, c ≠ '%' := by
  by_cases hs : s = []
  · subst hs
    intro c hc
    cases hc
  · rw [colonFields_of_ne_nil hs] at h
    exact fieldBytes_chars allowTail _ s bs rfl h

/-- An IPv6 literal of the text form has no zone. -/
theorem ipv6Bytes_no_percent {s : List Char} {bs : List Nat} (h : ipv6Bytes s = some bs) :
    s.contains '%' = false := by
  have hall : ∀ c ∈ s, c ≠ '%' := by
    unfold ipv6Bytes at h
    cases hs : splitDoubleColon s with
    | none =>
      rw [hs] at h
      simp only at h
      cases hf : fieldBytes true (colonFields s) with
      | none =>
        rw [hf] at h
        cases h
      | some b => exact colonFields_chars hf
    | some p =>
      obtain ⟨l, r⟩ := p
      rw [hs] at h
      simp only at h
      cases hl : fieldBytes false (colonFields l) with
      | none =>
        rw [hl] at h
        cases h
      | some bl =>
        cases hr : fieldBytes true (colonFields r) with
        | none =>
          rw [hl, hr] at h
          cases h
        | some br =>
          intro c hc
          rw [splitDoubleColon_inv s l r hs] at hc
          rcases List.mem_append.mp hc with h4 | h4
          · exact colonFields_chars hl c h4
          · rcases List.mem_cons.mp h4 with h5 | h5
            · rw [h5]
              decide
            · rcases List.mem_cons.mp h5 with h6 | h6
              · rw [h6]
                decide
              · exact colonFields_chars hr c h6
  cases e : s.contains '%' with
  | false => rfl
  | true =>
    rw [List.contains_iff_exists_mem_beq] at e
    obtain ⟨a, ha, hb⟩ := e
    have := hall a ha
    simp only [beq_iff_eq] at hb
    exact absurd hb.symm this

theorem dropWhile_no_percent {s : List Char} (h : s.contains '%' = false) :
    List.drop 1 (s.dropWhile (fun c => c ≠ '%')) = [] := by
  have h1 := takeWhile_no_percent h
  have h2 := List.takeWhile_append_dropWhile (fun c => decide (c ≠ '%')) s
  have h3 : (s.dropWhile (fun c => decide (c ≠ '%'))).length = 0 := by
    have := congrArg List.length h2
    rw [List.length_append, h1] at this
    omega
  rw [List.length_eq_zero.mp h3]
  rfl

/-- Completeness of `parseIPv6` for the text form. -/
theorem parseIPv6_complete {s : List Char} {bs : List Nat} (h : ipv6Bytes s = some bs) :
    parseIPv6 s = some (bs, []) := by
  have hnz := ipv6Bytes_no_percent h
  have htw := takeWhile_no_percent hnz
  have hdw := dropWhile_no_percent hnz
  unfold parseIPv6
  simp only
  rw [htw, hdw]
  have hz : ¬ (s.contains '%' = true ∧ ([] : List Char) = []) := by
    rw [hnz]
    exact fun e => Bool.noConfusion e.1
  rw [if_neg hz]
  unfold ipv6Bytes at h
  cases hs : splitDoubleColon s with
  | none =>
    rw [hs] at h
    simp only at h
    cases hf : fieldBytes true (colonFields s) with
    | none =>
      rw [hf] at h
      cases h
    | some b =>
      rw [hf] at h
      simp only at h
      by_cases hb : b.length = 16
      · rw [if_pos hb] at h
        cases h
        have hlead := splitDoubleColon_none_not_lead hs
        simp only [hlead, if_false, false_and]
        have hne : s ≠ [] := by
          rintro rfl
          have : fieldBytes true (colonFields []) = some [] := rfl
          rw [this] at hf
          cases hf
          cases hb
        rw [colonFields_of_ne_nil hne] at hf
        have hl := parseIPv6Loop_complete 8 s (-1) [] bs hne rfl hf
          (by simp only [List.length_nil]; omega) (Or.inr (by simp only [List.length_nil]; omega))
        simp only [List.nil_append, List.length_nil, Nat.zero_add, hb, Nat.sub_self,
          List.replicate_zero, List.append_nil] at hl
        have hl' : parseIPv6Loop 8 s (-1) (List.replicate 16 0) = some ([], 16, -1, bs) := hl
        rw [hl']
        simp
      · rw [if_neg hb] at h
        cases h
  | some p =>
    obtain ⟨l, r⟩ := p
    rw [hs] at h
    simp only at h
    cases hl : fieldBytes false (colonFields l) with
    | none =>
      rw [hl] at h
      cases h
    | some bl =>
      cases hr : fieldBytes true (colonFields r) with
      | none =>
        rw [hl, hr] at h
        cases h
      | some br =>
        rw [hl, hr] at h
        simp only at h
        by_cases hb : bl.length + br.length < 16
        · rw [if_pos hb] at h
          cases h
          have hsplit := splitDoubleColon_inv s l r hs
          by_cases hlnil : l = []
          · subst hlnil
            have hbl : bl = [] := by
              have : fieldBytes false (colonFields []) = some [] := rfl
              rw [this] at hl
              cases hl
              rfl
            subst hbl
            rw [List.nil_append] at hsplit
            have hlead : List.take 2 s = [':', ':'] := by
              rw [hsplit]
              rfl
            have hdrop : List.drop 2 s = r := by
              rw [hsplit]
              rfl
            simp only [hlead, if_true, true_and, hdrop]
            by_cases hrnil : r = []
            · subst hrnil
              have hbr : br = [] := by
                have : fieldBytes true (colonFields []) = some [] := rfl
                rw [this] at hr
                cases hr
                rfl
              subst hbr
              rw [if_pos rfl]
              rfl
            · rw [if_neg hrnil]
              rw [colonFields_of_ne_nil hrnil] at hr
              have hlp := parseIPv6Loop_complete 8 r 0 [] br hrnil rfl hr
                (by simp only [List.length_nil] at hb ⊢; omega) (Or.inl (by omega))
              simp only [List.nil_append, List.length_nil, Nat.zero_add] at hlp hb
              have hlp' : parseIPv6Loop 8 r 0 (List.replicate 16 0) =
                  some ([], br.length, 0, br ++ List.replicate (16 - br.length) 0) := hlp
              rw [hlp']
              simp only
              have hx := expandEllipsis_eq [] br (by
                simp only [List.length_nil, Nat.zero_add]
                omega)
              simp only [List.length_nil, Nat.zero_add, List.nil_append] at hx
              simp [hb, hx]
          · have hlead := splitDoubleColon_not_lead hs hlnil
            simp only [hlead, if_false, false_and]
            rw [colonFields_of_ne_nil hlnil] at hl
            have hlp := parseIPv6Loop_complete_gap 8 l r (-1) [] bl br hlnil (by omega) rfl hl hr
              (by simp only [List.length_nil]; omega)
            simp only [List.nil_append, List.length_nil, Nat.zero_add] at hlp
            have hlp' : parseIPv6Loop 8 s (-1) (List.replicate 16 0) =
                some ([], bl.length + br.length, ((bl.length : Nat) : Int),
                  bl ++ br ++ List.replicate (16 - (bl.length + br.length)) 0) := by
              rw [hsplit]
              exact hlp
            rw [hlp']
            simp only
            have hx := expandEllipsis_eq bl br hb
            simp only [List.append_assoc] at hx
            simp [hb, hx]
        · rw [if_neg hb] at h
          cases h

theorem parseAddrScan_colon {ds : List Char} (h : ∀ c ∈ ds, c ≠ '.' ∧ c ≠ ':' ∧ c ≠ '%')
    (s rest : List Char) :
    parseAddrScan s (ds ++ ':' :: rest) = (parseIPv6 s).map (fun r => Addr.v6 r.1 r.2) := by
  induction ds with
  | nil => simp [parseAddrScan]
  | cons c cs ih =>
    have hc := h c (List.mem_cons_self _ _)
    simp only [List.cons_append]
    unfold parseAddrScan
    rw [if_neg hc.1, if_neg hc.2.1, if_neg hc.2.2]
    exact ih (fun x hx => h x (List.mem_cons_of_mem _ hx))

theorem hex_ne_sep {g : List Char} (hg : g.all isHexDigit = true) :
    ∀ c ∈ g, c ≠ '.' ∧ c ≠ ':' ∧ c ≠ '%' :=
  fun c hc => ⟨(hex_ne_colon hg c hc).2, (hex_ne_colon hg c hc).1, hex_ne_percent hg c hc⟩

/-- A sequence of fields of two bytes or of more than four starts with a hexadecimal group
followed by a colon, unless it is a single group. -/
theorem fieldBytes_first_group {allowTail : Bool} {s : List Char} {bs : List Nat} (hs : s ≠ [])
    (h : fieldBytes allowTail (colonFields s) = some bs) (hb : bs.length ≠ 4) :
    ∃ g rest, g.all isHexDigit = true ∧ (s = g ∨ s = g ++ ':' :: rest) := by
  rw [colonFields_of_ne_nil hs] at h
  cases hsp : splitColons s with
  | nil => exact absurd hsp (splitColons_ne_nil s)
  | cons f fs =>
    rw [hsp] at h
    obtain ⟨_, hinv⟩ := splitColons_inv s f fs hsp
    rcases fieldBytes_cons_inv h with ⟨_, _, hc, hbs⟩ | ⟨v, bs1, hv, _, _⟩
    · exfalso
      apply hb
      rw [hbs, List.length_map, isDottedDecimal_length]
      unfold isCanonicalDotted at hc
      simp only [Bool.and_eq_true] at hc
      exact hc.1
    · have hg := (hexGroupValue_inv hv).2.2.1
      rcases hinv with ⟨_, h2⟩ | ⟨s1, h2, _⟩
      · exact ⟨f, [], hg, Or.inl h2⟩
      · exact ⟨f, s1, hg, Or.inr h2⟩

/-- An IPv6 literal of the text form has a colon before any dot. -/
theorem ipv6Bytes_first_colon {s : List Char} {bs : List Nat} (h : ipv6Bytes s = some bs) :
    ∃ ds rest, s = ds ++ ':' :: rest ∧ ∀ c ∈ ds, c ≠ '.' ∧ c ≠ ':' ∧ c ≠ '%' := by
  unfold ipv6Bytes at h
  cases hs : splitDoubleColon s with
  | none =>
    rw [hs] at h
    simp only at h
    cases hf : fieldBytes true (colonFields s) with
    | none =>
      rw [hf] at h
      cases h
    | some b =>
      rw [hf] at h
      simp only at h
      by_cases hb : b.length = 16
      · have hne : s ≠ [] := by
          rintro rfl
          have : fieldBytes true (colonFields []) = some [] := rfl
          rw [this] at hf
          cases hf
          cases hb
        obtain ⟨g, rest, hg, hsg⟩ := fieldBytes_first_group hne hf (by omega)
        rcases hsg with hsg | hsg
        · exfalso
          rw [colonFields_of_ne_nil hne, hsg,
            splitColons_single (fun c hc => (hex_ne_colon hg c hc).1)] at hf
          rcases fieldBytes_cons_inv hf with ⟨_, _, _, hbs⟩ | ⟨v, bs1, _, hb1, hbs⟩
          · rw [hbs, List.length_map] at hb
            have := not_canonical_of_hex hg
            rw [splitDots_single (fun c hc => (hex_ne_colon hg c hc).2)] at hb
            cases hb
          · unfold fieldBytes at hb1
            cases hb1
            rw [hbs] at hb
            cases hb
        · exact ⟨g, rest, hsg, hex_ne_sep hg⟩
      · rw [if_neg hb] at h
        cases h
  | some p =>
    obtain ⟨l, r⟩ := p
    rw [hs] at h
    simp only at h
    have hsplit := splitDoubleColon_inv s l r hs
    cases hl : fieldBytes false (colonFields l) with
    | none =>
      rw [hl] at h
      cases h
    | some bl =>
      by_cases hlnil : l = []
      · subst hlnil
        exact ⟨[], ':' :: r, hsplit, fun c hc => by cases hc⟩
      · rw [colonFields_of_ne_nil hlnil] at hl
        cases hsp : splitColons l with
        | nil => exact absurd hsp (splitColons_ne_nil l)
        | cons f fs =>
          rw [hsp] at hl
          obtain ⟨_, hinv⟩ := splitColons_inv l f fs hsp
          rcases fieldBytes_cons_inv hl with ⟨_, hf, _, _⟩ | ⟨v, bs1, hv, _, _⟩
          · cases hf
          · have hg := (hexGroupValue_inv hv).2.2.1
            rcases hinv with ⟨_, h2⟩ | ⟨l1, h2, _⟩
            · refine ⟨f, ':' :: r, ?_, hex_ne_sep hg⟩
              rw [hsplit, h2]
            · refine ⟨f, l1 ++ ':' :: ':' :: r, ?_, hex_ne_sep hg⟩
              rw [hsplit, h2]
              simp

/-- Completeness of `net.ParseIP` for the text form of an IPv6 address. -/
theorem ParseIP_of_ipv6Bytes {s : List Char} {bs : List Nat} (h : ipv6Bytes s = some bs) :
    ParseIP s = bs := by
  obtain ⟨ds, rest, hs, hds⟩ := ipv6Bytes_first_colon h
  unfold ParseIP ParseAddr
  have hp : parseAddrScan s s = some (Addr.v6 bs []) := by
    have hd := parseAddrScan_colon hds s rest
    rw [← hs] at hd
    rw [hd, parseIPv6_complete h]
    rfl
  rw [hp]
  rfl

/-- Every IPv4-mapped IPv6 literal is accepted by `ipToUint32`, with the key of its last four
bytes. -/
theorem isMappedIPv6_accepted (ipStr : String)
    (h : isMappedIPv6 (TrimSpace ipStr.data) = true) :
    ∃ bs, ipv6Bytes (TrimSpace ipStr.data) = some bs ∧
      ipToUint32 ipStr = Except.ok (bigEndianUint32 (bs.drop 12)) := by
  unfold isMappedIPv6 at h
  cases hb : ipv6Bytes (TrimSpace ipStr.data) with
  | none =>
    rw [hb] at h
    cases h
  | some bs =>
    rw [hb] at h
    simp only [beq_iff_eq] at h
    refine ⟨bs, rfl, ?_⟩
    have hlen := ipv6Bytes_length hb
    obtain ⟨x0, x1, x2, x3, x4, x5, x6, x7, x8, x9, x10, x11, x12, x13, x14, x15, rfl⟩ :=
      list_sixteen hlen
    simp only [List.take, List.cons.injEq, and_true] at h
    obtain ⟨rfl, rfl, rfl, rfl, rfl, rfl, rfl, rfl, rfl, rfl, rfl, rfl⟩ := h
    unfold ipToUint32
    simp only
    rw [ParseIP_of_ipv6Bytes hb]
    rfl

theorem makeBitSet_length_eq : makeBitSet.length = bitSetSize / 8 := by
  unfold makeBitSet
  rw [List.length_replicate]

theorem index_lt_of_length {bitSet : List Nat} {key : Nat} (hk : key < 2 ^ 32)
    (hlen : bitSet.length = bitSetSize / 8) : key / 8 < bitSet.length := by
  rw [hlen, ← makeBitSet_length_eq, makeBitSet_length]
  exact key_index_lt hk

theorem lineKey_of_ok {ipStr : String} {k : Nat} (h : lineKey ipStr = some k) :
    ipToUint32 ipStr = Except.ok k := by
  unfold lineKey at h
  cases e : ipToUint32 ipStr with
  | error m => rw [e] at h; cases h
  | ok v => rw [e] at h; cases h; rfl

theorem lineKey_none_error {ipStr : String} (h : lineKey ipStr = none) :
    ∃ msg, ipToUint32 ipStr = Except.error msg := by
  unfold lineKey at h
  cases e : ipToUint32 ipStr with
  | error m => exact ⟨m, rfl⟩
  | ok v => rw [e] at h; cases h

theorem filterMap_length_eq_countP (lines : List String) :
    (lines.filterMap lineKey).length = lines.countP (fun l => (lineKey l).isSome) := by
  induction lines with
  | nil => rfl
  | cons l ls ih =>
    cases e : lineKey l <;> simp [List.filterMap_cons, List.countP_cons, e, ih]

/-! ## The claims -/

/-- C1 (dedup property).  For every finite sequence of input lines, the ingestion loop from the
initial state followed by the popcount loop returns the number of distinct keys among the lines
that `ipToUint32` accepts, however often each is repeated; the lines `1.2.3.4`, `1.2.3.4`,
`1.2.3.5` give 2. -/
theorem dedup_property :
    (∀ lines : List String,
      distinctCount lines = some (lines.filterMap lineKey).dedup.length) ∧
    distinctCount ["1.2.3.4", "1.2.3.4", "1.2.3.5"] = some 2 := by
  refine ⟨distinctCount_eq, ?_⟩
  rw [distinctCount_eq]
  decide

/-- C2, as stated, fails: the line `::ffff:1.2.3.4` is not a dotted-decimal address, yet
`ipToUint32` accepts it with the key of `1.2.3.4`, and the loop body sets the bit and counts
the line in `lineCount`, not in `errorCount`. -/
theorem malformed_rejection_counterexample :
    isDottedDecimal (TrimSpace "::ffff:1.2.3.4".data) = false ∧
    ipToUint32 "::ffff:1.2.3.4" = Except.ok 16909060 ∧
    ∃ st, loopBody initState "::ffff:1.2.3.4" = some st ∧ st.errorCount = 0 ∧
      st.lineCount = 1 ∧ bitAt st.bitSet 16909060 = true := by
  have hk : lineKey "::ffff:1.2.3.4" = some 16909060 := by decide
  refine ⟨by decide, lineKey_of_ok hk, ?_⟩
  rw [loopBody_of_some hk]
  have hi : 16909060 / 8 < initState.bitSet.length := by
    show 16909060 / 8 < makeBitSet.length
    rw [makeBitSet_length]
    norm_num
  have hs := setBit_eq_some hi
  rw [hs]
  refine ⟨_, rfl, rfl, rfl, ?_⟩
  rw [setBit_bitAt hs]
  simp

/-- C2 (malformed-line rejection), amended.  For every line that, after trimming surrounding
white space, is neither a dotted-decimal IPv4 address nor an IPv6 literal in the text form of
RFC 4291 whose sixteen bytes are an IPv4-mapped address (`isMappedIPv6`, a predicate of the text
alone: hexadecimal groups separated by colons, at most one `::`, an optional dotted-decimal
tail, and the value `0:0:0:0:0:ffff:a.b.c.d`), `ipToUint32` returns an error, so the loop body
only counts the line in `errorCount`: no bit is set and `lineCount` is unchanged. -/
theorem malformed_rejection_amended (st : LoopState) (ipStr : String)
    (h1 : isDottedDecimal (TrimSpace ipStr.data) = false)
    (h2 : isMappedIPv6 (TrimSpace ipStr.data) = false) :
    (∃ msg, ipToUint32 ipStr = Except.error msg) ∧
    loopBody st ipStr =
      some { bitSet := st.bitSet, lineCount := st.lineCount, errorCount := st.errorCount + 1 } := by
  have hn : lineKey ipStr = none := by
    cases e : lineKey ipStr with
    | none => rfl
    | some k =>
      rcases ipToUint32_ok_cases (lineKey_of_ok e) with h | h
      · rw [h1] at h; cases h
      · rw [h2] at h; cases h
  exact ⟨lineKey_none_error hn, loopBody_of_none hn⟩

/-- Witness for C2 amended: the lines `1.2.3.4:80`, `2001:db8::1`, `garbage:zzz` and
`256.1.1.1` are neither dotted-decimal nor IPv4-mapped literals, and each is rejected. -/
theorem malformed_rejection_amended_witness :
    (isDottedDecimal (TrimSpace "1.2.3.4:80".data) = false ∧
      isMappedIPv6 (TrimSpace "1.2.3.4:80".data) = false ∧
      loopBody ⟨[0, 0], 0, 0⟩ "1.2.3.4:80" = some ⟨[0, 0], 0, 1⟩) ∧
    (isDottedDecimal (TrimSpace "2001:db8::1".data) = false ∧
      isMappedIPv6 (TrimSpace "2001:db8::1".data) = false ∧
      loopBody ⟨[0, 0], 0, 0⟩ "2001:db8::1" = some ⟨[0, 0], 0, 1⟩) ∧
    (isDottedDecimal (TrimSpace "garbage:zzz".data) = false ∧
      isMappedIPv6 (TrimSpace "garbage:zzz".data) = false ∧
      loopBody ⟨[0, 0], 0, 0⟩ "garbage:zzz" = some ⟨[0, 0], 0, 1⟩) ∧
    (isDottedDecimal (TrimSpace "256.1.1.1".data) = false ∧
      isMappedIPv6 (TrimSpace "256.1.1.1".data) = false ∧
      loopBody ⟨[0, 0], 0, 0⟩ "256.1.1.1" = some ⟨[0, 0], 0, 1⟩) :=
  ⟨⟨by decide, by decide,
      (malformed_rejection_amended ⟨[0, 0], 0, 0⟩ "1.2.3.4:80" (by decide) (by decide)).2⟩,
    ⟨by decide, by decide,
      (malformed_rejection_amended ⟨[0, 0], 0, 0⟩ "2001:db8::1" (by decide) (by decide)).2⟩,
    ⟨by decide, by decide,
      (malformed_rejection_amended ⟨[0, 0], 0, 0⟩ "garbage:zzz" (by decide) (by decide)).2⟩,
    ⟨by decide, by decide,
      (malformed_rejection_amended ⟨[0, 0], 0, 0⟩ "256.1.1.1" (by decide) (by decide)).2⟩⟩

/-- C3 (big-endian key).  For all octets `a`, `b`, `c`, `d` in `0..255`, `ipToUint32` on the
dotted-decimal string `a.b.c.d` succeeds with the key `a*2^24 + b*2^16 + c*2^8 + d`; `0.0.0.0`
gives 0 and `255.255.255.255` gives `2^32 - 1`. -/
theorem big_endian_key (a b c d : Nat) (ha : a < 256) (hb : b < 256) (hc : c < 256)
    (hd : d < 256) :
    ipToUint32 (String.mk (dottedChars a b c d)) =
      Except.ok (a * 2 ^ 24 + b * 2 ^ 16 + c * 2 ^ 8 + d) ∧
    ipToUint32 "0.0.0.0" = Except.ok 0 ∧
    ipToUint32 "255.255.255.255" = Except.ok (2 ^ 32 - 1) :=
  ⟨ipToUint32_dottedChars ha hb hc hd, lineKey_of_ok (by decide), lineKey_of_ok (by decide)⟩

/-- Witness for C3: the address `192.168.0.1`. -/
theorem big_endian_key_witness :
    String.mk (dottedChars 192 168 0 1) = "192.168.0.1" ∧
    ipToUint32 (String.mk (dottedChars 192 168 0 1)) =
      Except.ok (192 * 2 ^ 24 + 168 * 2 ^ 16 + 0 * 2 ^ 8 + 1) :=
  ⟨by decide, (big_endian_key 192 168 0 1 (by decide) (by decide) (by decide) (by decide)).1⟩

/-- C4 (rejection accounting).  For every input of `L` lines the ingestion loop from the initial
state ends with `lineCount + errorCount = L`, `errorCount` the number of lines on which
`ipToUint32` fails and `lineCount` the number on which it succeeds; the lines `10.0.0.1`,
`bad-line`, `10.0.0.1`, `256.1.1.1` give distinct count 1 and 2 rejected lines. -/
theorem rejection_accounting :
    (∀ lines : List String, ∃ st, scanLoop initState lines = some st ∧
      st.lineCount + st.errorCount = lines.length ∧
      st.errorCount = lines.countP (fun l => (lineKey l).isNone) ∧
      st.lineCount = lines.countP (fun l => (lineKey l).isSome)) ∧
    ∃ st, scanLoop initState ["10.0.0.1", "bad-line", "10.0.0.1", "256.1.1.1"] = some st ∧
      uniqueCount st.bitSet = 1 ∧ st.errorCount = 2 := by
  constructor
  · intro lines
    obtain ⟨b1, _, hs⟩ := scanLoop_initState lines
    refine ⟨_, hs, filterMap_length_add lines, ?_, ?_⟩
    · simp only [List.countP_eq_length_filter]
    · exact filterMap_length_eq_countP lines
  · obtain ⟨b1, hb, hs⟩ :=
      scanLoop_initState ["10.0.0.1", "bad-line", "10.0.0.1", "256.1.1.1"]
    refine ⟨_, hs, ?_, ?_⟩
    · show uniqueCount b1 = 1
      rw [uniqueCount_insertAll_replicate hb]
      decide
    · show (List.filter (fun l => (lineKey l).isNone)
        ["10.0.0.1", "bad-line", "10.0.0.1", "256.1.1.1"]).length = 2
      decide

/-- C5 (idempotent insert).  For every state of the bitmap and every 32-bit key, the insert
step performed `n >= 1` times succeeds and yields exactly the bitmap of a single insert. -/
theorem idempotent_insert (bitSet : List Nat) (key n : Nat) (hk : key < 2 ^ 32)
    (hlen : bitSet.length = bitSetSize / 8) (hn : 1 ≤ n) :
    ∃ bitSet1, insertTimes bitSet key 1 = some bitSet1 ∧
      insertTimes bitSet key n = some bitSet1 := by
  obtain ⟨m, rfl⟩ : ∃ m, n = m + 1 := ⟨n - 1, by omega⟩
  have hs := setBit_eq_some (index_lt_of_length hk hlen)
  refine ⟨bitSet.set (key / 8) (bitSet.getD (key / 8) 0 ||| 2 ^ (key % 8)), ?_, ?_⟩
  · rw [insertTimes_succ bitSet key 0]; exact hs
  · rw [insertTimes_succ]; exact hs

/-- Witness for C5: the key `2^32 - 1` inserted three times into the zero buffer. -/
theorem idempotent_insert_witness :
    ∃ bitSet1, insertTimes makeBitSet 4294967295 1 = some bitSet1 ∧
      insertTimes makeBitSet 4294967295 3 = some bitSet1 :=
  idempotent_insert makeBitSet 4294967295 3 (by norm_num) makeBitSet_length_eq (by norm_num)

/-- C6 (order independence).  For every input sequence of lines and every permutation of it,
the ingestion loop ends in the same state (the same bitmap, `lineCount` and `errorCount`), from
the initial state and from any other, and the distinct count is the same; the insert steps of
any two keys commute. -/
theorem order_independence (lines lines1 : List String) (h : lines.Perm lines1) :
    (∃ st, scanLoop initState lines = some st ∧ scanLoop initState lines1 = some st) ∧
    distinctCount lines = distinctCount lines1 ∧
    (∀ st, scanLoop st lines = scanLoop st lines1) ∧
    (∀ bitSet a b, (setBit bitSet a).bind (fun s => setBit s b) =
      (setBit bitSet b).bind (fun s => setBit s a)) := by
  refine ⟨?_, ?_, scanLoop_perm h, setBit_comm⟩
  · obtain ⟨b1, _, hs⟩ := scanLoop_initState lines
    exact ⟨_, hs, by rw [← scanLoop_perm h]; exact hs⟩
  · unfold distinctCount
    rw [scanLoop_perm h]

/-- Witness for C6: two lines, one valid and one malformed, in both orders. -/
theorem order_independence_witness :
    scanLoop ⟨[0, 0], 0, 0⟩ ["0.0.0.9", "bad-line"] =
      scanLoop ⟨[0, 0], 0, 0⟩ ["bad-line", "0.0.0.9"] :=
  (order_independence ["0.0.0.9", "bad-line"] ["bad-line", "0.0.0.9"]
    (List.Perm.swap _ _ _)).2.2.1 ⟨[0, 0], 0, 0⟩

/-- C7 (presence invariant).  Starting from the zero-initialised buffer, after any sequence of
inserts of 32-bit keys, for every 32-bit key `k` the bit at byte `k / 8`, offset `k % 8` is set
if and only if `k` was inserted at least once. -/
theorem presence_invariant (ks : List Nat) (hks : ∀ k ∈ ks, k < 2 ^ 32) :
    ∃ bitSet1, insertAll makeBitSet ks = some bitSet1 ∧
      ∀ k, k < 2 ^ 32 → ((bitSet1.getD (k / 8) 0).testBit (k % 8) = true ↔ k ∈ ks) := by
  obtain ⟨b1, hb⟩ := insertAll_makeBitSet_isSome hks
  refine ⟨b1, hb, ?_⟩
  intro k _
  have := insertAll_bitAt hb k
  unfold makeBitSet at this
  rw [bitAt_replicate] at this
  unfold bitAt at this
  rw [this]
  simp

/-- Witness for C7: the boundary keys `0` and `2^32 - 1`, one of them twice. -/
theorem presence_invariant_witness :
    ∃ bitSet1, insertAll makeBitSet [0, 4294967295, 0] = some bitSet1 ∧
      ∀ k, k < 2 ^ 32 →
        ((bitSet1.getD (k / 8) 0).testBit (k % 8) = true ↔ k ∈ [0, 4294967295, 0]) :=
  presence_invariant [0, 4294967295, 0] (by decide)

/-- C8 (count is the population).  For every content of a byte buffer the popcount loop returns
the total number of set bits of the buffer; after inserting any finite list of 32-bit keys into
the zero buffer it returns the number of distinct keys inserted; the lines `0.0.0.0` and
`255.255.255.255` give 2. -/
theorem count_is_population (bitSet : List Nat) (hv : ValidBytes bitSet) (ks : List Nat)
    (hks : ∀ k ∈ ks, k < 2 ^ 32) :
    uniqueCount bitSet = setBitCount bitSet ∧
    (∃ bitSet1, insertAll makeBitSet ks = some bitSet1 ∧
      uniqueCount bitSet1 = ks.dedup.length) ∧
    distinctCount ["0.0.0.0", "255.255.255.255"] = some 2 := by
  refine ⟨uniqueCount_eq_setBitCount bitSet hv, ?_, ?_⟩
  · obtain ⟨b1, hb⟩ := insertAll_makeBitSet_isSome hks
    exact ⟨b1, hb, uniqueCount_insertAll_replicate hb⟩
  · rw [distinctCount_eq]
    decide

/-- Witness for C8: a three-byte buffer with ten set bits and the boundary keys. -/
theorem count_is_population_witness :
    uniqueCount [3, 0, 255] = setBitCount [3, 0, 255] ∧
    (∃ bitSet1, insertAll makeBitSet [0, 4294967295, 0] = some bitSet1 ∧
      uniqueCount bitSet1 = [0, 4294967295, 0].dedup.length) :=
  have h := count_is_population [3, 0, 255] (by unfold ValidBytes; decide) [0, 4294967295, 0]
    (by decide)
  ⟨h.1, h.2.1⟩

/-- C9 (insert cannot fail).  For every `uint32` key the byte index `key / 8` is below the
buffer length `2^32 / 8 = 2^29` and the offset `key % 8` is at most 7, so `1 << offset` fits in
a byte, the insert step does not panic, and it leaves the buffer length unchanged. -/
theorem insert_cannot_fail (bitSet : List Nat) (key : Nat) (hk : key < 2 ^ 32)
    (hlen : bitSet.length = bitSetSize / 8) :
    bitSetSize / 8 = 2 ^ 29 ∧ makeBitSet.length = bitSetSize / 8 ∧
    key / 8 < bitSet.length ∧ key % 8 ≤ 7 ∧
    1 <<< (key % 8) < 256 ∧ (1 <<< (key % 8)) % 256 = 1 <<< (key % 8) ∧
    ∃ bitSet1, setBit bitSet key = some bitSet1 ∧ bitSet1.length = bitSet.length := by
  have hi := index_lt_of_length hk hlen
  have hm := mask_eq key
  have hlt : 1 <<< (key % 8) < 256 := by
    rw [Nat.one_shiftLeft]
    calc 2 ^ (key % 8) < 2 ^ 8 :=
          Nat.pow_lt_pow_right (by decide) (Nat.mod_lt _ (by decide))
      _ = 256 := by norm_num
  refine ⟨?_, makeBitSet_length_eq, hi, by omega, hlt, Nat.mod_eq_of_lt hlt, ?_⟩
  · rw [← makeBitSet_length_eq, makeBitSet_length]
  · exact ⟨_, setBit_eq_some hi, by rw [List.length_set]⟩

/-- Witness for C9: the largest key on the zero buffer. -/
theorem insert_cannot_fail_witness :
    ∃ bitSet1, setBit makeBitSet 4294967295 = some bitSet1 ∧
      bitSet1.length = makeBitSet.length :=
  (insert_cannot_fail makeBitSet 4294967295 (by norm_num) makeBitSet_length_eq).2.2.2.2.2.2

/-- C10 (insert frame).  For every state of the bitmap and every 32-bit key, after the insert
step the bit at byte `key / 8`, offset `key % 8` is set, and every other bit, in the same byte
and in all other bytes, has the value it had before; the length is unchanged. -/
theorem insert_frame (bitSet : List Nat) (key : Nat) (hk : key < 2 ^ 32)
    (hlen : bitSet.length = bitSetSize / 8) :
    ∃ bitSet1, setBit bitSet key = some bitSet1 ∧ bitSet1.length = bitSet.length ∧
      (bitSet1.getD (key / 8) 0).testBit (key % 8) = true ∧
      ∀ i j, (i ≠ key / 8 ∨ j ≠ key % 8) →
        (bitSet1.getD i 0).testBit j = (bitSet.getD i 0).testBit j := by
  have hs := setBit_eq_some (index_lt_of_length hk hlen)
  refine ⟨_, hs, by rw [List.length_set], ?_, ?_⟩
  · rw [setBit_testBit hs]
    simp
  · intro i j hij
    rw [setBit_testBit hs]
    rcases hij with h | h
    · simp [h]
    · simp [h]

/-- Witness for C10: the largest key on the zero buffer. -/
theorem insert_frame_witness :
    ∃ bitSet1, setBit makeBitSet 4294967295 = some bitSet1 ∧
      bitSet1.length = makeBitSet.length ∧
      (bitSet1.getD (4294967295 / 8) 0).testBit (4294967295 % 8) = true ∧
      ∀ i j, (i ≠ 4294967295 / 8 ∨ j ≠ 4294967295 % 8) →
        (bitSet1.getD i 0).testBit j = (makeBitSet.getD i 0).testBit j :=
  insert_frame makeBitSet 4294967295 (by norm_num) makeBitSet_length_eq

/-! ## White space around and inside an address -/

theorem dropWhile_append_left_all {p : Char → Bool} {w : List Char}
    (hw : ∀ c ∈ w, p c = true) (s : List Char) : (w ++ s).dropWhile p = s.dropWhile p := by
  induction w with
  | nil => rfl
  | cons c cs ih =>
    rw [List.cons_append, List.dropWhile_cons_of_pos (hw c (List.mem_cons_self _ _))]
    exact ih (fun x hx => hw x (List.mem_cons_of_mem _ hx))

theorem dropWhile_append_right_all {p : Char → Bool} {w : List Char}
    (hw : ∀ c ∈ w, p c = true) (s : List Char) :
    ((s ++ w).dropWhile p).reverse.dropWhile p = (s.dropWhile p).reverse.dropWhile p := by
  induction s with
  | nil =>
    have h := dropWhile_append_left_all hw []
    rw [List.append_nil] at h
    rw [List.nil_append, h]
  | cons c cs ih =>
    by_cases hc : p c = true
    · rw [List.cons_append, List.dropWhile_cons_of_pos hc, List.dropWhile_cons_of_pos hc]
      exact ih
    · rw [List.cons_append, List.dropWhile_cons_of_neg hc, List.dropWhile_cons_of_neg hc,
        ← List.cons_append, List.reverse_append]
      exact dropWhile_append_left_all (fun x hx => hw x (List.mem_reverse.mp hx)) _

/-- White space around a text does not change what `TrimSpace` returns. -/
theorem TrimSpace_pad {w1 w2 : List Char} (h1 : ∀ c ∈ w1, isSpace c = true)
    (h2 : ∀ c ∈ w2, isSpace c = true) (s : List Char) :
    TrimSpace (w1 ++ (s ++ w2)) = TrimSpace s := by
  unfold TrimSpace
  rw [dropWhile_append_left_all h1, dropWhile_append_right_all h2]

theorem isSpace_not_digit_dot {c : Char} (h : isSpace c = true) :
    c.isDigit = false ∧ c ≠ '.' ∧ c ≠ ':' := by
  refine ⟨?_, ?_, ?_⟩
  · cases e : c.isDigit with
    | false => rfl
    | true =>
      exfalso
      have hd := (digit_iff c).mpr e
      rw [Char.le_def, Char.le_def] at hd
      have h1 : 48 ≤ c.toNat := hd.1
      have h2 : c.toNat ≤ 57 := hd.2
      unfold isSpace at h
      simp only [Bool.or_eq_true, beq_iff_eq, Bool.and_eq_true, decide_eq_true_eq] at h
      omega
  · rintro rfl
    exact absurd h (by decide)
  · rintro rfl
    exact absurd h (by decide)

theorem parseIPv4Loop_bad_char (rest : List Char) :
    ∀ (prev : Option Char) (val pos digLen : Nat) (fields : List Nat),
      (∃ c ∈ rest, c.isDigit = false ∧ c ≠ '.') →
      parseIPv4Loop rest prev val pos digLen fields = none := by
  induction rest with
  | nil =>
    rintro _ _ _ _ _ ⟨c, hc, _⟩
    cases hc
  | cons a rest ih =>
    rintro prev val pos digLen fields ⟨c, hc, hcd, hcp⟩
    unfold parseIPv4Loop
    have hrest : c = a ∨ ∃ c ∈ rest, c.isDigit = false ∧ c ≠ '.' := by
      rcases List.mem_cons.mp hc with e | e
      · exact Or.inl e
      · exact Or.inr ⟨c, e, hcd, hcp⟩
    by_cases h1 : '0' ≤ a ∧ a ≤ '9'
    · have ha : a.isDigit = true := (digit_iff a).mp h1
      rcases hrest with e | e
      · rw [e, ha] at hcd
        cases hcd
      · rw [if_pos h1]
        by_cases h2 : digLen = 1 ∧ val = 0
        · rw [if_pos h2]
        · rw [if_neg h2]
          simp only
          by_cases h3 : val * 10 + (a.toNat - '0'.toNat) > 255
          · rw [if_pos h3]
          · rw [if_neg h3]
            exact ih _ _ _ _ _ e
    · rw [if_neg h1]
      by_cases h4 : a = '.'
      · rcases hrest with e | e
        · exact absurd (e.symm ▸ h4) hcp
        · rw [if_pos h4]
          by_cases h5 : prev = none ∨ rest = [] ∨ prev = some '.'
          · rw [if_pos h5]
          · rw [if_neg h5]
            by_cases h6 : pos = 3
            · rw [if_pos h6]
            · rw [if_neg h6]
              exact ih _ _ _ _ _ e
      · rw [if_neg h4]

theorem To4_nil : To4 [] = [] := by decide

/-- A text without a colon that `parseIPv4` refuses is refused by `ipToUint32`, when it is
left alone by `TrimSpace`. -/
theorem ipToUint32_error_of_parseIPv4 {ipStr : String}
    (ht : TrimSpace ipStr.data = ipStr.data) (hc : ipStr.data.contains ':' = false)
    (hp : parseIPv4 ipStr.data = none) : ∃ msg, ipToUint32 ipStr = Except.error msg := by
  have hip : ParseIP ipStr.data = [] := by
    unfold ParseIP ParseAddr
    cases e : parseAddrScan ipStr.data ipStr.data with
    | none => rfl
    | some addr =>
      obtain ⟨f, hf⟩ := parseAddrScan_no_colon hc e
      rw [hp] at hf
      cases hf
  unfold ipToUint32
  simp only [ht, hip, To4_nil, if_true]
  exact ⟨_, rfl⟩

theorem filterMap_filter_isSome (lines : List String) :
    (lines.filter (fun l => (lineKey l).isSome)).filterMap lineKey =
      lines.filterMap lineKey := by
  induction lines with
  | nil => rfl
  | cons l ls ih =>
    cases e : lineKey l with
    | none => simp [List.filter_cons, List.filterMap_cons, e, ih]
    | some k => simp [List.filter_cons, List.filterMap_cons, e, ih]


/-! ## The scanner and the run of `main` -/

theorem byteLen_append (p q : List Char) : byteLen (p ++ q) = byteLen p + byteLen q := by
  unfold byteLen
  rw [List.map_append, List.sum_append]

/-- Once the pending data is longer than the buffer the scan ends with `ErrTooLong`, whatever
follows. -/
theorem scanFrom_full (maxTokenSize : Nat) (readErr : Option String) (endWithData : Bool)
    (data : List Char) :
    ∀ pending, maxTokenSize < byteLen pending →
      scanFrom maxTokenSize readErr endWithData data pending = ⟨[], some ErrTooLong⟩ := by
  induction data with
  | nil =>
    intro pending h
    unfold scanFrom
    have hne : pending ≠ [] := by
      rintro rfl
      simp [byteLen] at h
    rw [if_neg hne, if_pos h]
  | cons c rest ih =>
    intro pending h
    unfold scanFrom
    by_cases hc : c = '\n'
    · rw [if_pos hc, if_pos (Nat.le_of_lt h)]
    · rw [if_neg hc]
      apply ih
      rw [byteLen_append]
      omega

theorem scanFrom_no_newline (maxTokenSize : Nat) (readErr : Option String)
    (endWithData : Bool) (long : List Char) (hlong : ∀ c ∈ long, c ≠ '\n')
    (post : List Char) :
    ∀ pending, scanFrom maxTokenSize readErr endWithData (long ++ post) pending =
      scanFrom maxTokenSize readErr endWithData post (pending ++ long) := by
  induction long with
  | nil => intro pending; simp
  | cons c cs ih =>
    intro pending
    rw [List.cons_append]
    conv_lhs => unfold scanFrom
    rw [if_neg (hlong c (List.mem_cons_self _ _)),
      ih (fun x hx => hlong x (List.mem_cons_of_mem _ hx))]
    simp

/-- The error of a scan over a reader that ends with `io.EOF` is nil or `ErrTooLong`. -/
theorem scanFrom_err_eof (maxTokenSize : Nat) (endWithData : Bool) (data : List Char) :
    ∀ pending, (scanFrom maxTokenSize none endWithData data pending).err = none ∨
      (scanFrom maxTokenSize none endWithData data pending).err = some ErrTooLong := by
  induction data with
  | nil =>
    intro pending
    unfold scanFrom
    split_ifs <;> simp
  | cons c rest ih =>
    intro pending
    unfold scanFrom
    split_ifs
    · exact Or.inr rfl
    · exact ih []
    · exact ih _

/-- The error of a scan over a reader that ends with a fault is not nil. -/
theorem scanFrom_err_fault (maxTokenSize : Nat) (e : String) (endWithData : Bool)
    (data : List Char) :
    ∀ pending, (scanFrom maxTokenSize (some e) endWithData data pending).err ≠ none := by
  induction data with
  | nil =>
    intro pending
    unfold scanFrom
    split_ifs <;> simp
  | cons c rest ih =>
    intro pending
    unfold scanFrom
    split_ifs
    · simp
    · exact ih []
    · exact ih _

/-- A scan that delivers no token and ends without an error has read no byte from a reader
that ended with `io.EOF`. -/
theorem scanFrom_empty (maxTokenSize : Nat) (readErr : Option String) (endWithData : Bool)
    (data : List Char) :
    ∀ pending, (scanFrom maxTokenSize readErr endWithData data pending).lines = [] →
      (scanFrom maxTokenSize readErr endWithData data pending).err = none →
      data = [] ∧ pending = [] ∧ readErr = none := by
  induction data with
  | nil =>
    intro pending hl he
    unfold scanFrom at hl he
    by_cases h1 : pending = []
    · rw [if_pos h1] at he
      exact ⟨rfl, h1, he⟩
    · rw [if_neg h1] at hl he
      by_cases h2 : maxTokenSize < byteLen pending
      · rw [if_pos h2] at he
        cases he
      · rw [if_neg h2] at hl he
        by_cases h3 : maxTokenSize = byteLen pending ∧ endWithData = false
        · rw [if_pos h3] at he
          cases he
        · rw [if_neg h3] at hl
          cases hl
  | cons c rest ih =>
    intro pending hl he
    unfold scanFrom at hl he
    by_cases h1 : c = '\n'
    · rw [if_pos h1] at hl he
      by_cases h2 : maxTokenSize ≤ byteLen pending
      · rw [if_pos h2] at he
        cases he
      · rw [if_neg h2] at hl
        cases hl
    · rw [if_neg h1] at hl he
      have := (ih _ hl he).2.1
      simp at this

/-- A scan over complete lines followed by more data: the tokens of the lines come first, and
an error inside them ends the scan. -/
theorem scanFrom_prefix (maxTokenSize : Nat) (readErr : Option String) (endWithData : Bool)
    (rest : List Char) (pre : List Char) :
    ∀ pending, (pre = [] ∨ ∃ p, pre = p ++ ['\n']) → (pre = [] → pending = []) →
      ((scanFrom maxTokenSize none endWithData pre pending).err = none →
        scanFrom maxTokenSize readErr endWithData (pre ++ rest) pending =
          ⟨(scanFrom maxTokenSize none endWithData pre pending).lines ++
            (scanFrom maxTokenSize readErr endWithData rest []).lines,
           (scanFrom maxTokenSize readErr endWithData rest []).err⟩) ∧
      ((scanFrom maxTokenSize none endWithData pre pending).err ≠ none →
        scanFrom maxTokenSize readErr endWithData (pre ++ rest) pending =
          scanFrom maxTokenSize none endWithData pre pending) := by
  induction pre with
  | nil =>
    intro pending _ hp
    rw [hp rfl]
    constructor
    · intro _
      simp [scanFrom]
    · intro h
      exact absurd (by simp [scanFrom]) h
  | cons c cs ih =>
    intro pending hpre _
    have hcs : c = '\n' ∨ ∃ p, cs = p ++ ['\n'] := by
      rcases hpre with h | ⟨p, hp⟩
      · cases h
      · cases p with
        | nil =>
          simp only [List.nil_append, List.cons.injEq] at hp
          exact Or.inl hp.1
        | cons a p1 =>
          simp only [List.cons_append, List.cons.injEq] at hp
          exact Or.inr ⟨p1, hp.2⟩
    have hcs2 : c = '\n' → (cs = [] ∨ ∃ p, cs = p ++ ['\n']) := by
      intro _
      rcases hpre with h | ⟨p, hp⟩
      · cases h
      · cases p with
        | nil =>
          simp only [List.nil_append, List.cons.injEq] at hp
          exact Or.inl hp.2
        | cons a p1 =>
          simp only [List.cons_append, List.cons.injEq] at hp
          exact Or.inr ⟨p1, hp.2⟩
    rw [List.cons_append]
    by_cases hc : c = '\n'
    · by_cases hfull : maxTokenSize ≤ byteLen pending
      · have e1 : ∀ (re : Option String) (d : List Char),
            scanFrom maxTokenSize re endWithData (c :: d) pending =
              ⟨[], some ErrTooLong⟩ := by
          intro re d
          unfold scanFrom
          rw [if_pos hc, if_pos hfull]
        rw [e1, e1]
        constructor
        · intro h; cases h
        · intro _; rfl
      · have e1 : ∀ (re : Option String) (d : List Char),
            scanFrom maxTokenSize re endWithData (c :: d) pending =
              ⟨String.mk (dropCR pending) ::
                (scanFrom maxTokenSize re endWithData d []).lines,
               (scanFrom maxTokenSize re endWithData d []).err⟩ := by
          intro re d
          conv_lhs => unfold scanFrom
          rw [if_pos hc, if_neg hfull]
        rw [e1, e1]
        obtain ⟨ih1, ih2⟩ := ih [] (hcs2 hc) (fun _ => rfl)
        constructor
        · intro h
          rw [ih1 h]
          rfl
        · intro h
          rw [ih2 h]
    · have hne : ∃ p, cs = p ++ ['\n'] := by
        rcases hcs with h | h
        · exact absurd h hc
        · exact h
      have hcsne : cs ≠ [] := by
        obtain ⟨p, hp⟩ := hne
        rw [hp]
        simp
      have e1 : ∀ (re : Option String) (d : List Char),
          scanFrom maxTokenSize re endWithData (c :: d) pending =
            scanFrom maxTokenSize re endWithData d (pending ++ [c]) := by
        intro re d
        conv_lhs => unfold scanFrom
        rw [if_neg hc]
      rw [e1, e1]
      exact ih (pending ++ [c]) (Or.inr hne) (fun h => absurd h hcsne)

/-- A line longer than the ceiling ends the scan with `ErrTooLong`; the tokens delivered are
those of the lines before it. -/
theorem scanAll_too_long (pre long post : List Char) (readErr : Option String)
    (endWithData : Bool) (hpre : pre = [] ∨ ∃ p, pre = p ++ ['\n'])
    (hlong : ∀ c ∈ long, c ≠ '\n') (hlen : 10 * 1024 * 1024 < byteLen long) :
    scanAll (pre ++ (long ++ post)) readErr endWithData =
      ⟨(scanAll pre none endWithData).lines, some ErrTooLong⟩ := by
  unfold scanAll
  obtain ⟨h1, h2⟩ := scanFrom_prefix (10 * 1024 * 1024) readErr endWithData (long ++ post)
    pre [] hpre (fun _ => rfl)
  have hl : scanFrom (10 * 1024 * 1024) readErr endWithData (long ++ post) [] =
      ⟨[], some ErrTooLong⟩ := by
    rw [scanFrom_no_newline _ _ _ _ hlong]
    exact scanFrom_full _ _ _ _ _ (by simpa using hlen)
  rcases scanFrom_err_eof (10 * 1024 * 1024) endWithData pre [] with h | h
  · rw [h1 h, hl]
    simp
  · rw [h2 (by rw [h]; simp)]
    cases e : scanFrom (10 * 1024 * 1024) none endWithData pre [] with
    | mk ls er =>
      rw [e] at h
      simp only at h
      rw [h]

/-- The ingestion loop of `main` does not panic. -/
theorem scanLoop_initState_some (lines : List String) :
    ∃ st, scanLoop initState lines = some st ∧
      uniqueCount st.bitSet = (lines.filterMap lineKey).dedup.length ∧
      st.lineCount = (lines.filterMap lineKey).length ∧
      st.errorCount = (lines.filter (fun l => (lineKey l).isNone)).length := by
  obtain ⟨b1, hb, hs⟩ := scanLoop_initState lines
  exact ⟨_, hs, uniqueCount_insertAll_replicate hb, rfl, rfl⟩

/-- A run whose scanner ends with an error is fatal. -/
theorem main_scan_error {archive : Archive} {zipFile : ZipFile} {rest : List ZipFile}
    {e : String} (hfiles : archive.files = zipFile :: rest)
    (herr : (scanAll zipFile.data zipFile.readErr zipFile.endWithData).err = some e) :
    ∃ msg, main archive = some (Outcome.fatal msg) := by
  obtain ⟨st, hst, _⟩ :=
    scanLoop_initState_some (scanAll zipFile.data zipFile.readErr zipFile.endWithData).lines
  unfold main
  cases archive.openErr with
  | some err => exact ⟨_, rfl⟩
  | none =>
    simp only [hfiles]
    split_ifs
    · exact ⟨_, rfl⟩
    · cases zipFile.openErr with
      | some err => exact ⟨_, rfl⟩
      | none =>
        simp only [hst, herr]
        exact ⟨_, rfl⟩

theorem main_size_zero {archive : Archive} {zipFile : ZipFile} {rest : List ZipFile}
    (hopen : archive.openErr = none) (hfiles : archive.files = zipFile :: rest)
    (hsize : zipFile.uncompressedSize = 0) :
    main archive = some (Outcome.fatal "Не удалось определить размер не сжатого файла\n") := by
  unfold main
  simp only [hopen, hfiles, if_pos hsize]

/-- A file on which the scanner delivers no line and ends without an error has no byte, and
its header declares the size zero. -/
theorem size_zero_of_no_lines {zipFile : ZipFile} (hzopen : zipFile.openErr = none)
    (hlines : (scanAll zipFile.data zipFile.readErr zipFile.endWithData).lines = [])
    (herr : (scanAll zipFile.data zipFile.readErr zipFile.endWithData).err = none) :
    zipFile.data = [] ∧ zipFile.uncompressedSize = 0 := by
  obtain ⟨hd, _, hr⟩ := scanFrom_empty _ _ _ _ _ hlines herr
  refine ⟨hd, ?_⟩
  rw [zipFile.sizeOk hzopen hr, hd]
  rfl

theorem byteLen_replicate_a (n : Nat) : byteLen (List.replicate n 'a') = n := by
  induction n with
  | zero => rfl
  | succ n ih =>
    rw [List.replicate_succ, ← List.singleton_append, byteLen_append, ih]
    have : byteLen ['a'] = 1 := by decide
    omega

/-! ## The table, the addressing and the count along the ingestion -/

theorem table_length : bitCountTable.length = 256 := by
  decide!

theorem table_entries : ∀ i < 256, bitCountTable.getD i 0 = popCount8 i := by
  decide!

theorem table_loop : ∀ i < 256, countLoop 8 i 0 = (0, popCount8 i) := by
  decide!

theorem popCount8_le : ∀ i < 256, popCount8 i ≤ 8 := by
  decide!

theorem table_facts :
    bitCountTable.length = 256 ∧
    ∀ i < 256, bitCountTable.getD i 0 = popCount8 i ∧ bitsInByte (i % 256) = popCount8 i ∧
      countLoop 8 (i % 256) 0 = (0, popCount8 i) ∧ popCount8 i ≤ 8 := by
  refine ⟨table_length, ?_⟩
  intro i hi
  rw [Nat.mod_eq_of_lt hi]
  exact ⟨table_entries i hi, table_entries i hi, table_loop i hi, popCount8_le i hi⟩

theorem bitsInByte_le (b : Nat) : bitsInByte b ≤ 8 := by
  by_cases hb : b < 256
  · have h := table_facts.2 b hb
    rw [Nat.mod_eq_of_lt hb] at h
    rw [h.2.1]
    exact h.2.2.2
  · unfold bitsInByte
    rw [List.getD_eq_default _ _ (by rw [table_facts.1]; omega)]
    omega

theorem bitsInByte_two_pow : ∀ j < 8, bitsInByte (2 ^ j) = 1 := by
  decide!

theorem uniqueCount_le (bitSet : List Nat) : uniqueCount bitSet ≤ 8 * bitSet.length := by
  induction bitSet using List.reverseRecOn with
  | nil => exact Nat.le_refl _
  | append_singleton bs b ih =>
    rw [uniqueCount_append, List.length_append, List.length_singleton]
    have := bitsInByte_le b
    omega

theorem countLoop_fuel (n : Nat) :
    ∀ (b count : Nat), (countLoop n b count).1 = 0 →
      ∀ m, countLoop (n + m) b count = countLoop n b count := by
  induction n with
  | zero =>
    intro b count h m
    have hb : b = 0 := h
    subst hb
    cases m with
    | zero => rfl
    | succ m =>
      rw [Nat.zero_add]
      unfold countLoop
      simp
  | succ n ih =>
    intro b count h m
    have e : n + 1 + m = (n + m) + 1 := by omega
    rw [e]
    unfold countLoop at h ⊢
    by_cases hb : b ≠ 0
    · simp only [if_pos hb] at h ⊢
      exact ih _ _ h m
    · simp only [if_neg hb]

theorem clear_lowest_lt {b : Nat} (hb : b ≠ 0) : b &&& (b - 1) < b := by
  have h : b &&& (b - 1) ≤ b - 1 := Nat.and_le_right
  omega

theorem filter_or_eq_length {p : Nat → Bool} {k : Nat} (hp : p k = false) (l : List Nat) :
    l.Nodup → k ∈ l →
      (l.filter (fun x => p x || decide (x = k))).length = (l.filter p).length + 1 := by
  induction l with
  | nil => intro _ h; cases h
  | cons a t ih =>
    intro hnd hk
    have hat : a ∉ t := (List.nodup_cons.mp hnd).1
    have htn : t.Nodup := (List.nodup_cons.mp hnd).2
    by_cases ha : a = k
    · subst ha
      have e : t.filter (fun x => p x || decide (x = a)) = t.filter p := by
        apply List.filter_congr
        intro x hx
        have : x ≠ a := fun e => hat (e ▸ hx)
        simp [this]
      rw [List.filter_cons_of_pos (by simp), List.filter_cons_of_neg (by simp [hp]), e,
        List.length_cons]
    · have hk2 : k ∈ t := by
        rcases List.mem_cons.mp hk with h | h
        · exact absurd h.symm ha
        · exact h
      have hq : (p a || decide (a = k)) = p a := by simp [ha]
      by_cases hpa : p a = true
      · rw [List.filter_cons_of_pos (by rw [hq]; exact hpa), List.filter_cons_of_pos hpa,
          List.length_cons, List.length_cons, ih htn hk2]
      · rw [List.filter_cons_of_neg (by rw [hq]; exact hpa), List.filter_cons_of_neg hpa,
          ih htn hk2]

/-- The number of set bits after an insert step. -/
theorem setBitCount_setBit {bitSet bitSet1 : List Nat} {k : Nat}
    (h : setBit bitSet k = some bitSet1) :
    setBitCount bitSet1 =
      if bitAt bitSet k = true then setBitCount bitSet else setBitCount bitSet + 1 := by
  have hk : k / 8 < bitSet.length := (setBit_some_iff.mp h).1
  have hmem : k ∈ List.range (8 * bitSet.length) := List.mem_range.mpr (by omega)
  have hfun : bitAt bitSet1 = fun x => bitAt bitSet x || decide (x = k) := by
    funext x
    exact setBit_bitAt h x
  unfold setBitCount
  rw [setBit_length h, hfun]
  by_cases hb : bitAt bitSet k = true
  · rw [if_pos hb]
    congr 1
    apply List.filter_congr
    intro x _
    by_cases e : x = k
    · subst e
      simp [hb]
    · simp [e]
  · rw [if_neg hb]
    exact filter_or_eq_length (by simpa using hb) _ (List.nodup_range _) hmem

theorem uniqueCount_setBit {bitSet bitSet1 : List Nat} {k : Nat} (hv : ValidBytes bitSet)
    (h : setBit bitSet k = some bitSet1) :
    uniqueCount bitSet1 =
      if bitAt bitSet k = true then uniqueCount bitSet else uniqueCount bitSet + 1 := by
  rw [uniqueCount_eq_setBitCount _ hv, uniqueCount_eq_setBitCount _ (setBit_validBytes h hv)]
  exact setBitCount_setBit h

theorem loopBody_mono {st st1 : LoopState} {ipStr : String} (hv : ValidBytes st.bitSet)
    (h : loopBody st ipStr = some st1) :
    ValidBytes st1.bitSet ∧ uniqueCount st.bitSet ≤ uniqueCount st1.bitSet := by
  cases e : lineKey ipStr with
  | none =>
    rw [loopBody_of_none e] at h
    cases h
    exact ⟨hv, Nat.le_refl _⟩
  | some k =>
    rw [loopBody_of_some e] at h
    cases e2 : setBit st.bitSet k with
    | none => rw [e2] at h; cases h
    | some b1 =>
      rw [e2] at h
      cases h
      refine ⟨setBit_validBytes e2 hv, ?_⟩
      show uniqueCount st.bitSet ≤ uniqueCount b1
      rw [uniqueCount_setBit hv e2]
      split_ifs <;> omega

theorem scanLoop_mono (lines : List String) :
    ∀ (st st1 : LoopState), ValidBytes st.bitSet → scanLoop st lines = some st1 →
      uniqueCount st.bitSet ≤ uniqueCount st1.bitSet := by
  induction lines with
  | nil =>
    intro st st1 _ h
    cases h
    exact Nat.le_refl _
  | cons l ls ih =>
    intro st st1 hv h
    unfold scanLoop at h
    cases e : loopBody st l with
    | none => rw [e] at h; cases h
    | some st2 =>
      rw [e] at h
      have h2 := loopBody_mono hv e
      exact Nat.le_trans h2.2 (ih st2 st1 h2.1 h)
/-! ## The claims, continued -/

/-- C11 (whitespace trimming).  For every string `s` on which `ipToUint32` succeeds and all
strings `w1`, `w2` of white space only, `ipToUint32` on `w1 ++ s ++ w2` succeeds with the same
key; `"  10.0.0.1  "` and `"10.0.0.1"` give the same key. -/
theorem whitespace_trimming (s w1 w2 : String) (k : Nat) (hs : ipToUint32 s = Except.ok k)
    (h1 : ∀ c ∈ w1.data, isSpace c = true) (h2 : ∀ c ∈ w2.data, isSpace c = true) :
    ipToUint32 (w1 ++ s ++ w2) = Except.ok k ∧
    ipToUint32 "  10.0.0.1  " = Except.ok 167772161 ∧
    ipToUint32 "10.0.0.1" = Except.ok 167772161 := by
  refine ⟨?_, lineKey_of_ok (by decide), lineKey_of_ok (by decide)⟩
  have e : TrimSpace (w1 ++ s ++ w2).data = TrimSpace s.data := by
    rw [String.data_append, String.data_append, List.append_assoc]
    exact TrimSpace_pad h1 h2 s.data
  unfold ipToUint32 at hs ⊢
  simp only [e] at hs ⊢
  split_ifs at hs ⊢ with h
  exact hs

/-- Witness for C11: a tab and a space before and a carriage return after `10.0.0.1`. -/
theorem whitespace_trimming_witness :
    ipToUint32 ("\t " ++ "10.0.0.1" ++ "\r") = Except.ok 167772161 :=
  (whitespace_trimming "10.0.0.1" "\t " "\r" 167772161 (lineKey_of_ok (by decide)) (by decide)
    (by decide)).1

/-- C12 (interior whitespace is rejected).  For every dotted-decimal IPv4 string, inserting one
or more white space characters at a position strictly inside it makes `ipToUint32` return an
error; `"10. 0.0.1"` is rejected. -/
theorem interior_whitespace_rejected (l r w : List Char)
    (hs : isDottedDecimal (l ++ r) = true) (hl : l ≠ []) (hr : r ≠ []) (hw : w ≠ [])
    (hws : ∀ c ∈ w, isSpace c = true) :
    (∃ msg, ipToUint32 (String.mk (l ++ (w ++ r))) = Except.error msg) ∧
    ∃ msg, ipToUint32 "10. 0.0.1" = Except.error msg := by
  refine ⟨?_, lineKey_none_error (by decide)⟩
  have hchars := isDottedDecimal_chars hs
  have hns : ∀ c ∈ l ++ r, isSpace c = false := by
    intro c hc
    cases e : isSpace c with
    | false => rfl
    | true =>
      have := isSpace_not_digit_dot e
      rcases hchars c hc with h | h
      · rw [this.1] at h; cases h
      · exact absurd h this.2.1
  apply ipToUint32_error_of_parseIPv4
  · show TrimSpace (l ++ (w ++ r)) = l ++ (w ++ r)
    apply TrimSpace_of_fixed hl hr
    · cases l with
      | nil => exact absurd rfl hl
      | cons c cs =>
        have := hns c (by simp)
        rw [List.dropWhile_cons_of_neg (by simp [this])]
    · cases e : r.reverse with
      | nil => exact absurd (List.reverse_eq_nil_iff.mp e) hr
      | cons c cs =>
        have hc : c ∈ r := by
          rw [← List.mem_reverse, e]
          exact List.mem_cons_self _ _
        have := hns c (List.mem_append_right _ hc)
        rw [List.dropWhile_cons_of_neg (by simp [this])]
  · show (l ++ (w ++ r)).contains ':' = false
    cases e : (l ++ (w ++ r)).contains ':' with
    | false => rfl
    | true =>
      exfalso
      have hm : ':' ∈ l ++ (w ++ r) := by simpa using e
      rcases List.mem_append.mp hm with h | h
      · rcases hchars ':' (List.mem_append_left _ h) with h' | h'
        · exact absurd h' (by decide)
        · exact absurd h' (by decide)
      · rcases List.mem_append.mp h with h | h
        · exact absurd (hws ':' h) (by decide)
        · rcases hchars ':' (List.mem_append_right _ h) with h' | h'
          · exact absurd h' (by decide)
          · exact absurd h' (by decide)
  · show parseIPv4 (l ++ (w ++ r)) = none
    unfold parseIPv4 parseIPv4Fields
    apply parseIPv4Loop_bad_char
    cases w with
    | nil => exact absurd rfl hw
    | cons c cs =>
      have hsp := isSpace_not_digit_dot (hws c (List.mem_cons_self _ _))
      exact ⟨c, by simp, hsp.1, hsp.2.1⟩

/-- Witness for C12: a space and a tab after the first dot of `10.0.0.1`. -/
theorem interior_whitespace_rejected_witness :
    isDottedDecimal ("10.".data ++ "0.0.1".data) = true ∧
    ∃ msg, ipToUint32 (String.mk ("10.".data ++ (" \t".data ++ "0.0.1".data))) =
      Except.error msg :=
  ⟨by decide, (interior_whitespace_rejected "10.".data "0.0.1".data " \t".data (by decide)
    (by decide) (by decide) (by decide) (by decide)).1⟩

/-- C13 (rejected lines leave the set untouched).  For every state and every line on which
`ipToUint32` fails, the loop iteration leaves the bitmap and `lineCount` unchanged and adds one
to `errorCount`; so the final bitmap and distinct count of an input are those of the input
with its malformed lines removed. -/
theorem rejected_lines_untouched (st : LoopState) (ipStr msg : String)
    (h : ipToUint32 ipStr = Except.error msg) :
    loopBody st ipStr =
      some { bitSet := st.bitSet, lineCount := st.lineCount,
             errorCount := st.errorCount + 1 } ∧
    ∀ lines : List String,
      (scanLoop initState lines).map (fun s => s.bitSet) =
        (scanLoop initState (lines.filter (fun l => (lineKey l).isSome))).map
          (fun s => s.bitSet) ∧
      distinctCount lines = distinctCount (lines.filter (fun l => (lineKey l).isSome)) := by
  refine ⟨loopBody_of_none (lineKey_eq_none h), ?_⟩
  intro lines
  refine ⟨?_, ?_⟩
  · rw [scanLoop_eq, scanLoop_eq, filterMap_filter_isSome]
    cases insertAll initState.bitSet (lines.filterMap lineKey) with
    | none => rfl
    | some b => rfl
  · rw [distinctCount_eq, distinctCount_eq, filterMap_filter_isSome]

/-- Witness for C13: the line `bad-line` on a two-byte buffer. -/
theorem rejected_lines_untouched_witness :
    loopBody ⟨[1, 0], 4, 2⟩ "bad-line" = some ⟨[1, 0], 4, 3⟩ :=
  (rejected_lines_untouched ⟨[1, 0], 4, 2⟩ "bad-line" "недопустимый IP адрес: bad-line"
    (by rfl)).1

/-- C14 (fatal source fault).  Whenever the scanner ends with an error other than end of
stream, even after yielding valid lines, `main` prints a diagnostic and exits with status 1
without a distinct-count report.  A reader fault always leaves such an error, and so does a
line longer than the ceiling of 10 MiB: the scan stops with `ErrTooLong` having delivered only
the lines before it, so no part of the over-long line is parsed. -/
theorem fatal_source_fault (archive : Archive) (zipFile : ZipFile) (rest : List ZipFile)
    (e : String) (hfiles : archive.files = zipFile :: rest)
    (herr : (scanAll zipFile.data zipFile.readErr zipFile.endWithData).err = some e) :
    (∃ msg, main archive = some (Outcome.fatal msg)) ∧
    (∀ (data : List Char) (fault : String) (endWithData : Bool),
      (scanAll data (some fault) endWithData).err ≠ none) ∧
    (∀ (pre long post : List Char) (readErr : Option String) (endWithData : Bool),
      (pre = [] ∨ ∃ p, pre = p ++ ['\n']) → (∀ c ∈ long, c ≠ '\n') →
      10 * 1024 * 1024 < byteLen long →
      scanAll (pre ++ (long ++ post)) readErr endWithData =
        ⟨(scanAll pre none endWithData).lines, some ErrTooLong⟩) :=
  ⟨main_scan_error hfiles herr,
    fun data fault endWithData => scanFrom_err_fault _ fault endWithData data [],
    fun pre long post readErr endWithData h1 h2 h3 =>
      scanAll_too_long pre long post readErr endWithData h1 h2 h3⟩

/-- Witness for C14: a reader that fails after one valid line. -/
theorem fatal_source_fault_witness :
    (scanAll "1.2.3.4\n5.6".data (some "unexpected EOF") false).err =
      some "unexpected EOF" ∧
    ∃ msg, main ⟨none, [⟨20, none, "1.2.3.4\n5.6".data, some "unexpected EOF", false,
        fun _ h => Option.noConfusion h⟩]⟩ = some (Outcome.fatal msg) :=
  ⟨by decide,
    (fatal_source_fault
      ⟨none, [⟨20, none, "1.2.3.4\n5.6".data, some "unexpected EOF", false,
        fun _ h => Option.noConfusion h⟩]⟩
      ⟨20, none, "1.2.3.4\n5.6".data, some "unexpected EOF", false,
        fun _ h => Option.noConfusion h⟩ [] "unexpected EOF" rfl (by decide)).1⟩

/-- C15, as stated, fails: for an empty file the scanner yields zero lines, the header's
uncompressed size is zero, and `main` exits with status 1 before the scan instead of
reporting the distinct count 0. -/
theorem empty_input_counterexample :
    (scanAll [] none true).lines = [] ∧
    main ⟨none, [⟨0, none, [], none, true, fun _ _ => rfl⟩]⟩ =
      some (Outcome.fatal "Не удалось определить размер не сжатого файла\n") ∧
    main ⟨none, [⟨0, none, [], none, true, fun _ _ => rfl⟩]⟩ ≠
      some (Outcome.report 0 none) := by
  have h : main ⟨none, [⟨0, none, [], none, true, fun _ _ => rfl⟩]⟩ =
      some (Outcome.fatal "Не удалось определить размер не сжатого файла\n") :=
    main_size_zero rfl rfl rfl
  refine ⟨by decide, h, ?_⟩
  rw [h]
  intro e
  cases e

/-- C15 (empty input), amended.  For an input of zero lines the ingestion loop and the
popcount loop give distinct count 0 and `errorCount` 0, the zero-initialised buffer having
population count 0, so no rejection notice is due; but `main` does not report them: a file
that yields zero lines has no byte, its header declares the uncompressed size zero, and
`main` prints a diagnostic and exits with status 1 before the scan. -/
theorem empty_input_amended (archive : Archive) (zipFile : ZipFile) (rest : List ZipFile)
    (hopen : archive.openErr = none) (hfiles : archive.files = zipFile :: rest)
    (hzopen : zipFile.openErr = none)
    (hlines : (scanAll zipFile.data zipFile.readErr zipFile.endWithData).lines = [])
    (herr : (scanAll zipFile.data zipFile.readErr zipFile.endWithData).err = none) :
    scanLoop initState [] = some initState ∧ initState.errorCount = 0 ∧
    uniqueCount initState.bitSet = 0 ∧ distinctCount [] = some 0 ∧
    zipFile.data = [] ∧ zipFile.uncompressedSize = 0 ∧
    main archive =
      some (Outcome.fatal "Не удалось определить размер не сжатого файла\n") := by
  have hu : uniqueCount initState.bitSet = 0 := by
    have h : insertAll (List.replicate (bitSetSize / 8) 0) [] =
        some (List.replicate (bitSetSize / 8) 0) := rfl
    exact uniqueCount_insertAll_replicate h
  obtain ⟨hd, hsize⟩ := size_zero_of_no_lines hzopen hlines herr
  refine ⟨rfl, rfl, hu, ?_, hd, hsize, main_size_zero hopen hfiles hsize⟩
  rw [distinctCount_eq]
  rfl

/-- Witness for C15 amended: an archive whose first file is empty, read by a reader that
returns the end of the stream in a call of its own. -/
theorem empty_input_amended_witness :
    distinctCount [] = some 0 ∧
    main ⟨none, [⟨0, none, [], none, false, fun _ _ => rfl⟩]⟩ =
      some (Outcome.fatal "Не удалось определить размер не сжатого файла\n") :=
  have h := empty_input_amended ⟨none, [⟨0, none, [], none, false, fun _ _ => rfl⟩]⟩
    ⟨0, none, [], none, false, fun _ _ => rfl⟩ [] rfl rfl rfl (by decide) (by decide)
  ⟨h.2.2.2.1, h.2.2.2.2.2.2⟩

/-- C16 (popcount table correctness).  After `init`, for every `i` in `0..255`, the entry
`bitCountTable[i]`, and hence `bitsInByte(byte(i))`, is the number of one bits in the 8-bit
binary representation of `i`, and it is the count the loop `b &= b - 1` ends with. -/
theorem popcount_table_correct (i : Nat) (hi : i < 256) :
    bitCountTable.length = 256 ∧ bitCountTable.getD i 0 = popCount8 i ∧
    bitsInByte (i % 256) = popCount8 i ∧ countLoop 8 (i % 256) 0 = (0, popCount8 i) := by
  have h := table_facts.2 i hi
  exact ⟨table_facts.1, h.1, h.2.1, h.2.2.1⟩

/-- Witness for C16: the byte `0xB5 = 10110101` has five one bits. -/
theorem popcount_table_correct_witness :
    bitCountTable.getD 181 0 = popCount8 181 ∧ popCount8 181 = 5 :=
  ⟨(popcount_table_correct 181 (by decide)).2.1, by decide⟩

/-- C17 (addressing equivalence).  For every key the byte index `key / 8` and bit offset
`key % 8` of the code are `key >> 3` and `key & 7` of the specification, so the insert step
worded either way is the same; the mask `1 << (key % 8)` has exactly the bit number
`key % 8` set, counting from the least significant bit, and the popcount counts it as one. -/
theorem addressing_equivalence (bitSet : List Nat) (key : Nat) :
    key / 8 = key >>> 3 ∧ key % 8 = key &&& 7 ∧
    setBit bitSet key = setBitSpec bitSet key ∧
    (1 <<< (key % 8)) % 256 = 2 ^ (key % 8) ∧
    (∀ j, ((1 <<< (key % 8)) % 256).testBit j = decide (j = key % 8)) ∧
    bitsInByte ((1 <<< (key % 8)) % 256) = 1 := by
  have h1 : key / 8 = key >>> 3 := by
    rw [Nat.shiftRight_eq_div_pow]
  have h2 : key % 8 = key &&& 7 := by
    have := Nat.and_pow_two_sub_one_eq_mod key 3
    simpa using this.symm
  refine ⟨h1, h2, ?_, mask_eq key, ?_, ?_⟩
  · unfold setBit setBitSpec
    simp only [← h1, ← h2]
  · intro j
    rw [mask_eq, Nat.testBit_two_pow]
    by_cases e : j = key % 8
    · simp [e]
    · have e2 : ¬ key % 8 = j := fun h => e h.symm
      simp [e, e2]
  · rw [mask_eq]
    exact bitsInByte_two_pow _ (Nat.mod_lt _ (by decide))

/-- C18 (count step).  For every state of the bitmap and every 32-bit key, the population
count after the insert step is the count before when the bit of the key was already set, and
the count before plus one otherwise; the insert step clears no bit, so the count never
decreases along the ingestion. -/
theorem count_step (bitSet : List Nat) (key : Nat) (hv : ValidBytes bitSet)
    (hk : key < 2 ^ 32) (hlen : bitSet.length = bitSetSize / 8) :
    (∃ bitSet1, setBit bitSet key = some bitSet1 ∧
      uniqueCount bitSet1 =
        (if bitAt bitSet key = true then uniqueCount bitSet else uniqueCount bitSet + 1) ∧
      (∀ i j, (bitSet.getD i 0).testBit j = true → (bitSet1.getD i 0).testBit j = true) ∧
      uniqueCount bitSet ≤ uniqueCount bitSet1) ∧
    (∀ (lines : List String) (st st1 : LoopState), ValidBytes st.bitSet →
      scanLoop st lines = some st1 → uniqueCount st.bitSet ≤ uniqueCount st1.bitSet) := by
  have hs := setBit_eq_some (index_lt_of_length hk hlen)
  refine ⟨⟨_, hs, uniqueCount_setBit hv hs, ?_, ?_⟩, scanLoop_mono⟩
  · intro i j hij
    rw [setBit_testBit hs, hij, Bool.true_or]
  · rw [uniqueCount_setBit hv hs]
    split_ifs <;> omega

/-- Witness for C18: the key `2^32 - 1` on the zero buffer raises the count by one. -/
theorem count_step_witness :
    ∃ bitSet1, setBit makeBitSet 4294967295 = some bitSet1 ∧
      uniqueCount bitSet1 =
        (if bitAt makeBitSet 4294967295 = true then uniqueCount makeBitSet
          else uniqueCount makeBitSet + 1) ∧
      (∀ i j, (makeBitSet.getD i 0).testBit j = true → (bitSet1.getD i 0).testBit j = true) ∧
      uniqueCount makeBitSet ≤ uniqueCount bitSet1 :=
  (count_step makeBitSet 4294967295 (validBytes_replicate _) (by norm_num)
    makeBitSet_length_eq).1

/-- C19 (count bounds).  For every input the final `uniqueCount` is at most `lineCount` and at
most `2^32`; every value of the accumulator of the popcount loop is at most eight times the
number of bytes summed, at most `8 * 2^29`, below `2^63`, so the `int` accumulator does not
overflow. -/
theorem count_bounds (lines : List String) :
    ∃ st, scanLoop initState lines = some st ∧ st.bitSet.length = 2 ^ 29 ∧
      uniqueCount st.bitSet ≤ st.lineCount ∧ uniqueCount st.bitSet ≤ 2 ^ 32 ∧
      (∀ b, bitsInByte b ≤ 8) ∧
      ∀ n, uniqueCount (st.bitSet.take n) ≤ 8 * 2 ^ 29 ∧
        uniqueCount (st.bitSet.take n) < 2 ^ 63 := by
  obtain ⟨b1, hb, hs⟩ := scanLoop_initState lines
  have hl : b1.length = 2 ^ 29 := by rw [insertAll_length hb, makeBitSet_length]
  have hn : ∀ n, uniqueCount (b1.take n) ≤ 8 * 2 ^ 29 := by
    intro n
    have h1 := uniqueCount_le (b1.take n)
    have h2 : (b1.take n).length ≤ 2 ^ 29 := by
      rw [List.length_take, hl]
      exact Nat.min_le_right _ _
    omega
  refine ⟨_, hs, hl, ?_, ?_, bitsInByte_le, ?_⟩
  · show uniqueCount b1 ≤ (lines.filterMap lineKey).length
    rw [uniqueCount_insertAll_replicate hb]
    exact (List.dedup_sublist _).length_le
  · show uniqueCount b1 ≤ 2 ^ 32
    have h1 := uniqueCount_le b1
    rw [hl] at h1
    norm_num at h1 ⊢
    exact h1
  · intro n
    have := hn n
    show uniqueCount (b1.take n) ≤ 8 * 2 ^ 29 ∧ uniqueCount (b1.take n) < 2 ^ 63
    norm_num at this ⊢
    omega

/-- C20 (table construction terminates).  For every byte `b` the loop
`for b != 0 { count++; b &= b - 1 }` leaves through its condition within 8 iterations, more
iterations allowed change nothing, each iteration strictly decreases `b`, and the entry of
the table is in `0..8`. -/
theorem table_construction_terminates (b : Nat) (hb : b < 256) :
    (countLoop 8 b 0).1 = 0 ∧ (countLoop 8 b 0).2 ≤ 8 ∧
    (∀ fuel, 8 ≤ fuel → countLoop fuel b 0 = countLoop 8 b 0) ∧
    (∀ x, x ≠ 0 → x &&& (x - 1) < x) ∧
    bitCountTable.getD b 0 ≤ 8 := by
  have h := table_facts.2 b hb
  rw [Nat.mod_eq_of_lt hb] at h
  have h1 : (countLoop 8 b 0).1 = 0 := by rw [h.2.2.1]
  refine ⟨h1, ?_, ?_, fun x hx => clear_lowest_lt hx, ?_⟩
  · rw [h.2.2.1]
    exact h.2.2.2
  · intro fuel hf
    obtain ⟨m, rfl⟩ : ∃ m, fuel = 8 + m := ⟨fuel - 8, by omega⟩
    exact countLoop_fuel 8 b 0 h1 m
  · rw [h.1]
    exact h.2.2.2

/-- Witness for C20: the byte 255 takes all eight iterations. -/
theorem table_construction_terminates_witness :
    countLoop 8 255 0 = (0, 8) ∧ countLoop 7 255 0 ≠ (0, 8) ∧
    countLoop 100 255 0 = countLoop 8 255 0 :=
  ⟨by decide, by decide,
    (table_construction_terminates 255 (by decide)).2.2.1 100 (by decide)⟩

end CountUniqueIPs
